import Mathlib

/-!
# fastsync client engine: a shallow embedding

The definitions below follow `client.go` and `fileinfo.go`.  Worker bodies are
modelled as functions on an explicit state (the two caches, the queues, the
listing-active counter and a trace of the calls that were issued); every
answer of the outside world (local file system, RPC server) is read from an
oracle record `Env`.
-/

namespace Fastsync

/-! ## Machine integers -/

/-- Conversion to Go `int64`: two's complement wrap-around. -/
def int64 (x : Int) : Int :=
  (x + 9223372036854775808) % 18446744073709551616 - 9223372036854775808

/-- Conversion to Go `int32`: two's complement wrap-around. -/
def int32 (x : Int) : Int :=
  (x + 2147483648) % 4294967296 - 2147483648

/-- Conversion to Go `uint64`. -/
def uint64 (x : Int) : Nat :=
  (x % 18446744073709551616).toNat

/-- Conversion to Go `uint32`. -/
def uint32 (x : Int) : Nat :=
  (x % 4294967296).toNat

/-! ## Constants of Go's `io/fs` package -/

def ModeDir : Nat := 2147483648
def ModeSymlink : Nat := 134217728
def ModeDevice : Nat := 67108864
def ModeNamedPipe : Nat := 33554432
def ModeSocket : Nat := 16777216
def ModeCharDevice : Nat := 2097152
def ModeIrregular : Nat := 524288
def ModePerm : Nat := 511

/-- The mask `fs.ModeType`. -/
def ModeType : Nat :=
  ModeDir ||| ModeSymlink ||| ModeNamedPipe ||| ModeSocket ||| ModeDevice |||
    ModeCharDevice ||| ModeIrregular

/-- The method `FileMode.Perm`. -/
def Perm (m : Nat) : Nat := m &&& ModePerm

/-! ## Metadata record (`fileinfo.go`) -/

/-- The type `syscall.Timespec`. -/
structure Timespec where
  Sec : Int
  Nsec : Int
deriving DecidableEq, Repr, Inhabited

/-- The method `Timespec.Nano` of package `syscall`. -/
def Timespec.Nano (ts : Timespec) : Int :=
  int64 (int64 (ts.Sec * 1000000000) + ts.Nsec)

/-- The struct `FileInfo`; the zero value of Go is `default`. -/
structure FileInfo where
  Name : String := ""
  Mode : Nat := 0
  Size : Int := 0
  IsDir : Bool := false
  Permissions : Nat := 0
  ACL : List Nat := []
  Xattrs : Option (List (String × List Nat)) := none
  Owner : Nat := 0
  Group : Nat := 0
  Inode : Nat := 0
  Nlink : Nat := 0
  Dev : Nat := 0
  Rdev : Nat := 0
  LinkTo : String := ""
  Atim : Timespec := ⟨0, 0⟩
  Mtim : Timespec := ⟨0, 0⟩
  Ctim : Timespec := ⟨0, 0⟩
deriving DecidableEq, Repr

instance : Inhabited FileInfo := ⟨{}⟩

/-- Response of `Server.List`. -/
structure FileListResponse where
  ParentDirectory : String := ""
  Files : List FileInfo := []
deriving DecidableEq, Repr

/-- Arguments of `Server.GetChunk` and `Server.ChecksumChunk`. -/
structure GetChunkArgs where
  Path : String
  Offset : Nat
  Size : Nat
deriving DecidableEq, Repr

/-! ## Paths (`path/filepath` on Unix) -/

/-- Split a path at every slash. -/
def splitSlash : List Char → List (List Char)
  | [] => [[]]
  | c :: cs =>
    match splitSlash cs with
    | [] => [[]]
    | h :: t => if c = '/' then [] :: h :: t else (c :: h) :: t

/-- Lexical processing of `filepath.Clean`: drop empty and `.` elements,
resolve `..` against the element before it.  `acc` holds the output reversed. -/
def cleanParts (rooted : Bool) : List (List Char) → List (List Char) → List (List Char)
  | acc, [] => acc.reverse
  | acc, p :: ps =>
    if p = [] ∨ p = ['.'] then cleanParts rooted acc ps
    else if p = ['.', '.'] then
      match acc with
      | a :: rest =>
        if a = ['.', '.'] then cleanParts rooted (p :: acc) ps
        else cleanParts rooted rest ps
      | [] => if rooted then cleanParts rooted [] ps else cleanParts rooted [p] ps
    else cleanParts rooted (p :: acc) ps

/-- Join path elements with single slashes. -/
def joinSlash : List (List Char) → List Char
  | [] => []
  | [p] => p
  | p :: q :: ps => p ++ '/' :: joinSlash (q :: ps)

/-- Model of `filepath.Clean`. -/
def filepathClean (path : String) : String :=
  let cs := path.data
  if cs = [] then "."
  else
    let rooted : Bool := cs.head? = some '/'
    let body := joinSlash (cleanParts rooted [] (splitSlash cs))
    let out := if rooted then '/' :: body else body
    if out = [] then "." else String.mk out

/-- Model of `filepath.Join`: the elements from the first non-empty one on are
joined with slashes and cleaned. -/
def filepathJoin : List String → String
  | [] => ""
  | e :: rest =>
    if e = "" then filepathJoin rest
    else filepathClean (String.intercalate "/" (e :: rest))

/-- Model of `filepath.Dir`: everything up to the last slash, cleaned. -/
def filepathDir (path : String) : String :=
  filepathClean (String.mk (path.data.reverse.dropWhile (fun c => c ≠ '/')).reverse)

/-! ## Concurrent keyed store -/

namespace Gonk

variable {α σ : Type}

/-- Modelled from the spec: the keyed store of section 4.5 is the third-party
package `gonk`, whose code is not part of the repository.  `Load(key)` is a
snapshot read of the entry whose key compares equal. -/
def Load (cmp : α → α → Int) (g : List α) (key : α) : Option α :=
  g.find? (fun x => decide (cmp x key = 0))

/-- Modelled from the spec: `Store(entry)` is an upsert. -/
def Store (cmp : α → α → Int) : List α → α → List α
  | [], x => [x]
  | y :: ys, x => if cmp y x = 0 then x :: ys else y :: Store cmp ys x

/-- Modelled from the spec: `Delete(key)` removes the entry of that key. -/
def Delete (cmp : α → α → Int) (g : List α) (key : α) : List α :=
  g.filter (fun x => !decide (cmp x key = 0))

/-- Modelled from the spec: `AtomicMutate(key, mutator, upsertIfMissing)`
optionally inserts the given item when the key is missing, then runs the
mutator on the stored entry.  The mutator returns the new entry together with
the values it assigns to captured variables; `none` means it did not run. -/
def AtomicMutate (cmp : α → α → Int) (mf : α → α × σ) (insertIfNotFound : Bool) :
    List α → α → List α × Option σ
  | [], key =>
    if insertIfNotFound then ([(mf key).1], some (mf key).2) else ([], none)
  | y :: ys, key =>
    if cmp y key = 0 then ((mf y).1 :: ys, some (mf y).2)
    else
      let r := AtomicMutate cmp mf insertIfNotFound ys key
      (y :: r.1, r.2)

end Gonk

/-! ## Cache entries and configuration (`client.go`) -/

/-- The struct `inodeinfo`. -/
structure inodeinfo where
  dev : Nat := 0
  inode : Nat := 0
  localhardlinkpath : String := ""
  localdev : Nat := 0
  localinode : Nat := 0
  remaining : Int := 0
deriving DecidableEq, Repr

/-- The method `inodeinfo.Compare` (lines 24-30), with `int` of 64 bits. -/
def inodeinfo.Compare (i i2 : inodeinfo) : Int :=
  let d := uint64 ((i.dev : Int) - (i2.dev : Int))
  if d ≠ 0 then int64 d
  else int64 (uint64 ((i.inode : Int) - (i2.inode : Int)))

/-- The struct `dirinfo`. -/
structure dirinfo where
  name : String := ""
  info : FileInfo := {}
  extraentries : List String := []
  remaining : Int := 0
deriving DecidableEq, Repr

/-- Lexicographic order on character sequences. -/
def lessChars : List Char → List Char → Bool
  | [], [] => false
  | [], _ :: _ => true
  | _ :: _, [] => false
  | a :: as, b :: bs =>
    if a.toNat < b.toNat then true
    else if a.toNat = b.toNat then lessChars as bs
    else false

/-- Model of `strings.Compare`. -/
def stringsCompare (a b : String) : Int :=
  if a = b then 0 else if lessChars a.data b.data then -1 else 1

/-- The method `dirinfo.Compare` (lines 39-41). -/
def dirinfo.Compare (f f2 : dirinfo) : Int :=
  stringsCompare f.name f2.name

/-- Configuration fields of the struct `Client`. -/
structure Client where
  BasePath : String := ""
  AlwaysChecksum : Bool := false
  SendACL : Bool := false
  Delete : Bool := false
  ParallelFile : Int := 0
  ParallelDir : Int := 0
  PreserveHardlinks : Bool := false
  BlockSize : Int := 0
deriving DecidableEq, Repr

/-- The constructor `NewClient` (lines 68-77). -/
def NewClient : Client :=
  { ParallelFile := 4096, ParallelDir := 512, PreserveHardlinks := true,
    BlockSize := 128 * 1024 }

/-! ## The outside world -/

/-- Result of `PathToFileInfo`. -/
inductive StatResult where
  | ok (fi : FileInfo)
  | notExist
  | otherErr
deriving DecidableEq, Repr

/-- Result of `FileInfo.Create`. -/
inductive CreateResult where
  | ok
  | notSupportedByPlatform
  | otherErr
deriving DecidableEq, Repr

/-- Result of `os.Link`. -/
inductive LinkResult where
  | ok
  | notExist
  | otherErr
deriving DecidableEq, Repr

/-- Answers of the local file system and of the server.  Boolean fields are
`true` when the operation succeeds (`err == nil`). -/
structure Env where
  /-- `PathToFileInfo(path)` -/
  lstat : String → StatResult
  /-- the k-th `PathToFileInfo(ini.localhardlinkpath)` of the verification loop -/
  lstatRetry : Nat → StatResult
  /-- `os.Remove(path)` -/
  remove : String → Bool
  /-- `os.RemoveAll(path)` -/
  removeAll : String → Bool
  /-- `os.Truncate(path, size)` -/
  truncate : String → Bool
  /-- the k-th `os.Link` of the materialization loop -/
  link : Nat → LinkResult
  /-- `localfi.Create(remotefi)` -/
  create : CreateResult
  /-- `os.OpenFile(localpath, ...)` -/
  openFile : Bool
  /-- size reported by `os.Stat(localpath)` after the file was opened -/
  existingsize : Int
  /-- `Server.Open` -/
  serverOpen : Bool
  /-- `Server.ChecksumChunk` at an offset -/
  checksumChunk : Int → Bool
  /-- `localfile.ReadAt` at an offset: `none` is an error, else the count read -/
  readAt : Int → Option Int
  /-- whether the local hash at an offset equals the `hash` variable -/
  hashEqual : Int → Bool
  /-- `Server.GetChunk` at an offset -/
  getChunk : Int → Bool
  /-- `localfile.WriteAt` at an offset: `none` is an error, else the count written -/
  writeAt : Int → Option Int
  /-- `os.MkdirAll(path, 0755)` -/
  mkdirAll : String → Bool
  /-- `Server.List(name)`: `none` is an error -/
  serverList : String → Option FileListResponse
  /-- `os.ReadDir(path)`: `none` is an error, else the entry names -/
  readDir : String → Option (List String)
  /-- `Server.Stat(name)`: `none` is an error -/
  serverStat : String → Option FileInfo

/-- Calls with an effect outside the worker, in the order they are issued.
`PostProcessDir` and `ProcessedItemInDir` record the invocation itself, and
`Block` an iteration of the block loop with the chunk arguments it built. -/
inductive Event where
  | Remove (path : String)
  | RemoveAll (path : String)
  | Truncate (path : String) (size : Int)
  | Link (oldname newname : String)
  | Create (localfi remotefi : FileInfo)
  | MkdirAll (path : String)
  | OpenFile (path : String)
  | ServerOpen (name : String)
  | ChecksumChunk (args : GetChunkArgs)
  | GetChunk (args : GetChunkArgs)
  | WriteAt (path : String) (offset : Int)
  | ServerClose (name : String)
  | ApplyChanges (localfi remotefi : FileInfo)
  | PostProcessDir (name : String)
  | ProcessedItemInDir (path : String)
  | Block (args : GetChunkArgs)
deriving DecidableEq, Repr

/-- How the body of a worker loop was left: at its end, by `continue`, by
`break`, or not at all within the bound given to an inner loop. -/
inductive Flow where
  | next
  | continue_
  | break_
  | stuck
deriving DecidableEq, Repr

/-- Shared state of a run. -/
structure State where
  inodes : List inodeinfo := []
  dircache : List dirinfo := []
  filequeue : List FileInfo := []
  dirqueue : List FileInfo := []
  listfilesActive : Int := 0
  trace : List Event := []
deriving DecidableEq, Repr

/-! ## Finalization cascade (lines 547-591) -/

/-- The method `Client.PostProcessDir` (lines 573-591): the calls it issues. -/
def PostProcessDir (c : Client) (env : Env) (item : dirinfo) : List Event :=
  (if c.Delete then
      item.extraentries.map
        (fun extraentry => Event.RemoveAll (filepathJoin [c.BasePath, item.name, extraentry]))
    else []) ++
  (match env.lstat (filepathJoin [c.BasePath, item.name]) with
    | StatResult.ok localdirfi => [Event.ApplyChanges localdirfi item.info]
    | _ => [])

/-- The mutator of `ProcessedItemInDir` (lines 553-561): decrement, and run
`PostProcessDir` when nothing is left.  Returns the entry, the calls issued and
`donewithdirectory`. -/
def processedMutator (c : Client) (env : Env) (item : dirinfo) :
    dirinfo × (List Event × Bool) :=
  let left := int32 (item.remaining - 1)
  let item1 := { item with remaining := left }
  if left ≤ 0 then
    (item1, (Event.PostProcessDir item1.name :: PostProcessDir c env item1, true))
  else (item1, ([], false))

/-- The method `Client.ProcessedItemInDir` (lines 547-571) with a bound on the
depth of the recursion; `none` when the bound is reached. -/
def ProcessedItemInDirAux (c : Client) (env : Env) :
    Nat → String → List dirinfo → Option (List dirinfo × List Event)
  | 0, _, _ => none
  | fuel + 1, path, dircache =>
    let lookupdirectory : dirinfo := { name := path }
    let r := Gonk.AtomicMutate dirinfo.Compare (processedMutator c env) false
      dircache lookupdirectory
    let events := Event.ProcessedItemInDir path :: (match r.2 with
      | some out => out.1
      | none => [])
    let donewithdirectory := match r.2 with
      | some out => out.2
      | none => false
    if donewithdirectory then
      let dircache2 := Gonk.Delete dirinfo.Compare r.1 lookupdirectory
      if path ≠ "/" then
        match ProcessedItemInDirAux c env fuel (filepathDir path) dircache2 with
        | some (d, ev) => some (d, events ++ ev)
        | none => none
      else some (dircache2, events)
    else some (r.1, events)

/-- The method `Client.ProcessedItemInDir`: every recursive call follows the
deletion of an entry, so one more than the number of entries bounds the depth. -/
def ProcessedItemInDir (c : Client) (env : Env) (path : String) (s : State) :
    Option State :=
  match ProcessedItemInDirAux c env (s.dircache.length + 1) path s.dircache with
  | some (d, ev) => some { s with dircache := d, trace := s.trace ++ ev }
  | none => none

/-! ## Root enqueue and directory worker (lines 86-217) -/

/-- Start of `Client.Run` (lines 86-98): stat the remote root, store its
directory-cache entry and queue it.  `none` is the error return. -/
def runRoot (env : Env) (s : State) : Option State :=
  match env.serverStat "/" with
  | none => none
  | some rootdirinfo =>
    some { s with
      listfilesActive := s.listfilesActive + 1
      dircache := Gonk.Store dirinfo.Compare s.dircache
        { name := rootdirinfo.Name, remaining := -1 }
      dirqueue := s.dirqueue ++ [rootdirinfo] }

/-- Local-only entries of a directory (lines 126-138). -/
def extraEntries (c : Client) (env : Env) (item : FileInfo) (files : List FileInfo) :
    List String :=
  let remotenames := files.map (fun remotefi => remotefi.Name)
  if c.Delete then
    match env.readDir (filepathJoin [c.BasePath, item.Name]) with
    | none => []
    | some localentries =>
      localentries.filter (fun le => !remotenames.contains (filepathJoin [item.Name, le]))
  else []

/-- The counter store of the directory worker (lines 140-153): the mutator
sets `remaining` to the number of entries and attaches `extraentries`. -/
def setRemaining (dircache : List dirinfo) (name : String) (processentries : Int)
    (extraentries : List String) : List dirinfo × Option Unit :=
  Gonk.AtomicMutate dirinfo.Compare
    (fun f => ({ f with remaining := int32 processentries, extraentries := extraentries }, ()))
    false dircache { name := name }

/-- Queueing of one sub-directory (lines 170-207). -/
def queueDirectory (c : Client) (env : Env) (s : State) (remotefi : FileInfo) : State :=
  let localpath := filepathJoin [c.BasePath, remotefi.Name]
  let enqueue (s1 : State) : State :=
    { s1 with
      listfilesActive := s1.listfilesActive + 1
      dircache := Gonk.Store dirinfo.Compare s1.dircache
        { name := remotefi.Name, info := remotefi, remaining := -1 }
      dirqueue := s1.dirqueue ++ [remotefi] }
  match env.lstat localpath with
  | StatResult.notExist =>
    let s1 := { s with trace := s.trace ++ [Event.MkdirAll localpath] }
    if env.mkdirAll localpath then enqueue s1 else s1
  | StatResult.ok localstat =>
    if !localstat.IsDir then
      let s1 := { s with
        trace := s.trace ++ [Event.RemoveAll localpath, Event.MkdirAll localpath] }
      if env.mkdirAll localpath then enqueue s1 else s1
    else enqueue s
  | StatResult.otherErr => enqueue s

/-- Body of the directory worker loop for one queue item (lines 105-213). -/
def dirWorkerBody (c : Client) (env : Env) (item : FileInfo) (s : State) : Flow × State :=
  match env.serverList item.Name with
  | none => (Flow.continue_, s)
  | some filelistresponse =>
    let extraentries := extraEntries c env item filelistresponse.Files
    let processentries : Int := filelistresponse.Files.length
    let s1 := { s with
      dircache := (setRemaining s.dircache item.Name processentries extraentries).1 }
    let done (s2 : State) : Flow × State :=
      (Flow.next, { s2 with listfilesActive := s2.listfilesActive - 1 })
    if processentries = 0 then
      match ProcessedItemInDir c env item.Name s1 with
      | some s2 => done s2
      | none => (Flow.stuck, s1)
    else
      let s2 := { s1 with
        filequeue := s1.filequeue ++ filelistresponse.Files.filter (fun remotefi => !remotefi.IsDir) }
      done ((filelistresponse.Files.filter (fun remotefi => remotefi.IsDir)).foldl
        (queueDirectory c env) s2)

/-! ## File worker (lines 223-524) -/

/-- Local variables of one iteration of the file worker loop. -/
structure Locals where
  localpath : String
  remotefi : FileInfo
  localfi : FileInfo
  create_file : Bool := false
  copy_verify_file : Bool := false
  apply_attributes : Bool := false
  remaininghardlinks : Int := -1
  justaddedtoinodecache : Bool := false
  transfersuccess : Bool := true
deriving DecidableEq, Repr

/-- Result of a stage of the loop body. -/
abbrev Step := Flow × Locals × State

/-- Run the next stage when the previous one fell through to it. -/
def Step.andThen (r : Step) (f : Locals → State → Step) : Step :=
  match r with
  | (Flow.next, l, s) => f l s
  | other => other

/-- Append calls to the trace. -/
def State.emit (s : State) (ev : List Event) : State :=
  { s with trace := s.trace ++ ev }

/-- Model of `atomic.CompareAndSwapUint64(addr, old, new)`: the new content of
`addr` and whether the swap took place. -/
def CompareAndSwapUint64 (addr old new : Nat) : Nat × Bool :=
  if addr = old then (new, true) else (addr, false)

/-- The key used for the inode cache. -/
def inodeKey (remotefi : FileInfo) : inodeinfo :=
  { dev := remotefi.Dev, inode := remotefi.Inode }

/-- Local stat (lines 224-241). -/
def statStage (c : Client) (env : Env) (remotefi : FileInfo) (s : State) : Step :=
  let localpath := filepathJoin [c.BasePath, remotefi.Name]
  match env.lstat localpath with
  | StatResult.ok localfi =>
    (Flow.next, { localpath := localpath, remotefi := remotefi, localfi := localfi }, s)
  | StatResult.notExist =>
    (Flow.next, { localpath := localpath, remotefi := remotefi,
                  localfi := { Name := localpath }, create_file := true }, s)
  | StatResult.otherErr =>
    (Flow.continue_, { localpath := localpath, remotefi := remotefi, localfi := {} }, s)

/-- ACL scrubbing (lines 243-247). -/
def aclStage (c : Client) (l : Locals) (s : State) : Step :=
  if !c.SendACL then
    (Flow.next, { l with localfi := { l.localfi with ACL := [] },
                         remotefi := { l.remotefi with ACL := [] } }, s)
  else (Flow.next, l, s)

/-- The mutator of hardlink registration (lines 258-268).  Returns the entry
and the values assigned to `remaininghardlinks` and `justaddedtoinodecache`. -/
def registrationMutator (l : Locals) (i : inodeinfo) : inodeinfo × (Int × Bool) :=
  let remaininghardlinks := int32 (i.remaining - 1)
  let i1 := { i with remaining := remaininghardlinks }
  let justadded : Bool := remaininghardlinks = int32 (uint64 ((l.remotefi.Nlink : Int) - 1))
  let cas := CompareAndSwapUint64 i1.localinode l.localfi.Inode 0
  if !l.create_file && cas.2 then
    ({ i1 with localinode := cas.1, localdev := l.localfi.Dev }, (remaininghardlinks, justadded))
  else (i1, (remaininghardlinks, justadded))

/-- Hardlink registration (lines 249-269). -/
def registerStage (c : Client) (l : Locals) (s : State) : Step :=
  if c.PreserveHardlinks && decide (l.remotefi.Nlink > 1) then
    let r := Gonk.AtomicMutate inodeinfo.Compare (registrationMutator l) true s.inodes
      { dev := l.remotefi.Dev, inode := l.remotefi.Inode, localhardlinkpath := l.localpath,
        remaining := int32 l.remotefi.Nlink }
    match r.2 with
    | some out =>
      (Flow.next, { l with remaininghardlinks := out.1, justaddedtoinodecache := out.2 },
        { s with inodes := r.1 })
    | none => (Flow.next, l, { s with inodes := r.1 })
  else (Flow.next, l, s)

/-- The mutator of hardlink verification (lines 291-296).  Returns the entry
and, when the swap took place, the copy assigned to `ini`. -/
def verificationMutator (otherlocalfi : FileInfo) (i : inodeinfo) :
    inodeinfo × Option inodeinfo :=
  let cas := CompareAndSwapUint64 i.localinode otherlocalfi.Inode 0
  if cas.2 then
    let i1 := { i with localinode := cas.1, localdev := otherlocalfi.Dev }
    (i1, some i1)
  else (i, none)

/-- The loop that looks for the local inode of the first hardlink (lines
279-299); `k` counts the attempts.  `none` when the bound is reached. -/
def findLocalInode (env : Env) (remotefi : FileInfo) :
    Nat → Nat → inodeinfo → List inodeinfo → Option (inodeinfo × List inodeinfo)
  | 0, _, _, _ => none
  | fuel + 1, k, ini, inodes =>
    match env.lstatRetry k with
    | StatResult.notExist => findLocalInode env remotefi fuel (k + 1) ini inodes
    | StatResult.otherErr => findLocalInode env remotefi fuel (k + 1) ini inodes
    | StatResult.ok otherlocalfi =>
      let r := Gonk.AtomicMutate inodeinfo.Compare (verificationMutator otherlocalfi) false
        inodes (inodeKey remotefi)
      match r.2 with
      | some (some i) => some (i, r.1)
      | _ => some (ini, r.1)

/-- Comparison of the local file with the cached pair, and the unlink (lines
302-310). -/
def verifyCompare (env : Env) (l : Locals) (s : State) (ini : inodeinfo) : Step :=
  if l.localfi.Inode ≠ ini.localinode ∨ l.localfi.Dev ≠ ini.localdev then
    let s1 := s.emit [Event.Remove l.localpath]
    if env.remove l.localpath then (Flow.next, { l with create_file := true }, s1)
    else (Flow.continue_, l, s1)
  else (Flow.next, l, s)

/-- Hardlink verification (lines 271-312). -/
def verifyStage (fuel : Nat) (c : Client) (env : Env) (l : Locals) (s : State) : Step :=
  if !l.create_file && decide (l.remotefi.Nlink > 1) && c.PreserveHardlinks
      && !l.justaddedtoinodecache then
    match Gonk.Load inodeinfo.Compare s.inodes (inodeKey l.remotefi) with
    | some ini =>
      if ini.localinode = 0 then
        match findLocalInode env l.remotefi fuel 0 ini s.inodes with
        | some (ini1, inodes1) => verifyCompare env l { s with inodes := inodes1 } ini1
        | none => (Flow.stuck, l, s)
      else verifyCompare env l s ini
    | none => (Flow.next, l, s)
  else (Flow.next, l, s)

/-- Type mismatch (lines 314-323). -/
def typeStage (env : Env) (l : Locals) (s : State) : Step :=
  if !l.create_file && decide (l.localfi.Mode &&& ModeType ≠ l.remotefi.Mode &&& ModeType) then
    let s1 := s.emit [Event.Remove l.localpath]
    if env.remove l.localpath then (Flow.next, { l with create_file := true }, s1)
    else (Flow.continue_, l, s1)
  else (Flow.next, l, s)

/-- Size, time and permission differences (lines 325-345). -/
def diffStage (env : Env) (l : Locals) (s : State) : Step :=
  if !l.create_file then
    let timeperm (l1 : Locals) : Locals :=
      let l2 := if l1.localfi.Mtim.Nano ≠ l1.remotefi.Mtim.Nano then
        { l1 with apply_attributes := true } else l1
      if Perm l2.localfi.Mode ≠ Perm l2.remotefi.Mode ∨ l2.localfi.Owner ≠ l2.remotefi.Owner
          ∨ l2.localfi.Group ≠ l2.remotefi.Group then
        { l2 with apply_attributes := true }
      else l2
    if l.localfi.Size > l.remotefi.Size ∧ l.remotefi.Mode &&& ModeSymlink = 0 then
      let s1 := s.emit [Event.Truncate l.localpath (int64 l.remotefi.Size)]
      if env.truncate l.localpath then
        (Flow.next, timeperm { l with apply_attributes := true }, s1)
      else (Flow.continue_, l, s1)
    else (Flow.next, timeperm l, s)
  else (Flow.next, l, s)

/-- Decision to copy or verify (lines 347-354). -/
def copyDecisionStage (c : Client) (l : Locals) (s : State) : Step :=
  let l1 := if l.create_file then { l with apply_attributes := true } else l
  if l1.remotefi.Size > 0 ∧ l1.remotefi.Mode &&& ModeSymlink = 0 ∧
      (l1.apply_attributes = true ∨ c.AlwaysChecksum = true) then
    (Flow.next, { l1 with copy_verify_file := true }, s)
  else (Flow.next, l1, s)

/-- The retry loop around `os.Link` (lines 365-379): the calls issued and
whether the last one succeeded. -/
def linkLoop (env : Env) (oldname newname : String) : Nat → Nat → List Event × Bool
  | 0, _ => ([], false)
  | fuel + 1, retries =>
    match env.link retries with
    | LinkResult.ok => ([Event.Link oldname newname], true)
    | LinkResult.notExist =>
      if retries + 1 < 25 then
        let r := linkLoop env oldname newname fuel (retries + 1)
        (Event.Link oldname newname :: r.1, r.2)
      else ([Event.Link oldname newname], false)
    | LinkResult.otherErr => ([Event.Link oldname newname], false)

/-- Hardlink materialization (lines 356-390). -/
def materializeStage (c : Client) (env : Env) (l : Locals) (s : State) : Step :=
  if l.create_file && c.PreserveHardlinks && decide (l.remotefi.Nlink > 1)
      && !l.justaddedtoinodecache then
    match Gonk.Load inodeinfo.Compare s.inodes (inodeKey l.remotefi) with
    | some ini =>
      if l.localpath ≠ ini.localhardlinkpath then
        let r := linkLoop env ini.localhardlinkpath l.localpath 25 0
        if r.2 then
          (Flow.next, { l with create_file := false, copy_verify_file := false,
                               apply_attributes := true }, s.emit r.1)
        else (Flow.continue_, l, s.emit r.1)
      else (Flow.next, l, s)
    | none => (Flow.next, l, s)
  else (Flow.next, l, s)

/-- Creation of the local entry (lines 402-411). -/
def createStage (env : Env) (l : Locals) (s : State) : Step :=
  if l.create_file then
    let s1 := s.emit [Event.Create l.localfi l.remotefi]
    match env.create with
    | CreateResult.ok => (Flow.next, l, s1)
    | CreateResult.notSupportedByPlatform => (Flow.continue_, l, s1)
    | CreateResult.otherErr => (Flow.continue_, l, s1)
  else (Flow.next, l, s)

/-- The chunk arguments built in one iteration (lines 440-448). -/
def chunkArgs (c : Client) (remotefi : FileInfo) (i : Int) : Int × GetChunkArgs :=
  let length0 := int64 c.BlockSize
  let length := if int64 (i + length0) > remotefi.Size then int64 (remotefi.Size - i) else length0
  (length, { Path := remotefi.Name, Offset := uint64 i, Size := uint64 length })

/-- Transfer of one chunk (lines 473-491): the calls issued and whether all
of them succeeded and wrote `length` bytes. -/
def transferChunk (env : Env) (localpath : String) (args : GetChunkArgs) (i length : Int) :
    List Event × Bool :=
  if env.getChunk i then
    match env.writeAt i with
    | none => ([Event.GetChunk args, Event.WriteAt localpath i], false)
    | some n => ([Event.GetChunk args, Event.WriteAt localpath i], decide (n = length))
  else ([Event.GetChunk args], false)

/-- The block loop (lines 434-494).  Returns the calls issued and the final
values of `transfersuccess` and `apply_attributes`; `none` when the bound on
the number of iterations is reached. -/
def blockLoop (c : Client) (env : Env) (localpath : String) (remotefi : FileInfo)
    (existingsize : Int) : Nat → Int → Bool → Bool → Option (List Event × Bool × Bool)
  | 0, _, _, _ => none
  | fuel + 1, i, transfersuccess, apply_attributes =>
    if i < remotefi.Size then
      if !transfersuccess then some ([], transfersuccess, apply_attributes)
      else
        let length := (chunkArgs c remotefi i).1
        let args := (chunkArgs c remotefi i).2
        let next := int64 (i + int64 c.BlockSize)
        let transfer (pre : List Event) (ts : Bool) : Option (List Event × Bool × Bool) :=
          let t := transferChunk env localpath args i length
          if t.2 then
            match blockLoop c env localpath remotefi existingsize fuel next ts true with
            | some r => some (pre ++ t.1 ++ r.1, r.2)
            | none => none
          else some (pre ++ t.1, false, apply_attributes)
        if int64 (i + length) ≤ existingsize then
          let pre := [Event.Block args, Event.ChecksumChunk args]
          let ts := env.checksumChunk i
          match env.readAt i with
          | none => some (pre, false, apply_attributes)
          | some n =>
            if n = length ∧ env.hashEqual i = true then
              match blockLoop c env localpath remotefi existingsize fuel next ts
                  apply_attributes with
              | some r => some (pre ++ r.1, r.2)
              | none => none
            else transfer pre ts
        else transfer [Event.Block args] transfersuccess
    else some ([], transfersuccess, apply_attributes)

/-- Block transfer (lines 413-500). -/
def transferStage (fuel : Nat) (c : Client) (env : Env) (l : Locals) (s : State) : Step :=
  if l.copy_verify_file then
    let s1 := s.emit [Event.OpenFile l.localpath]
    if env.openFile then
      let existingsize := env.existingsize
      let s2 := s1.emit [Event.ServerOpen l.remotefi.Name]
      if env.serverOpen then
        match blockLoop c env l.localpath l.remotefi existingsize fuel 0 l.transfersuccess
            l.apply_attributes with
        | some r =>
          (Flow.next, { l with transfersuccess := r.2.1, apply_attributes := r.2.2 },
            s2.emit (r.1 ++ [Event.ServerClose l.remotefi.Name]))
        | none => (Flow.stuck, l, s2)
      else (Flow.break_, l, s2)
    else (Flow.continue_, l, s1)
  else (Flow.next, l, s)

/-- Attribute application (lines 502-508). -/
def applyStage (l : Locals) (s : State) : Step :=
  if l.apply_attributes && l.transfersuccess then
    (Flow.next, l, s.emit [Event.ApplyChanges l.localfi l.remotefi])
  else (Flow.next, l, s)

/-- Inode cleanup (lines 510-518). -/
def cleanupStage (l : Locals) (s : State) : Step :=
  if l.remaininghardlinks = 0 then
    (Flow.next, l, { s with inodes := Gonk.Delete inodeinfo.Compare s.inodes (inodeKey l.remotefi) })
  else (Flow.next, l, s)

/-- Report to the finalization cascade (line 521). -/
def reportStage (c : Client) (env : Env) (l : Locals) (s : State) : Step :=
  match ProcessedItemInDir c env (filepathDir l.remotefi.Name) s with
  | some s1 => (Flow.next, l, s1)
  | none => (Flow.stuck, l, s)

/-- The decisions of the file worker (lines 224-354): everything up to and
including the setting of `copy_verify_file`. -/
def fileDecisions (fuel : Nat) (c : Client) (env : Env) (remotefi : FileInfo) (s : State) :
    Step :=
  ((((((statStage c env remotefi s).andThen (aclStage c)).andThen (registerStage c)).andThen
    (verifyStage fuel c env)).andThen (typeStage env)).andThen (diffStage env)).andThen
    (copyDecisionStage c)

/-- The file worker up to the inode cleanup (lines 224-518): everything
before the report to the finalization cascade.  `fuel` bounds the iterations
of the inner loops. -/
def fileWorkerSteps (fuel : Nat) (c : Client) (env : Env) (remotefi : FileInfo) (s : State) :
    Step :=
  (((((fileDecisions fuel c env remotefi s).andThen (materializeStage c env)).andThen
    (createStage env)).andThen (transferStage fuel c env)).andThen applyStage).andThen
    cleanupStage

/-- The file worker up to the creation of the local entry (lines 224-411). -/
def fileWorkerCreate (fuel : Nat) (c : Client) (env : Env) (remotefi : FileInfo) (s : State) :
    Step :=
  ((fileDecisions fuel c env remotefi s).andThen (materializeStage c env)).andThen
    (createStage env)

/-- The file worker up to the type check (lines 224-323). -/
def fileWorkerHead (fuel : Nat) (c : Client) (env : Env) (remotefi : FileInfo) (s : State) :
    Step :=
  ((((statStage c env remotefi s).andThen (aclStage c)).andThen (registerStage c)).andThen
    (verifyStage fuel c env)).andThen (typeStage env)

/-- The file worker from the comparison of size, time and permissions to the
inode cleanup (lines 325-518). -/
def fileWorkerTail (fuel : Nat) (c : Client) (env : Env) (l : Locals) (s : State) : Step :=
  ((((((diffStage env l s).andThen (copyDecisionStage c)).andThen
    (materializeStage c env)).andThen (createStage env)).andThen
    (transferStage fuel c env)).andThen applyStage).andThen cleanupStage

/-- Body of the file worker loop for one queue item (lines 224-523). -/
def fileWorkerBody (fuel : Nat) (c : Client) (env : Env) (remotefi : FileInfo) (s : State) :
    Step :=
  (fileWorkerSteps fuel c env remotefi s).andThen (reportStage c env)

/-- Hardlink registration of several files one after another: the locals of
each file after its registration, and the final state. -/
def registerAll (c : Client) : List Locals → State → List Locals × State
  | [], s => ([], s)
  | l :: ls, s =>
    let r := registerStage c l s
    let rest := registerAll c ls r.2.2
    (r.2.1 :: rest.1, rest.2)

/-- Successive reports for the same directory: `ProcessedItemInDir(path)`
invoked `j` times. -/
def processedTimes (c : Client) (env : Env) (path : String) : Nat → State → Option State
  | 0, s => some s
  | j + 1, s => (processedTimes c env path j s).bind (ProcessedItemInDir c env path)

/-- Number of times `PostProcessDir` was run for the entry `name`. -/
def finalizations (name : String) (s : State) : Nat :=
  s.trace.count (Event.PostProcessDir name)

/-- The chunks built by the iterations of the block loop, as pairs of offset
and length, in the order of the iterations. -/
def blockVisits (ev : List Event) : List (Nat × Nat) :=
  ev.filterMap (fun e =>
    match e with
    | Event.Block args => some (args.Offset, args.Size)
    | _ => none)

/-- The chunks requested by `Server.GetChunk`, as pairs of offset and length. -/
def getChunks (ev : List Event) : List (Nat × Nat) :=
  ev.filterMap (fun e =>
    match e with
    | Event.GetChunk args => some (args.Offset, args.Size)
    | _ => none)

/-- The chunks requested by `Server.ChecksumChunk`. -/
def checksumChunks (ev : List Event) : List (Nat × Nat) :=
  ev.filterMap (fun e =>
    match e with
    | Event.ChecksumChunk args => some (args.Offset, args.Size)
    | _ => none)

/-- No operation of the block loop fails: every checksum request, local read,
chunk request and local write succeeds, and a write stores the whole chunk. -/
def noFailure (c : Client) (env : Env) (remotefi : FileInfo) : Prop :=
  ∀ i : Int, env.checksumChunk i = true ∧ (env.readAt i).isSome = true ∧
    env.getChunk i = true ∧ env.writeAt i = some (chunkArgs c remotefi i).1

/-- The arguments of the `Server.ChecksumChunk` requests, in the order they
are issued. -/
def checksumRequests (ev : List Event) : List GetChunkArgs :=
  ev.filterMap (fun e =>
    match e with
    | Event.ChecksumChunk args => some args
    | _ => none)

/-- The arguments of the `Server.GetChunk` requests, in the order they are
issued. -/
def getRequests (ev : List Event) : List GetChunkArgs :=
  ev.filterMap (fun e =>
    match e with
    | Event.GetChunk args => some args
    | _ => none)

/-- No operation that the block loop issues at the offsets `0, B, 2B, ...`
below the remote size fails.  At such an offset `i` with chunk length
`length`: when `i + length <= existingsize` (as `int64`) the checksum request
succeeds and the local read returns all `length` bytes; and unless that is so
and the hashes are equal, the chunk request succeeds and the local write
stores all `length` bytes. -/
def issuedSucceed (c : Client) (env : Env) (remotefi : FileInfo) (existingsize : Int) : Prop :=
  ∀ k : Nat, (k : Int) * int64 c.BlockSize < remotefi.Size →
    (int64 ((k : Int) * int64 c.BlockSize
        + (chunkArgs c remotefi ((k : Int) * int64 c.BlockSize)).1) ≤ existingsize →
      env.checksumChunk ((k : Int) * int64 c.BlockSize) = true ∧
      env.readAt ((k : Int) * int64 c.BlockSize)
        = some (chunkArgs c remotefi ((k : Int) * int64 c.BlockSize)).1) ∧
    (¬ (int64 ((k : Int) * int64 c.BlockSize
          + (chunkArgs c remotefi ((k : Int) * int64 c.BlockSize)).1) ≤ existingsize ∧
        env.hashEqual ((k : Int) * int64 c.BlockSize) = true) →
      env.getChunk ((k : Int) * int64 c.BlockSize) = true ∧
      env.writeAt ((k : Int) * int64 c.BlockSize)
        = some (chunkArgs c remotefi ((k : Int) * int64 c.BlockSize)).1)

/-- Offsets in a local file are `int64`: a read or write of `n` bytes at
offset `i` that succeeds ends at or before byte 2^63 - 1. -/
def withinOffsets (env : Env) : Prop :=
  ∀ i n : Int, env.readAt i = some n ∨ env.writeAt i = some n → i + n < 9223372036854775808

/-- The chunk of a file of `S` bytes at offset `o` for blocks of `B` bytes. -/
def chunkAt (name : String) (S B o : Nat) : GetChunkArgs :=
  { Path := name, Offset := o, Size := min B (S - o) }

/-! ## Attribute application (`fileinfo.go`, lines 112-184) and orderings -/

/-- Calls of the metadata driver and of the ACL and xattr packages issued by
`ApplyChanges`. -/
inductive AttrCall where
  | Chown (fi2 : FileInfo)
  | Chmod (fi2 : FileInfo)
  | AclSet (name : String) (acl : List Nat)
  | LRemove (name attr : String)
  | LSet (name attr : String) (values : List Nat)
  | SetTimestamps (fi2 : FileInfo)
deriving DecidableEq, Repr

/-- The bit clear operator of Go, `x &^ y`, on 32-bit values. -/
def andNot32 (x y : Nat) : Nat := x &&& (4294967295 ^^^ y)

/-- The xattr part of `ApplyChanges` (lines 144-173): attributes missing from
`fi2` are removed, attributes that are new or differ are set. -/
def applyXattrs (name : String) (localx : Option (List (String × List Nat)))
    (remotex : List (String × List Nat)) : List AttrCall :=
  (match localx with
    | some x1 =>
      (x1.filter (fun a => (remotex.lookup a.1).isNone)).map
        (fun a => AttrCall.LRemove name a.1)
    | none => []) ++
  remotex.filterMap (fun a =>
    match (localx.getD []).lookup a.1 with
    | some localvalues =>
      if localvalues ≠ a.2 then some (AttrCall.LSet name a.1 a.2) else none
    | none => some (AttrCall.LSet name a.1 a.2))

/-- The method `FileInfo.ApplyChanges` (lines 112-184): the calls it issues.
`xattrSupported` is the constant `xattr.XATTR_SUPPORTED` and `aclGet` the
result of `acl.Get(fi.Name)`, `none` for an error. -/
def ApplyChanges (xattrSupported : Bool) (aclGet : Option (List Nat)) (fi fi2 : FileInfo) :
    List AttrCall :=
  (if fi.Owner ≠ fi2.Owner ∨ fi.Group ≠ fi2.Group then [AttrCall.Chown fi2] else []) ++
  (if fi2.Mode &&& ModeSymlink = 0 then
    (if andNot32 (uint32 fi.Mode) ModePerm ≠ andNot32 fi2.Permissions ModePerm then
      [AttrCall.Chmod fi2] else []) ++
    (if fi2.ACL.length > 0 then
      match aclGet with
      | none => []
      | some currentacl =>
        if currentacl ≠ fi2.ACL then [AttrCall.AclSet fi.Name fi2.ACL] else []
     else []) ++
    (match xattrSupported, fi2.Xattrs with
      | true, some remotex => applyXattrs fi.Name fi.Xattrs remotex
      | _, _ => [])
   else []) ++
  (if fi.Mtim ≠ fi2.Mtim then [AttrCall.SetTimestamps fi2] else [])

/-- Lexicographic order on the unsigned pairs (dev, inode). -/
def inodeLess (a b : inodeinfo) : Prop :=
  a.dev < b.dev ∨ (a.dev = b.dev ∧ a.inode < b.inode)

instance (a b : inodeinfo) : Decidable (inodeLess a b) := by
  unfold inodeLess
  infer_instance

/-- Number of invocations of `ProcessedItemInDir` recorded in a trace. -/
def reportCalls (ev : List Event) : Nat :=
  ev.countP (fun e =>
    match e with
    | Event.ProcessedItemInDir _ => true
    | _ => false)

/-- Number of runs of `PostProcessDir` recorded in a trace. -/
def postProcessCalls (ev : List Event) : Nat :=
  ev.countP (fun e =>
    match e with
    | Event.PostProcessDir _ => true
    | _ => false)

/-! ## Classes of calls and the invariant of the file worker stages -/

/-- Calls of the block transfer (lines 413-500). -/
def Event.isTransfer : Event → Bool
  | Event.OpenFile _ => true
  | Event.ServerOpen _ => true
  | Event.ChecksumChunk _ => true
  | Event.GetChunk _ => true
  | Event.WriteAt _ _ => true
  | Event.ServerClose _ => true
  | Event.Block _ => true
  | _ => false

/-- Calls of the file worker outside the block transfer; those that name a
local path name `lp`. -/
def Event.isFileCall (lp : String) : Event → Bool
  | Event.Remove p => decide (p = lp)
  | Event.Truncate p _ => decide (p = lp)
  | Event.Link _ newname => decide (newname = lp)
  | Event.Create _ _ => true
  | Event.ApplyChanges _ _ => true
  | _ => false

/-- The paths handed to `os.Remove` and `os.RemoveAll`. -/
def removals (ev : List Event) : List String :=
  ev.filterMap (fun e =>
    match e with
    | Event.Remove p => some p
    | Event.RemoveAll p => some p
    | _ => none)

/-- What every stage of the file worker keeps: the local path and the mode of
the remote record stay as they are, `copy_verify_file` stays false for a
remote symlink, and the calls added to the trace are calls on the local path
or, unless the remote is a symlink with `copy_verify_file` false, calls of the
block transfer. -/
def StageInv (lp : String) (mode : Nat) (cv : Bool) (s : State) (r : Step) : Prop :=
  r.2.1.localpath = lp ∧ r.2.1.remotefi.Mode = mode ∧
  (mode &&& ModeSymlink ≠ 0 → cv = false → r.2.1.copy_verify_file = false) ∧
  ∃ ev, r.2.2.trace = s.trace ++ ev ∧
    ∀ e ∈ ev, e.isFileCall lp = true ∨
      (e.isTransfer = true ∧ (mode &&& ModeSymlink = 0 ∨ cv = true))

/-- A step that hands no path to `os.Remove` or `os.RemoveAll`. -/
def NoRemoval (s : State) (r : Step) : Prop :=
  ∃ ev, r.2.2.trace = s.trace ++ ev ∧ removals ev = []

/-- What the stages between registration and inode cleanup keep: the value of
`remaininghardlinks`, the key of the remote record, and the presence of the
cache entry of that key. -/
def EntryInv (key : inodeinfo) (rem : Int) (r : Step) : Prop :=
  r.2.1.remaininghardlinks = rem ∧ inodeKey r.2.1.remotefi = key ∧
  (Gonk.Load inodeinfo.Compare r.2.2.inodes key).isSome = true

/-! ## Concrete scenarios -/

/-- The default client writing below `/base`. -/
def baseClient : Client := { NewClient with BasePath := "/base" }

/-- An outside world in which nothing exists locally and every call succeeds,
writing as many bytes as asked for at offsets 0 and 131072 of a 204800 byte
file. -/
def quietEnv : Env :=
  { lstat := fun _ => StatResult.notExist
    lstatRetry := fun _ => StatResult.notExist
    remove := fun _ => true
    removeAll := fun _ => true
    truncate := fun _ => true
    link := fun _ => LinkResult.ok
    create := CreateResult.ok
    openFile := true
    existingsize := 0
    serverOpen := true
    checksumChunk := fun _ => true
    readAt := fun _ => some 0
    hashEqual := fun _ => true
    getChunk := fun _ => true
    writeAt := fun i => some (if i = 0 then 131072 else 73728)
    mkdirAll := fun _ => true
    serverList := fun _ => none
    readDir := fun _ => none
    serverStat := fun _ => none }

/-- A directory cache holding the root with one entry left. -/
def rootPending : State := { dircache := [{ name := "/", remaining := 1 }] }

/-- Remote regular file `/a` of 204800 bytes. -/
def fileA : FileInfo :=
  { Name := "/a", Mode := 420, Size := 204800, Permissions := 33188, Owner := 1000,
    Group := 1000, Inode := 7, Nlink := 1, Dev := 1, Mtim := ⟨1700000000, 5⟩ }

/-- An outside world in which every local stat fails with a permission error. -/
def statErrorEnv : Env := { quietEnv with lstat := fun _ => StatResult.otherErr }

/-- Remote root directory owned by user 1000. -/
def remoteRoot : FileInfo :=
  { Name := "/", Mode := 2147484141, IsDir := true, Permissions := 16877, Owner := 1000,
    Group := 1000, Inode := 2, Nlink := 2, Dev := 1, Mtim := ⟨1700000000, 0⟩ }

/-- The local base directory, owned by root. -/
def localBase : FileInfo :=
  { Name := "/base", Mode := 2147484141, IsDir := true, Permissions := 16877,
    Inode := 50, Nlink := 2, Dev := 8, Mtim := ⟨1600000000, 0⟩ }

/-- An outside world for an empty remote root: `/base` exists locally. -/
def emptyRootEnv : Env :=
  { quietEnv with
    serverStat := fun name => if name = "/" then some remoteRoot else none
    serverList := fun name => if name = "/" then some { ParentDirectory := "/" } else none
    lstat := fun path => if path = "/base" then StatResult.ok localBase else StatResult.notExist }

/-- A local file with inode 42 on device 1, about to be registered. -/
def existingLocals : Locals :=
  { localpath := "/base/x"
    remotefi := { Name := "/x", Nlink := 2, Dev := 1, Inode := 42 }
    localfi := { Name := "/base/x", Nlink := 2, Dev := 8, Inode := 100 } }

/-- The state in which the listing of the empty remote root has been applied:
the root entry holds `remaining = 0`. -/
def emptyRootListed : State :=
  { dircache := (setRemaining [{ name := "/", remaining := -1 }] "/" 0 []).1
    listfilesActive := 1 }

/-- A cache in which `/d` has been queued for listing. -/
def queuedD : State :=
  { dircache := [{ name := "/", remaining := 1 }, { name := "/d", remaining := -1 }] }

/-- An outside world in which nothing exists locally and no operation of the
block loop fails for `fileA`. -/
def freshEnv : Env :=
  { quietEnv with writeAt := fun i => some (chunkArgs baseClient fileA i).1 }

/-- A local copy of `fileA` with the same type, size, times, permissions,
owner and group. -/
def localA : FileInfo :=
  { Name := "/base/a", Mode := 420, Size := 204800, Permissions := 33188, Owner := 1000,
    Group := 1000, Inode := 900, Nlink := 1, Dev := 8, Mtim := ⟨1700000000, 5⟩ }

/-- An outside world in which `/base/a` is `localA`. -/
def syncedEnv : Env :=
  { quietEnv with
    lstat := fun path => if path = "/base/a" then StatResult.ok localA else StatResult.notExist }

/-- Locals of the file worker for one path of the hardlink group (1, 42) of
three paths, before registration; nothing exists locally. -/
def groupMember (name : String) : Locals :=
  { localpath := filepathJoin ["/base", name]
    remotefi := { Name := name, Mode := 420, Size := 1048576, Nlink := 3, Dev := 1, Inode := 42 }
    localfi := { Name := filepathJoin ["/base", name] }
    create_file := true }

/-- Remote `/x`, one of two paths of the hardlink group (1, 42). -/
def remoteX : FileInfo :=
  { Name := "/x", Mode := 420, Size := 1048576, Permissions := 33188, Owner := 1000,
    Group := 1000, Inode := 42, Nlink := 2, Dev := 1, Mtim := ⟨1700000000, 0⟩ }

/-- Remote `/y`, the other path of the group. -/
def remoteY : FileInfo := { remoteX with Name := "/y" }

/-- Local `/base/x`, inode 100 on device 8, with the attributes of `/x`. -/
def localX : FileInfo :=
  { Name := "/base/x", Mode := 420, Size := 1048576, Permissions := 33188, Owner := 1000,
    Group := 1000, Inode := 100, Nlink := 2, Dev := 8, Mtim := ⟨1700000000, 0⟩ }

/-- Local `/base/y`, a hard link to `/base/x`. -/
def localY : FileInfo := { localX with Name := "/base/y" }

/-- An outside world in which both paths of the group exist locally as hard
links of one file. -/
def secondRunEnv : Env :=
  { quietEnv with
    lstat := fun path =>
      if path = "/base/x" then StatResult.ok localX
      else if path = "/base/y" then StatResult.ok localY
      else StatResult.notExist
    lstatRetry := fun _ => StatResult.ok localX }

/-- The root waits for its two entries. -/
def secondRunStart : State := { dircache := [{ name := "/", remaining := 2 }] }

/-- The state after the file worker processed `/x`. -/
def afterX : State := (fileWorkerBody 3 baseClient secondRunEnv remoteX secondRunStart).2.2


/-- Locals of the file worker for `/y` after its registration. -/
def siblingY : Locals :=
  { localpath := "/base/y", remotefi := remoteY, localfi := localY, remaininghardlinks := 0 }

/-- The state after the registration of `/x` and `/y`. -/
def siblingState : State :=
  { inodes := [{ dev := 1, inode := 42, localhardlinkpath := "/base/x", remaining := 0 }]
    dircache := [{ name := "/", remaining := 1 }] }

/-- Remote `/p`, a symlink to `target`. -/
def remoteP : FileInfo :=
  { Name := "/p", Mode := 134218239, Size := 6, Permissions := 41471, Owner := 1000,
    Group := 1000, Inode := 9, Nlink := 1, Dev := 1, LinkTo := "target",
    Mtim := ⟨1700000000, 0⟩ }

/-- Local `/base/p`, a regular file. -/
def localP : FileInfo :=
  { Name := "/base/p", Mode := 420, Size := 10, Permissions := 33188, Owner := 1000,
    Group := 1000, Inode := 60, Nlink := 1, Dev := 8, Mtim := ⟨1600000000, 0⟩ }

/-- Remote directory `/d`. -/
def remoteD : FileInfo :=
  { Name := "/d", Mode := 2147484141, IsDir := true, Permissions := 16877, Owner := 1000,
    Group := 1000, Inode := 10, Nlink := 2, Dev := 1, Mtim := ⟨1700000000, 0⟩ }

/-- Local `/base/d`, a regular file. -/
def localD : FileInfo :=
  { Name := "/base/d", Mode := 420, Size := 10, Permissions := 33188, Owner := 1000,
    Group := 1000, Inode := 61, Nlink := 1, Dev := 8, Mtim := ⟨1600000000, 0⟩ }

/-- An outside world in which the local entries `/base/p` and `/base/d` are
regular files while the remote root lists the symlink `/p` and the directory
`/d`. -/
def typeChangeEnv : Env :=
  { quietEnv with
    lstat := fun path =>
      if path = "/base/p" then StatResult.ok localP
      else if path = "/base/d" then StatResult.ok localD
      else StatResult.notExist
    serverList := fun name =>
      if name = "/" then some { ParentDirectory := "/", Files := [remoteP, remoteD] } else none }

/-- The outside world of `typeChangeEnv` in which `os.Remove` fails. -/
def removeFailsEnv : Env := { typeChangeEnv with remove := fun _ => false }

/-- Local `/base/y` as a symlink, where the remote `/y` is a regular file of
the hardlink group of `/x`. -/
def linkY : FileInfo :=
  { Name := "/base/y", Mode := 134218239, Size := 6, Permissions := 41471, Owner := 1000,
    Group := 1000, Inode := 101, Nlink := 1, Dev := 8, LinkTo := "target",
    Mtim := ⟨1600000000, 0⟩ }

/-- The outside world of `secondRunEnv` in which `/base/y` is a symlink. -/
def groupTypeChangeEnv : Env :=
  { secondRunEnv with
    lstat := fun path =>
      if path = "/base/x" then StatResult.ok localX
      else if path = "/base/y" then StatResult.ok linkY
      else StatResult.notExist }

/-- The root listed, waiting for its two entries. -/
def rootListed : State :=
  { dircache := [{ name := "/", remaining := 2 }], listfilesActive := 1 }

/-- An outside world in which the local file of `fileA` holds the first block
with the hash of the remote one: the read of that block succeeds, and so does
the write of the second chunk at offset 131072; no other read or write does. -/
def firstBlockFile : Env :=
  { quietEnv with
    existingsize := 131072
    readAt := fun i => if i = 0 then some 131072 else none
    writeAt := fun i => if i = 131072 then some 73728 else none }

/-- The answer of `Server.List` for the root in `typeChangeEnv`: the symlink
`/p` and the directory `/d`. -/
def rootListing : FileListResponse := { ParentDirectory := "/", Files := [remoteP, remoteD] }

/-- The state after the root enqueue: the root entry waits for its listing. -/
def rootQueued : State :=
  { dircache := [{ name := "/", remaining := -1 }], listfilesActive := 1 }

/-- Remote `/x` reporting 2^32 + 1 links. -/
def wideX : FileInfo := { remoteX with Nlink := 4294967297 }

/-- Remote `/x` reporting 2^31 + 1 links. -/
def halfWideX : FileInfo := { remoteX with Nlink := 2147483649 }

/-- An outside world in which nothing exists locally and `os.Link` fails. -/
def linkFailsEnv : Env := { quietEnv with link := fun _ => LinkResult.otherErr }

/-! ## Lemmas on the keyed store -/

namespace Gonk

variable {α σ : Type}

theorem Load_eq_none_iff (cmp : α → α → Int) (g : List α) (key : α) :
    Load cmp g key = none ↔ ∀ x ∈ g, cmp x key ≠ 0 := by
  simp [Load, List.find?_eq_none]

theorem Load_append_cons (cmp : α → α → Int) (pre post : List α) (e key : α)
    (hpre : ∀ x ∈ pre, cmp x key ≠ 0) (he : cmp e key = 0) :
    Load cmp (pre ++ e :: post) key = some e := by
  induction pre with
  | nil => simp [Load, he]
  | cons y ys ih =>
    have hy : cmp y key ≠ 0 := hpre y (List.mem_cons_self _ _)
    have := ih (fun x hx => hpre x (List.mem_cons_of_mem _ hx))
    simpa [Load, hy] using this

theorem Load_some_split (cmp : α → α → Int) (g : List α) (key e : α)
    (h : Load cmp g key = some e) :
    ∃ pre post, g = pre ++ e :: post ∧ (∀ x ∈ pre, cmp x key ≠ 0) ∧ cmp e key = 0 := by
  induction g with
  | nil => simp [Load] at h
  | cons y ys ih =>
    by_cases hy : cmp y key = 0
    · have : y = e := by simpa [Load, hy] using h
      subst this
      exact ⟨[], ys, rfl, by simp, hy⟩
    · have h1 : Load cmp ys key = some e := by simpa [Load, hy] using h
      obtain ⟨pre, post, hg, hpre, he⟩ := ih h1
      refine ⟨y :: pre, post, by simp [hg], ?_, he⟩
      intro x hx
      rcases List.mem_cons.mp hx with rfl | hx
      · exact hy
      · exact hpre x hx

theorem AtomicMutate_append_cons (cmp : α → α → Int) (mf : α → α × σ) (b : Bool)
    (pre post : List α) (e key : α)
    (hpre : ∀ x ∈ pre, cmp x key ≠ 0) (he : cmp e key = 0) :
    AtomicMutate cmp mf b (pre ++ e :: post) key
      = (pre ++ (mf e).1 :: post, some (mf e).2) := by
  induction pre with
  | nil => simp [AtomicMutate, he]
  | cons y ys ih =>
    have hy : cmp y key ≠ 0 := hpre y (List.mem_cons_self _ _)
    have := ih (fun x hx => hpre x (List.mem_cons_of_mem _ hx))
    simp [AtomicMutate, hy, this]

theorem AtomicMutate_missing (cmp : α → α → Int) (mf : α → α × σ) (g : List α) (key : α)
    (h : ∀ x ∈ g, cmp x key ≠ 0) :
    AtomicMutate cmp mf false g key = (g, none) ∧
    AtomicMutate cmp mf true g key = (g ++ [(mf key).1], some (mf key).2) := by
  induction g with
  | nil => simp [AtomicMutate]
  | cons y ys ih =>
    have hy : cmp y key ≠ 0 := h y (List.mem_cons_self _ _)
    have := ih (fun x hx => h x (List.mem_cons_of_mem _ hx))
    simp [AtomicMutate, hy, this.1, this.2]

theorem Load_Delete (cmp : α → α → Int) (g : List α) (key : α) :
    Load cmp (Delete cmp g key) key = none := by
  rw [Load_eq_none_iff]
  intro x hx
  simpa [Delete] using (List.mem_filter.mp hx).2

theorem Load_Store (cmp : α → α → Int) (g : List α) (x key : α) (hx : cmp x key = 0)
    (hkey : ∀ y, cmp y x = cmp y key) :
    Load cmp (Store cmp g x) key = some x := by
  induction g with
  | nil => simp [Store, Load, hx]
  | cons y ys ih =>
    by_cases hy : cmp y x = 0
    · simp [Store, Load, hy, hx]
    · have hy2 : cmp y key ≠ 0 := by rwa [← hkey y]
      simpa [Store, Load, hy, hy2] using ih

end Gonk

theorem stringsCompare_eq_zero (a b : String) : stringsCompare a b = 0 ↔ a = b := by
  unfold stringsCompare
  by_cases h : a = b
  · simp [h]
  · simp only [h, if_false, iff_false]
    split <;> decide

theorem dirinfo_Compare_eq_zero (f f2 : dirinfo) : dirinfo.Compare f f2 = 0 ↔ f.name = f2.name :=
  stringsCompare_eq_zero _ _

/-! ## Lemmas on the finalization cascade -/

theorem int32_of_range (x : Int) (h1 : -2147483648 ≤ x) (h2 : x < 2147483648) : int32 x = x := by
  unfold int32
  omega

theorem PostProcessDir_count (c : Client) (env : Env) (item : dirinfo) (name : String) :
    (PostProcessDir c env item).count (Event.PostProcessDir name) = 0 := by
  rw [List.count_eq_zero]
  intro h
  unfold PostProcessDir at h
  rcases List.mem_append.mp h with h | h
  · split at h
    · obtain ⟨x, _, hx⟩ := List.mem_map.mp h
      cases hx
    · cases h
  · split at h <;> simp at h

theorem Delete_append_cons (pre post : List dirinfo) (e : dirinfo) (path : String)
    (hpre : ∀ x ∈ pre, dirinfo.Compare x { name := path } ≠ 0) (he : e.name = path) :
    Gonk.Delete dirinfo.Compare (pre ++ e :: post) { name := path }
      = pre ++ Gonk.Delete dirinfo.Compare post { name := path } := by
  have h1 : pre.filter (fun x => !decide (dirinfo.Compare x { name := path } = 0)) = pre := by
    rw [List.filter_eq_self]
    intro x hx
    simpa using hpre x hx
  have h2 : dirinfo.Compare e { name := path } = 0 := (dirinfo_Compare_eq_zero _ _).mpr he
  simp [Gonk.Delete, List.filter_append, h1, List.filter_cons, h2]

/-- One step of the cascade on a cache without an entry for `path`. -/
theorem ProcessedItemInDirAux_missing (c : Client) (env : Env) (fuel : Nat) (path : String)
    (d : List dirinfo) (h : Gonk.Load dirinfo.Compare d { name := path } = none) :
    ProcessedItemInDirAux c env (fuel + 1) path d = some (d, [Event.ProcessedItemInDir path]) := by
  have hm := (Gonk.AtomicMutate_missing dirinfo.Compare (processedMutator c env) d _
    ((Gonk.Load_eq_none_iff _ _ _).mp h)).1
  simp [ProcessedItemInDirAux, hm]

/-- One step of the cascade on a cache whose first entry for `path` is `e`. -/
theorem ProcessedItemInDirAux_found (c : Client) (env : Env) (fuel : Nat) (path : String)
    (pre post : List dirinfo) (e : dirinfo)
    (hpre : ∀ x ∈ pre, dirinfo.Compare x { name := path } ≠ 0) (he : e.name = path) :
    ProcessedItemInDirAux c env (fuel + 1) path (pre ++ e :: post) =
      if int32 (e.remaining - 1) ≤ 0 then
        if path ≠ "/" then
          (ProcessedItemInDirAux c env fuel (filepathDir path)
              (pre ++ Gonk.Delete dirinfo.Compare post { name := path })).map
            (fun r => (r.1, Event.ProcessedItemInDir path :: Event.PostProcessDir path ::
              PostProcessDir c env { e with remaining := int32 (e.remaining - 1) } ++ r.2))
        else
          some (pre ++ Gonk.Delete dirinfo.Compare post { name := path },
            Event.ProcessedItemInDir path :: Event.PostProcessDir path ::
              PostProcessDir c env { e with remaining := int32 (e.remaining - 1) })
      else
        some (pre ++ { e with remaining := int32 (e.remaining - 1) } :: post,
          [Event.ProcessedItemInDir path]) := by
  have h2 : dirinfo.Compare e { name := path } = 0 := (dirinfo_Compare_eq_zero _ _).mpr he
  have hm := Gonk.AtomicMutate_append_cons dirinfo.Compare (processedMutator c env) false
    pre post e { name := path } hpre h2
  have hd := Delete_append_cons pre post { e with remaining := int32 (e.remaining - 1) } path
    hpre he
  simp only [ProcessedItemInDirAux, hm]
  by_cases hleft : int32 (e.remaining - 1) ≤ 0
  · by_cases hroot : path = "/"
    · simp [processedMutator, hleft, hroot, he] at hd ⊢
      exact hd
    · simp only [processedMutator, hleft, hroot, he, if_true]
      simp only [he] at hd
      rw [hd]
      cases ProcessedItemInDirAux c env fuel (filepathDir path)
        (pre ++ Gonk.Delete dirinfo.Compare post { name := path }) <;> simp
  · simp [processedMutator, hleft]

theorem mem_of_mem_append_Delete (pre post : List dirinfo) (e x key : dirinfo)
    (hx : x ∈ pre ++ Gonk.Delete dirinfo.Compare post key) : x ∈ pre ++ e :: post := by
  rcases List.mem_append.mp hx with h | h
  · exact List.mem_append_left _ h
  · exact List.mem_append_right _ (List.mem_cons_of_mem _ (List.mem_filter.mp h).1)

theorem length_append_Delete_lt (pre post : List dirinfo) (e key : dirinfo) :
    (pre ++ Gonk.Delete dirinfo.Compare post key).length < (pre ++ e :: post).length := by
  have := List.length_filter_le (fun x => !decide (dirinfo.Compare x key = 0)) post
  simp only [Gonk.Delete, List.length_append, List.length_cons]
  omega

theorem not_mem_PostProcessDir (c : Client) (env : Env) (item : dirinfo) (name : String) :
    Event.PostProcessDir name ∉ PostProcessDir c env item :=
  List.count_eq_zero.mp (PostProcessDir_count c env item name)

/-- The cascade returns within a depth of one more than the number of
entries; it adds no entry, and it runs `PostProcessDir` only for names that
are in the cache. -/
theorem ProcessedItemInDirAux_total (c : Client) (env : Env) :
    ∀ (fuel : Nat) (path : String) (d : List dirinfo), d.length < fuel →
      ∃ d1 ev, ProcessedItemInDirAux c env fuel path d = some (d1, ev) ∧
        (∀ x ∈ d1, ∃ y ∈ d, y.name = x.name) ∧
        (∀ name, Event.PostProcessDir name ∈ ev → ∃ y ∈ d, y.name = name) := by
  intro fuel
  induction fuel with
  | zero => intro path d h; omega
  | succ fuel ih =>
    intro path d hlen
    cases hL : Gonk.Load dirinfo.Compare d { name := path } with
    | none =>
      refine ⟨d, _, ProcessedItemInDirAux_missing c env fuel path d hL, ?_, ?_⟩
      · intro x hx; exact ⟨x, hx, rfl⟩
      · intro name hmem; simp at hmem
    | some e =>
      obtain ⟨pre, post, hd, hpre, he0⟩ := Gonk.Load_some_split _ _ _ _ hL
      have he : e.name = path := (dirinfo_Compare_eq_zero _ _).mp he0
      subst hd
      rw [ProcessedItemInDirAux_found c env fuel path pre post e hpre he]
      by_cases hleft : int32 (e.remaining - 1) ≤ 0
      · by_cases hroot : path = "/"
        · simp only [hleft, hroot, if_true, ne_eq, not_true_eq_false, if_false]
          refine ⟨_, _, rfl, ?_, ?_⟩
          · intro x hx
            exact ⟨x, mem_of_mem_append_Delete pre post e x _ hx, rfl⟩
          · intro name hmem
            rcases List.mem_cons.mp hmem with h | h
            · cases h
            · rcases List.mem_cons.mp h with h | h
              · refine ⟨e, by simp, ?_⟩
                cases h
                rw [he, hroot]
              · exact absurd h (not_mem_PostProcessDir _ _ _ _)
        · have hlt := length_append_Delete_lt pre post e { name := path }
          obtain ⟨d1, ev, hrec, hsub, hev⟩ := ih (filepathDir path)
            (pre ++ Gonk.Delete dirinfo.Compare post { name := path }) (by omega)
          simp only [hleft, hroot, if_true, ne_eq, not_false_eq_true, hrec, Option.map_some']
          refine ⟨_, _, rfl, ?_, ?_⟩
          · intro x hx
            obtain ⟨y, hy, hxy⟩ := hsub x hx
            exact ⟨y, mem_of_mem_append_Delete pre post e y _ hy, hxy⟩
          · intro name hmem
            rcases List.mem_cons.mp hmem with h | h
            · cases h
            · rcases List.mem_cons.mp h with h | h
              · refine ⟨e, by simp, ?_⟩
                cases h
                exact he
              · rcases List.mem_append.mp h with h | h
                · exact absurd h (not_mem_PostProcessDir _ _ _ _)
                · obtain ⟨y, hy, hxy⟩ := hev name h
                  exact ⟨y, mem_of_mem_append_Delete pre post e y _ hy, hxy⟩
      · simp only [hleft, if_false]
        refine ⟨_, _, rfl, ?_, ?_⟩
        · intro x hx
          rcases List.mem_append.mp hx with h | h
          · exact ⟨x, List.mem_append_left _ h, rfl⟩
          · rcases List.mem_cons.mp h with h | h
            · exact ⟨e, by simp, by rw [h]⟩
            · exact ⟨x, List.mem_append_right _ (List.mem_cons_of_mem _ h), rfl⟩
        · intro name hmem; simp at hmem

theorem name_ne_of_mem_append_Delete (pre post : List dirinfo) (path : String)
    (hpre : ∀ x ∈ pre, dirinfo.Compare x { name := path } ≠ 0) :
    ∀ y ∈ pre ++ Gonk.Delete dirinfo.Compare post { name := path }, y.name ≠ path := by
  intro y hy hname
  have hz : dirinfo.Compare y { name := path } = 0 := (dirinfo_Compare_eq_zero _ _).mpr hname
  rcases List.mem_append.mp hy with h | h
  · exact hpre y h hz
  · have := (List.mem_filter.mp h).2
    simp [hz] at this

theorem Load_none_of_names (d : List dirinfo) (path : String)
    (h : ∀ y ∈ d, y.name ≠ path) : Gonk.Load dirinfo.Compare d { name := path } = none := by
  rw [Gonk.Load_eq_none_iff]
  intro x hx hz
  exact h x hx ((dirinfo_Compare_eq_zero _ _).mp hz)

/-- A report for a directory that has no cache entry changes nothing. -/
theorem ProcessedItemInDir_missing (c : Client) (env : Env) (path : String) (s : State)
    (h : Gonk.Load dirinfo.Compare s.dircache { name := path } = none) :
    ∃ s1, ProcessedItemInDir c env path s = some s1 ∧ s1.dircache = s.dircache ∧
      finalizations path s1 = finalizations path s := by
  refine ⟨{ s with trace := s.trace ++ [Event.ProcessedItemInDir path] }, ?_, rfl, ?_⟩
  · simp [ProcessedItemInDir, ProcessedItemInDirAux_missing c env _ path _ h]
  · simp [finalizations, List.count_append, List.count_cons]

/-- A report that leaves the counter positive only decrements it. -/
theorem ProcessedItemInDir_pending (c : Client) (env : Env) (path : String) (s : State)
    (e : dirinfo) (h : Gonk.Load dirinfo.Compare s.dircache { name := path } = some e)
    (hleft : 0 < int32 (e.remaining - 1)) :
    ∃ s1, ProcessedItemInDir c env path s = some s1 ∧
      Gonk.Load dirinfo.Compare s1.dircache { name := path }
        = some { e with remaining := int32 (e.remaining - 1) } ∧
      finalizations path s1 = finalizations path s := by
  obtain ⟨pre, post, hd, hpre, he0⟩ := Gonk.Load_some_split _ _ _ _ h
  have he : e.name = path := (dirinfo_Compare_eq_zero _ _).mp he0
  have hstep := ProcessedItemInDirAux_found c env s.dircache.length path pre post e hpre he
  rw [← hd] at hstep
  have hnot : ¬ int32 (e.remaining - 1) ≤ 0 := by omega
  simp only [hnot, if_false] at hstep
  refine ⟨{ s with dircache := pre ++ { e with remaining := int32 (e.remaining - 1) } :: post,
                   trace := s.trace ++ [Event.ProcessedItemInDir path] }, ?_, ?_, ?_⟩
  · simp [ProcessedItemInDir, hstep]
  · exact Gonk.Load_append_cons _ _ _ _ _ hpre ((dirinfo_Compare_eq_zero _ _).mpr he)
  · simp [finalizations, List.count_append, List.count_cons]

/-- A report that brings the counter to zero or below finalizes the entry:
`PostProcessDir` runs once for it and the entry is gone afterwards. -/
theorem ProcessedItemInDir_final (c : Client) (env : Env) (path : String) (s : State)
    (e : dirinfo) (h : Gonk.Load dirinfo.Compare s.dircache { name := path } = some e)
    (hleft : int32 (e.remaining - 1) ≤ 0) :
    ∃ s1, ProcessedItemInDir c env path s = some s1 ∧
      Gonk.Load dirinfo.Compare s1.dircache { name := path } = none ∧
      finalizations path s1 = finalizations path s + 1 := by
  obtain ⟨pre, post, hd, hpre, he0⟩ := Gonk.Load_some_split _ _ _ _ h
  have he : e.name = path := (dirinfo_Compare_eq_zero _ _).mp he0
  have hstep := ProcessedItemInDirAux_found c env s.dircache.length path pre post e hpre he
  rw [← hd] at hstep
  have hnames := name_ne_of_mem_append_Delete pre post path hpre
  have hpp := PostProcessDir_count c env { e with remaining := int32 (e.remaining - 1) } path
  by_cases hroot : path = "/"
  · subst hroot
    simp only [hleft, if_true, ne_eq, not_true_eq_false, if_false] at hstep
    refine ⟨{ s with
      dircache := pre ++ Gonk.Delete dirinfo.Compare post { name := "/" }
      trace := s.trace ++ (Event.ProcessedItemInDir "/" :: Event.PostProcessDir "/" ::
        PostProcessDir c env { e with remaining := int32 (e.remaining - 1) }) }, ?_, ?_, ?_⟩
    · simp only [ProcessedItemInDir, hstep]
    · exact Load_none_of_names _ _ hnames
    · simp [finalizations, List.count_append, List.count_cons, hpp]
  · have hlt := length_append_Delete_lt pre post e { name := path }
    rw [← hd] at hlt
    obtain ⟨d1, ev, hrec, hsub, hev⟩ := ProcessedItemInDirAux_total c env s.dircache.length
      (filepathDir path) (pre ++ Gonk.Delete dirinfo.Compare post { name := path }) hlt
    simp only [hleft, hroot, if_true, ne_eq, not_false_eq_true, hrec, Option.map_some'] at hstep
    refine ⟨{ s with
      dircache := d1
      trace := s.trace ++ (Event.ProcessedItemInDir path :: Event.PostProcessDir path ::
        PostProcessDir c env { e with remaining := int32 (e.remaining - 1) } ++ ev) }, ?_, ?_, ?_⟩
    · simp only [ProcessedItemInDir, hstep]
    · apply Load_none_of_names
      intro y hy hname
      obtain ⟨z, hz, hzy⟩ := hsub y hy
      exact hnames z hz (hzy.trans hname)
    · have hev0 : ev.count (Event.PostProcessDir path) = 0 := by
        rw [List.count_eq_zero]
        intro hmem
        obtain ⟨z, hz, hzy⟩ := hev path hmem
        exact hnames z hz hzy
      simp [finalizations, List.count_append, List.count_cons, hpp, hev0]

/-! ## Lemmas on the block loop -/

theorem int64_of_range (x : Int) (h1 : -9223372036854775808 ≤ x)
    (h2 : x < 9223372036854775808) : int64 x = x := by
  unfold int64
  omega

/-- Without overflow the chunk at offset `i` has length `min B (S - i)`. -/
theorem chunkArgs_of_bound (c : Client) (remotefi : FileInfo) (S B i : Nat)
    (hB : c.BlockSize = B) (hS : remotefi.Size = S)
    (hbound : S + B < 9223372036854775808) (hi : i < S) :
    chunkArgs c remotefi i
      = (((min B (S - i) : Nat) : Int),
         { Path := remotefi.Name, Offset := i, Size := min B (S - i) }) := by
  have h1 : int64 (B : Int) = B := int64_of_range _ (by omega) (by omega)
  have h2 : int64 ((i : Int) + B) = (i : Int) + B := int64_of_range _ (by omega) (by omega)
  have h3 : int64 ((S : Int) - i) = (S : Int) - i := int64_of_range _ (by omega) (by omega)
  have h4 : uint64 (i : Int) = i := by unfold uint64; omega
  simp only [chunkArgs, hB, hS, h1, h2, h3, h4]
  by_cases hlast : (i : Int) + B > S
  · have hmin : min B (S - i) = S - i := by omega
    have h5 : uint64 ((S : Int) - i) = S - i := by unfold uint64; omega
    have h6 : ((S - i : Nat) : Int) = (S : Int) - i := by omega
    rw [if_pos hlast, hmin, h5, h6]
  · have hmin : min B (S - i) = B := by omega
    have h5 : uint64 (B : Int) = B := by unfold uint64; omega
    rw [if_neg hlast, hmin, h5]

theorem blockVisits_append (a b : List Event) :
    blockVisits (a ++ b) = blockVisits a ++ blockVisits b := by
  simp [blockVisits, List.filterMap_append]

/-- Shape of the list of chunks: offsets below `S`, lengths in `1..B`,
contiguous, summing to what is left of the file. -/
theorem chunks_shape (S B : Nat) (hpos : 0 < B) :
    ∀ (m i : Nat), S ≤ i + m * B → (m ≠ 0 → i + m * B < S + B) →
      (∀ p ∈ (List.range' i m B).map (fun o => (o, min B (S - o))),
        p.1 < S ∧ 1 ≤ p.2 ∧ p.2 ≤ B) ∧
      List.Chain' (fun p q : Nat × Nat => p.1 + p.2 = q.1)
        ((List.range' i m B).map (fun o => (o, min B (S - o)))) ∧
      (((List.range' i m B).map (fun o => (o, min B (S - o)))).map Prod.snd).sum = S - i := by
  intro m
  induction m with
  | zero =>
    intro i h1 _
    simp at h1
    simp
    omega
  | succ m ih =>
    intro i h1 h2
    have hmul : (m + 1) * B = m * B + B := Nat.succ_mul m B
    have h3 := h2 (by omega)
    have hi : i < S := by omega
    obtain ⟨hall, hchain, hsum⟩ := ih (i + B) (by omega) (by intro _; omega)
    rw [List.range'_succ, List.map_cons]
    refine ⟨?_, ?_, ?_⟩
    · intro p hp
      rcases List.mem_cons.mp hp with rfl | hp
      · simp only
        omega
      · exact hall p hp
    · rw [List.chain'_cons']
      refine ⟨?_, hchain⟩
      intro q hq
      cases m with
      | zero => simp at hq
      | succ k =>
        have hk : (k + 1) * B = k * B + B := Nat.succ_mul k B
        rw [List.range'_succ, List.map_cons, List.head?_cons] at hq
        cases hq
        simp only
        omega
    · rw [List.map_cons, List.sum_cons, hsum]
      simp only
      omega

/-- The block loop for 204800 bytes in blocks of 131072 when the local file
is empty and nothing fails: two chunks are fetched and written. -/
theorem blockLoop_two_chunks (c : Client) (env : Env) (localpath : String) (r : FileInfo)
    (f : Nat) (apply_attributes : Bool) (hblock : c.BlockSize = 131072)
    (hsize : r.Size = 204800) (hok : noFailure c env r) :
    blockLoop c env localpath r 0 (f + 3) 0 true apply_attributes
      = some ([Event.Block { Path := r.Name, Offset := 0, Size := 131072 },
               Event.GetChunk { Path := r.Name, Offset := 0, Size := 131072 },
               Event.WriteAt localpath 0,
               Event.Block { Path := r.Name, Offset := 131072, Size := 73728 },
               Event.GetChunk { Path := r.Name, Offset := 131072, Size := 73728 },
               Event.WriteAt localpath 131072], true, true) := by
  have h0 : chunkArgs c r 0 = (131072, { Path := r.Name, Offset := 0, Size := 131072 }) := by
    simpa using chunkArgs_of_bound c r 204800 131072 0 (by simp [hblock]) (by simp [hsize])
      (by decide) (by decide)
  have h1 : chunkArgs c r 131072
      = (73728, { Path := r.Name, Offset := 131072, Size := 73728 }) := by
    simpa using chunkArgs_of_bound c r 204800 131072 131072 (by simp [hblock])
      (by simp [hsize]) (by decide) (by decide)
  obtain ⟨_, _, hg0, hw0⟩ := hok 0
  obtain ⟨_, _, hg1, hw1⟩ := hok 131072
  rw [h0] at hw0
  rw [h1] at hw1
  have hn0 : int64 131072 = 131072 := by decide
  have hn1 : int64 262144 = 262144 := by decide
  have he1 : int64 204800 = 204800 := by decide
  have hw0b : env.writeAt 0 = some 131072 := hw0
  have hw1b : env.writeAt 131072 = some 73728 := hw1
  have hlast : blockLoop c env localpath r 0 (f + 1) 262144 true true = some ([], true, true) := by
    rw [blockLoop]
    simp [hsize]
  have hsecond : blockLoop c env localpath r 0 (f + 2) 131072 true true
      = some ([Event.Block { Path := r.Name, Offset := 131072, Size := 73728 },
               Event.GetChunk { Path := r.Name, Offset := 131072, Size := 73728 },
               Event.WriteAt localpath 131072], true, true) := by
    rw [blockLoop]
    simp [hsize, hblock, h1, hn0, hn1, he1, transferChunk, hg1, hw1b, hlast]
  rw [blockLoop]
  simp [hsize, hblock, h0, hn0, transferChunk, hg0, hw0b, hsecond]

/-! ## Lemmas on hardlink registration -/

theorem inodeinfo_Compare_of_key (x a b : inodeinfo) (hdev : a.dev = b.dev)
    (hinode : a.inode = b.inode) : inodeinfo.Compare x a = inodeinfo.Compare x b := by
  simp [inodeinfo.Compare, hdev, hinode]

theorem inodeinfo_Compare_self (a b : inodeinfo) (hdev : a.dev = b.dev)
    (hinode : a.inode = b.inode) : inodeinfo.Compare a b = 0 := by
  simp [inodeinfo.Compare, hdev, hinode, uint64, int64]

theorem registrationMutator_fields (l : Locals) (i : inodeinfo) :
    (registrationMutator l i).1.dev = i.dev ∧ (registrationMutator l i).1.inode = i.inode ∧
    (registrationMutator l i).1.localhardlinkpath = i.localhardlinkpath ∧
    (registrationMutator l i).1.remaining = int32 (i.remaining - 1) ∧
    (registrationMutator l i).2
      = (int32 (i.remaining - 1),
         decide (int32 (i.remaining - 1) = int32 (uint64 ((l.remotefi.Nlink : Int) - 1)))) := by
  simp only [registrationMutator]
  split <;> simp

/-- Registration of a file whose group already has a cache entry. -/
theorem registerStage_existing (c : Client) (l : Locals) (s : State) (e : inodeinfo)
    (hpres : c.PreserveHardlinks = true) (hnlink : l.remotefi.Nlink > 1)
    (hload : Gonk.Load inodeinfo.Compare s.inodes (inodeKey l.remotefi) = some e) :
    ∃ l1 s1 e1, registerStage c l s = (Flow.next, l1, s1) ∧
      l1 = { l with remaininghardlinks := int32 (e.remaining - 1),
                    justaddedtoinodecache := decide (int32 (e.remaining - 1)
                      = int32 (uint64 ((l.remotefi.Nlink : Int) - 1))) } ∧
      Gonk.Load inodeinfo.Compare s1.inodes (inodeKey l.remotefi) = some e1 ∧
      e1.localhardlinkpath = e.localhardlinkpath ∧ e1.remaining = int32 (e.remaining - 1) := by
  obtain ⟨pre, post, hd, hpre, he⟩ := Gonk.Load_some_split _ _ _ _ hload
  obtain ⟨f1, f2, f3, f4, f5⟩ := registrationMutator_fields l e
  have hm := Gonk.AtomicMutate_append_cons inodeinfo.Compare (registrationMutator l) true
    pre post e
    { dev := l.remotefi.Dev, inode := l.remotefi.Inode, localhardlinkpath := l.localpath,
      remaining := int32 l.remotefi.Nlink } hpre he
  have hz : inodeinfo.Compare (registrationMutator l e).1 (inodeKey l.remotefi) = 0 := by
    have h1 : inodeinfo.Compare e (inodeKey l.remotefi) = 0 := he
    simp only [inodeinfo.Compare, f1, f2] at h1 ⊢
    exact h1
  refine ⟨_, { s with inodes := pre ++ (registrationMutator l e).1 :: post },
    (registrationMutator l e).1, ?_, rfl, ?_, f3, f4⟩
  · simp [registerStage, hpres, hnlink, hd, hm, f5]
  · exact Gonk.Load_append_cons _ _ _ _ _ hpre hz

/-- Registration of the first file of a group: the entry is inserted. -/
theorem registerStage_absent (c : Client) (l : Locals) (s : State)
    (hpres : c.PreserveHardlinks = true) (hnlink : l.remotefi.Nlink > 1)
    (hload : Gonk.Load inodeinfo.Compare s.inodes (inodeKey l.remotefi) = none) :
    ∃ l1 s1 e1, registerStage c l s = (Flow.next, l1, s1) ∧
      l1 = { l with remaininghardlinks := int32 (int32 l.remotefi.Nlink - 1),
                    justaddedtoinodecache := decide (int32 (int32 l.remotefi.Nlink - 1)
                      = int32 (uint64 ((l.remotefi.Nlink : Int) - 1))) } ∧
      Gonk.Load inodeinfo.Compare s1.inodes (inodeKey l.remotefi) = some e1 ∧
      e1.localhardlinkpath = l.localpath ∧
      e1.remaining = int32 (int32 l.remotefi.Nlink - 1) := by
  have hall := (Gonk.Load_eq_none_iff _ _ _).mp hload
  obtain ⟨f1, f2, f3, f4, f5⟩ := registrationMutator_fields l
    { dev := l.remotefi.Dev, inode := l.remotefi.Inode, localhardlinkpath := l.localpath,
      remaining := int32 l.remotefi.Nlink }
  have hm := (Gonk.AtomicMutate_missing inodeinfo.Compare (registrationMutator l) s.inodes
    { dev := l.remotefi.Dev, inode := l.remotefi.Inode, localhardlinkpath := l.localpath,
      remaining := int32 l.remotefi.Nlink } hall).2
  have hz : inodeinfo.Compare (registrationMutator l
      { dev := l.remotefi.Dev, inode := l.remotefi.Inode, localhardlinkpath := l.localpath,
        remaining := int32 l.remotefi.Nlink }).1 (inodeKey l.remotefi) = 0 :=
    inodeinfo_Compare_self _ _ f1 f2
  refine ⟨_, { s with inodes := s.inodes ++ [(registrationMutator l
      { dev := l.remotefi.Dev, inode := l.remotefi.Inode, localhardlinkpath := l.localpath,
        remaining := int32 l.remotefi.Nlink }).1] }, _, ?_, rfl, ?_, f3, f4⟩
  · simp [registerStage, hpres, hnlink, hm, f5]
  · exact Gonk.Load_append_cons _ _ _ _ _ hall hz

theorem uint64_of_range (x : Int) (h1 : 0 ≤ x) (h2 : x < 18446744073709551616) :
    (uint64 x : Int) = x := by
  unfold uint64
  omega

theorem int32_natCast (k : Nat) (hk2 : k < 2147483648) : int32 (k : Int) = (k : Int) :=
  int32_of_range _ (by omega) (by omega)

theorem int32_natCast_pred (k : Nat) (hk : 2 ≤ k) (hk2 : k < 2147483648) :
    int32 ((k : Int) - 1) = (k : Int) - 1 :=
  int32_of_range _ (by omega) (by omega)

theorem int32_uint64_pred (k : Nat) (hk : 2 ≤ k) (hk2 : k < 2147483648) :
    int32 (uint64 ((k : Int) - 1)) = (k : Int) - 1 := by
  rw [uint64_of_range _ (by omega) (by omega)]
  exact int32_natCast_pred k hk hk2

/-- Registrations of further files of a group whose entry exists with
`remaining = r`: the `i`-th of them observes `r - 1 - i`, none of them sets
`justaddedtoinodecache`, and `localhardlinkpath` stays as it is. -/
theorem registerAll_existing (c : Client) (k dev inode : Nat)
    (hpres : c.PreserveHardlinks = true) (hk : 2 ≤ k) (hk2 : k < 2147483648) :
    ∀ (ls : List Locals) (s : State) (e : inodeinfo),
      (∀ l ∈ ls, l.remotefi.Nlink = k ∧ l.remotefi.Dev = dev ∧ l.remotefi.Inode = inode) →
      Gonk.Load inodeinfo.Compare s.inodes { dev := dev, inode := inode } = some e →
      (ls.length : Int) ≤ e.remaining → e.remaining < k →
      (registerAll c ls s).1.map (fun l => (l.remaininghardlinks, l.justaddedtoinodecache))
        = (List.range ls.length).map (fun (i : Nat) => (e.remaining - 1 - (i : Int), false)) ∧
      (∀ l ∈ (registerAll c ls s).1, l.remotefi.Dev = dev ∧ l.remotefi.Inode = inode) ∧
      ∃ e1, Gonk.Load inodeinfo.Compare (registerAll c ls s).2.inodes
          { dev := dev, inode := inode } = some e1 ∧
        e1.localhardlinkpath = e.localhardlinkpath ∧
        e1.remaining = e.remaining - (ls.length : Int) := by
  intro ls
  induction ls with
  | nil =>
    intro s e _ hload _ _
    exact ⟨rfl, by simp [registerAll], e, hload, rfl, by simp⟩
  | cons l ls ih =>
    intro s e hgroup hload hlen hlt
    obtain ⟨hn, hdev, hinode⟩ := hgroup l (List.mem_cons_self _ _)
    have hkey : inodeKey l.remotefi = { dev := dev, inode := inode } := by
      simp [inodeKey, hdev, hinode]
    simp only [List.length_cons, Nat.cast_add, Nat.cast_one] at hlen
    obtain ⟨l1, s1, e1, hreg, hl1, hload1, hpath1, hrem1⟩ :=
      registerStage_existing c l s e hpres (by omega) (by rw [hkey]; exact hload)
    rw [hkey] at hload1
    have hdec : int32 (e.remaining - 1) = e.remaining - 1 :=
      int32_of_range _ (by omega) (by omega)
    rw [hdec] at hrem1
    have hne : e.remaining - 1 ≠ (k : Int) - 1 := by omega
    have hlen1 : (ls.length : Int) ≤ e1.remaining := by omega
    have hlt1 : e1.remaining < k := by omega
    have hjust : decide (int32 (e.remaining - 1)
        = int32 (uint64 ((l.remotefi.Nlink : Int) - 1))) = false := by
      have hnl : int32 (uint64 ((l.remotefi.Nlink : Int) - 1)) = (k : Int) - 1 := by
        rw [hn, uint64_of_range _ (by omega) (by omega)]
        exact int32_of_range _ (by omega) (by omega)
      rw [hdec, hnl]
      exact decide_eq_false hne
    obtain ⟨hobs, hkeys, e2, hload2, hpath2, hrem2⟩ := ih s1 e1
      (fun x hx => hgroup x (List.mem_cons_of_mem _ hx)) hload1 hlen1 hlt1
    have hall : registerAll c (l :: ls) s = (l1 :: (registerAll c ls s1).1,
        (registerAll c ls s1).2) := by
      simp [registerAll, hreg]
    rw [hall]
    refine ⟨?_, ?_, e2, hload2, hpath2.trans hpath1, ?_⟩
    · rw [List.map_cons, hobs, List.length_cons, List.range_succ_eq_map, List.map_cons,
        List.map_map]
      congr 1
      · rw [hl1, hjust, hdec]
        simp
      · apply List.map_congr_left
        intro i _
        have hi : e1.remaining - 1 - (i : Int) = e.remaining - 1 - ((i + 1 : Nat) : Int) := by
          rw [hrem1]
          push_cast
          omega
        simp only [Function.comp, Nat.succ_eq_add_one, hi]
    · intro x hx
      rcases List.mem_cons.mp hx with rfl | hx
      · rw [hl1]
        exact ⟨hdev, hinode⟩
      · exact hkeys x hx
    · rw [hrem2, hrem1]
      simp only [List.length_cons, Nat.cast_add, Nat.cast_one]
      omega

/-! ## Lemmas on `Compare`, `ApplyChanges` and the depth of the cascade -/

theorem inodeinfo_Compare_eq_zero_iff (a b : inodeinfo)
    (ha1 : a.dev < 18446744073709551616) (ha2 : a.inode < 18446744073709551616)
    (hb1 : b.dev < 18446744073709551616) (hb2 : b.inode < 18446744073709551616) :
    inodeinfo.Compare a b = 0 ↔ a.dev = b.dev ∧ a.inode = b.inode := by
  unfold inodeinfo.Compare uint64 int64
  simp only []
  split <;> omega

theorem Chmod_not_mem_applyXattrs (name : String) (localx : Option (List (String × List Nat)))
    (remotex : List (String × List Nat)) (fi2 : FileInfo) :
    AttrCall.Chmod fi2 ∉ applyXattrs name localx remotex := by
  intro h
  unfold applyXattrs at h
  rcases List.mem_append.mp h with h | h
  · split at h
    · obtain ⟨a, _, ha⟩ := List.mem_map.mp h
      cases ha
    · simp at h
  · obtain ⟨a, _, ha⟩ := List.mem_filterMap.mp h
    split at ha
    · split at ha <;> simp at ha
    · simp at ha

theorem reportCalls_PostProcessDir (c : Client) (env : Env) (item : dirinfo) :
    reportCalls (PostProcessDir c env item) = 0 := by
  unfold reportCalls
  rw [List.countP_eq_zero]
  intro e he
  unfold PostProcessDir at he
  rcases List.mem_append.mp he with h | h
  · split at h
    · obtain ⟨x, _, hx⟩ := List.mem_map.mp h
      subst hx
      simp
    · cases h
  · split at h
    · simp at h
      subst h
      simp
    · cases h

/-- Recursive calls of the cascade: with `1 + r` invocations in all, at least
`r` entries were finalized and have left the cache, and `r = 0` at the root,
for a missing entry and for a counter that stays positive. -/
theorem ProcessedItemInDirAux_calls (c : Client) (env : Env) :
    ∀ (fuel : Nat) (path : String) (d : List dirinfo), d.length < fuel →
      ∃ d1 ev r, ProcessedItemInDirAux c env fuel path d = some (d1, ev) ∧
        reportCalls ev = 1 + r ∧ d1.length + r ≤ d.length ∧ r ≤ postProcessCalls ev ∧
        (path = "/" → r = 0) ∧
        (Gonk.Load dirinfo.Compare d { name := path } = none → r = 0) ∧
        (∀ e, Gonk.Load dirinfo.Compare d { name := path } = some e →
          0 < int32 (e.remaining - 1) → r = 0) := by
  intro fuel
  induction fuel with
  | zero => intro path d h; omega
  | succ fuel ih =>
    intro path d hlen
    cases hL : Gonk.Load dirinfo.Compare d { name := path } with
    | none =>
      refine ⟨d, _, 0, ProcessedItemInDirAux_missing c env fuel path d hL, ?_, ?_, ?_, ?_, ?_, ?_⟩
      · simp [reportCalls]
      · omega
      · omega
      · intro _; rfl
      · intro _; rfl
      · intro e he; cases he
    | some e =>
      obtain ⟨pre, post, hd, hpre, he0⟩ := Gonk.Load_some_split _ _ _ _ hL
      have he : e.name = path := (dirinfo_Compare_eq_zero _ _).mp he0
      subst hd
      rw [ProcessedItemInDirAux_found c env fuel path pre post e hpre he]
      have hlt := length_append_Delete_lt pre post e { name := path }
      have hpp := reportCalls_PostProcessDir c env { e with remaining := int32 (e.remaining - 1) }
      by_cases hleft : int32 (e.remaining - 1) ≤ 0
      · by_cases hroot : path = "/"
        · subst hroot
          simp only [hleft, if_true, ne_eq, not_true_eq_false, if_false]
          refine ⟨_, _, 0, rfl, ?_, ?_, ?_, ?_, ?_, ?_⟩
          · unfold reportCalls at hpp ⊢
            simp [List.countP_cons, hpp]
          · omega
          · omega
          · intro _; rfl
          · intro _; rfl
          · intro _ _ _; rfl
        · obtain ⟨d1, ev, r, hrec, hcalls, hlen1, hfin, _, _, _⟩ := ih (filepathDir path)
            (pre ++ Gonk.Delete dirinfo.Compare post { name := path }) (by omega)
          simp only [hleft, hroot, if_true, ne_eq, not_false_eq_true, hrec, Option.map_some']
          refine ⟨_, _, 1 + r, rfl, ?_, ?_, ?_, ?_, ?_, ?_⟩
          · unfold reportCalls at hpp hcalls ⊢
            simp [List.countP_cons, List.countP_append, hpp, hcalls]
            omega
          · omega
          · unfold postProcessCalls at hfin ⊢
            simp [List.countP_cons, List.countP_append]
            omega
          · intro h; exact h.elim
          · intro h; cases h
          · intro e1 h1 hpos
            cases h1
            omega
      · simp only [hleft, if_false]
        refine ⟨_, _, 0, rfl, ?_, ?_, ?_, ?_, ?_, ?_⟩
        · simp [reportCalls]
        · simp
        · omega
        · intro _; rfl
        · intro _; rfl
        · intro _ _ _; rfl

/-! ## Lemmas on the calls issued by the workers -/

theorem StageInv_same (l : Locals) (s : State) (flow : Flow) :
    StageInv l.localpath l.remotefi.Mode l.copy_verify_file s (flow, l, s) :=
  ⟨rfl, rfl, fun _ h => h, [], by simp, by simp⟩

theorem StageInv_emit (l l1 : Locals) (s : State) (flow : Flow) (ev : List Event)
    (hlp : l1.localpath = l.localpath) (hmode : l1.remotefi.Mode = l.remotefi.Mode)
    (hcv : l.remotefi.Mode &&& ModeSymlink ≠ 0 → l.copy_verify_file = false →
      l1.copy_verify_file = false)
    (hev : ∀ e ∈ ev, e.isFileCall l.localpath = true ∨
      (e.isTransfer = true ∧ (l.remotefi.Mode &&& ModeSymlink = 0 ∨ l.copy_verify_file = true))) :
    StageInv l.localpath l.remotefi.Mode l.copy_verify_file s (flow, l1, s.emit ev) :=
  ⟨hlp, hmode, hcv, ev, rfl, hev⟩

theorem StageInv_andThen (lp : String) (mode : Nat) (cv : Bool) (s : State) (r : Step)
    (f : Locals → State → Step) (hr : StageInv lp mode cv s r)
    (hf : ∀ l1 s1, StageInv l1.localpath l1.remotefi.Mode l1.copy_verify_file s1 (f l1 s1)) :
    StageInv lp mode cv s (r.andThen f) := by
  obtain ⟨flow, l1, s1⟩ := r
  obtain ⟨h1, h2, h3, ev, h4, h5⟩ := hr
  cases flow
  case next =>
    obtain ⟨g1, g2, g3, ev2, g4, g5⟩ := hf l1 s1
    simp only at h1 h2 h3 h4
    simp only [Step.andThen]
    refine ⟨g1.trans h1, g2.trans h2, ?_, ev ++ ev2, ?_, ?_⟩
    · intro hs hc
      exact g3 (by rw [h2]; exact hs) (h3 hs hc)
    · rw [g4, h4, List.append_assoc]
    · intro e he
      rcases List.mem_append.mp he with he | he
      · exact h5 e he
      · rcases g5 e he with hcall | ⟨ht, hm⟩
        · left; rw [← h1]; exact hcall
        · right
          refine ⟨ht, ?_⟩
          rcases hm with hm | hm
          · left; rw [← h2]; exact hm
          · by_cases hs : mode &&& ModeSymlink = 0
            · left; exact hs
            · right
              cases hcv : cv
              · rw [h3 hs hcv] at hm
                cases hm
              · rfl
  all_goals exact ⟨h1, h2, h3, ev, h4, h5⟩

theorem aclStage_inv (c : Client) (l : Locals) (s : State) :
    StageInv l.localpath l.remotefi.Mode l.copy_verify_file s (aclStage c l s) := by
  unfold aclStage
  split
  · exact ⟨rfl, rfl, fun _ h => h, [], by simp, by simp⟩
  · exact StageInv_same l s _

theorem registerStage_inv (c : Client) (l : Locals) (s : State) :
    StageInv l.localpath l.remotefi.Mode l.copy_verify_file s (registerStage c l s) := by
  unfold registerStage
  split
  · simp only []
    split <;> exact ⟨rfl, rfl, fun _ h => h, [], by simp, by simp⟩
  · exact StageInv_same l s _

theorem verifyCompare_inv (env : Env) (l : Locals) (s s0 : State) (ini : inodeinfo)
    (hs : s.trace = s0.trace) :
    StageInv l.localpath l.remotefi.Mode l.copy_verify_file s0 (verifyCompare env l s ini) := by
  unfold verifyCompare
  split
  · split
    · exact ⟨rfl, rfl, fun _ h => h, [Event.Remove l.localpath], by simp [State.emit, hs],
        by simp [Event.isFileCall]⟩
    · exact ⟨rfl, rfl, fun _ h => h, [Event.Remove l.localpath], by simp [State.emit, hs],
        by simp [Event.isFileCall]⟩
  · exact ⟨rfl, rfl, fun _ h => h, [], by simp [hs], by simp⟩

theorem verifyStage_inv (fuel : Nat) (c : Client) (env : Env) (l : Locals) (s : State) :
    StageInv l.localpath l.remotefi.Mode l.copy_verify_file s (verifyStage fuel c env l s) := by
  unfold verifyStage
  split
  · split
    · split
      · split
        · exact verifyCompare_inv env l _ s _ rfl
        · exact StageInv_same l s _
      · exact verifyCompare_inv env l s s _ rfl
    · exact StageInv_same l s _
  · exact StageInv_same l s _

theorem typeStage_inv (env : Env) (l : Locals) (s : State) :
    StageInv l.localpath l.remotefi.Mode l.copy_verify_file s (typeStage env l s) := by
  unfold typeStage
  split
  · split
    · exact ⟨rfl, rfl, fun _ h => h, [Event.Remove l.localpath], by simp [State.emit],
        by simp [Event.isFileCall]⟩
    · exact ⟨rfl, rfl, fun _ h => h, [Event.Remove l.localpath], by simp [State.emit],
        by simp [Event.isFileCall]⟩
  · exact StageInv_same l s _

theorem diffStage_inv (env : Env) (l : Locals) (s : State) :
    StageInv l.localpath l.remotefi.Mode l.copy_verify_file s (diffStage env l s) := by
  unfold diffStage
  split
  · simp only []
    split
    · split
      · refine ⟨?_, ?_, ?_, [Event.Truncate l.localpath (int64 l.remotefi.Size)],
          by simp [State.emit], by simp [Event.isFileCall]⟩
        · split <;> split <;> rfl
        · split <;> split <;> rfl
        · intro _ h
          split <;> split <;> exact h
      · exact ⟨rfl, rfl, fun _ h => h, [Event.Truncate l.localpath (int64 l.remotefi.Size)],
          by simp [State.emit], by simp [Event.isFileCall]⟩
    · refine ⟨?_, ?_, ?_, [], by simp, by simp⟩
      · split <;> split <;> rfl
      · split <;> split <;> rfl
      · intro _ h
        split <;> split <;> exact h
  · exact StageInv_same l s _

theorem copyDecisionStage_inv (c : Client) (l : Locals) (s : State) :
    StageInv l.localpath l.remotefi.Mode l.copy_verify_file s (copyDecisionStage c l s) := by
  unfold copyDecisionStage
  cases hc : l.create_file
  · simp only [Bool.false_eq_true, if_false]
    split
    · rename_i h
      exact ⟨rfl, rfl, fun hs _ => absurd h.2.1 hs, [], by simp, by simp⟩
    · exact StageInv_same l s _
  · simp only [if_true]
    split
    · rename_i h
      exact ⟨rfl, rfl, fun hs _ => absurd h.2.1 hs, [], by simp, by simp⟩
    · exact ⟨rfl, rfl, fun _ h => h, [], by simp, by simp⟩

theorem linkLoop_events (env : Env) (oldname newname : String) :
    ∀ (fuel retries : Nat), ∀ e ∈ (linkLoop env oldname newname fuel retries).1,
      e = Event.Link oldname newname := by
  intro fuel
  induction fuel with
  | zero => intro retries e he; simp [linkLoop] at he
  | succ fuel ih =>
    intro retries e he
    unfold linkLoop at he
    split at he
    · simpa using he
    · split at he
      · rcases List.mem_cons.mp he with h | h
        · exact h
        · exact ih _ e h
      · simpa using he
    · simpa using he

theorem materializeStage_inv (c : Client) (env : Env) (l : Locals) (s : State) :
    StageInv l.localpath l.remotefi.Mode l.copy_verify_file s (materializeStage c env l s) := by
  unfold materializeStage
  split
  · split
    · split
      · rename_i ini _ _
        have hev : ∀ e ∈ (linkLoop env ini.localhardlinkpath l.localpath 25 0).1,
            e.isFileCall l.localpath = true ∨ (e.isTransfer = true ∧
              (l.remotefi.Mode &&& ModeSymlink = 0 ∨ l.copy_verify_file = true)) := by
          intro e he
          left
          rw [linkLoop_events env _ _ 25 0 e he]
          simp [Event.isFileCall]
        simp only []
        split
        · exact ⟨rfl, rfl, fun _ _ => rfl, _, rfl, hev⟩
        · exact ⟨rfl, rfl, fun _ h => h, _, rfl, hev⟩
      · exact StageInv_same l s _
    · exact StageInv_same l s _
  · exact StageInv_same l s _

theorem createStage_inv (env : Env) (l : Locals) (s : State) :
    StageInv l.localpath l.remotefi.Mode l.copy_verify_file s (createStage env l s) := by
  unfold createStage
  split
  · simp only []
    split <;>
      exact ⟨rfl, rfl, fun _ h => h, [Event.Create l.localfi l.remotefi], by simp [State.emit],
        by simp [Event.isFileCall]⟩
  · exact StageInv_same l s _

theorem applyStage_inv (l : Locals) (s : State) :
    StageInv l.localpath l.remotefi.Mode l.copy_verify_file s (applyStage l s) := by
  unfold applyStage
  split
  · exact ⟨rfl, rfl, fun _ h => h, [Event.ApplyChanges l.localfi l.remotefi],
      by simp [State.emit], by simp [Event.isFileCall]⟩
  · exact StageInv_same l s _

theorem cleanupStage_inv (l : Locals) (s : State) :
    StageInv l.localpath l.remotefi.Mode l.copy_verify_file s (cleanupStage l s) := by
  unfold cleanupStage
  split
  · exact ⟨rfl, rfl, fun _ h => h, [], by simp, by simp⟩
  · exact StageInv_same l s _

theorem transferChunk_events (env : Env) (localpath : String) (args : GetChunkArgs)
    (i length : Int) : ∀ e ∈ (transferChunk env localpath args i length).1,
      e.isTransfer = true := by
  intro e he
  unfold transferChunk at he
  split at he
  · split at he <;>
    · simp at he
      rcases he with rfl | rfl <;> rfl
  · simp at he
    subst he
    rfl

theorem blockLoop_events (c : Client) (env : Env) (localpath : String) (remotefi : FileInfo)
    (existingsize : Int) :
    ∀ (fuel : Nat) (i : Int) (ts ap : Bool) (r : List Event × Bool × Bool),
      blockLoop c env localpath remotefi existingsize fuel i ts ap = some r →
      ∀ e ∈ r.1, e.isTransfer = true := by
  intro fuel
  induction fuel with
  | zero => intro i ts ap r h; simp [blockLoop] at h
  | succ fuel ih =>
    intro i ts ap r h e he
    have htc := transferChunk_events env localpath (chunkArgs c remotefi i).2 i
      (chunkArgs c remotefi i).1
    rw [blockLoop] at h
    simp only [] at h
    split at h
    · split at h
      · cases h
        simp at he
      · split at h
        · split at h
          · cases h
            simp at he
            rcases he with rfl | rfl <;> rfl
          · split at h
            · split at h
              · rename_i r1 hrec
                cases h
                simp at he
                rcases he with rfl | rfl | he
                · rfl
                · rfl
                · exact ih _ _ _ _ hrec e he
              · cases h
            · split at h
              · split at h
                · rename_i r1 hrec
                  cases h
                  simp only [List.append_assoc, List.mem_append] at he
                  rcases he with he | he | he
                  · simp at he
                    rcases he with rfl | rfl <;> rfl
                  · exact htc e he
                  · exact ih _ _ _ _ hrec e he
                · cases h
              · cases h
                simp only [List.mem_append] at he
                rcases he with he | he
                · simp at he
                  rcases he with rfl | rfl <;> rfl
                · exact htc e he
        · split at h
          · split at h
            · rename_i r1 hrec
              cases h
              simp only [List.append_assoc, List.mem_append] at he
              rcases he with he | he | he
              · simp at he
                subst he
                rfl
              · exact htc e he
              · exact ih _ _ _ _ hrec e he
            · cases h
          · cases h
            simp only [List.mem_append] at he
            rcases he with he | he
            · simp at he
              subst he
              rfl
            · exact htc e he
    · cases h
      simp at he


theorem transferStage_inv (fuel : Nat) (c : Client) (env : Env) (l : Locals) (s : State) :
    StageInv l.localpath l.remotefi.Mode l.copy_verify_file s (transferStage fuel c env l s) := by
  unfold transferStage
  cases hcv : l.copy_verify_file
  · simp only [Bool.false_eq_true, if_false]
    exact ⟨rfl, rfl, fun _ _ => hcv, [], by simp, by simp⟩
  · simp only [if_true]
    split
    · split
      · split
        · rename_i r hrun
          have hev := blockLoop_events c env _ _ _ _ _ _ _ r hrun
          refine ⟨rfl, rfl, (fun _ h => absurd h (by simp)),
            [Event.OpenFile l.localpath, Event.ServerOpen l.remotefi.Name] ++ r.1
              ++ [Event.ServerClose l.remotefi.Name], by simp [State.emit], ?_⟩
          intro e he
          right
          refine ⟨?_, Or.inr rfl⟩
          simp only [List.mem_append] at he
          rcases he with (he | he) | he
          · simp at he
            rcases he with rfl | rfl <;> rfl
          · exact hev e he
          · simp at he
            subst he
            rfl
        · refine ⟨rfl, rfl, (fun _ h => absurd h (by simp)),
            [Event.OpenFile l.localpath, Event.ServerOpen l.remotefi.Name],
            by simp [State.emit], ?_⟩
          intro e he
          right
          refine ⟨?_, Or.inr rfl⟩
          simp at he
          rcases he with rfl | rfl <;> rfl
      · refine ⟨rfl, rfl, (fun _ h => absurd h (by simp)),
          [Event.OpenFile l.localpath, Event.ServerOpen l.remotefi.Name],
          by simp [State.emit], ?_⟩
        intro e he
        right
        refine ⟨?_, Or.inr rfl⟩
        simp at he
        rcases he with rfl | rfl <;> rfl
    · refine ⟨rfl, rfl, (fun _ h => absurd h (by simp)), [Event.OpenFile l.localpath],
        by simp [State.emit], ?_⟩
      intro e he
      right
      refine ⟨?_, Or.inr rfl⟩
      simp at he
      subst he
      rfl

/-- The invariant of the stages holds for the file worker up to the inode
cleanup, started from the remote record. -/
theorem fileWorkerSteps_inv (fuel : Nat) (c : Client) (env : Env) (remotefi : FileInfo)
    (s : State) :
    StageInv (filepathJoin [c.BasePath, remotefi.Name]) remotefi.Mode false s
      (fileWorkerSteps fuel c env remotefi s) := by
  have hstat : StageInv (filepathJoin [c.BasePath, remotefi.Name]) remotefi.Mode false s
      (statStage c env remotefi s) := by
    unfold statStage
    simp only []
    split <;> exact ⟨rfl, rfl, fun _ _ => rfl, [], by simp, by simp⟩
  unfold fileWorkerSteps fileDecisions
  refine StageInv_andThen _ _ _ _ _ _ ?_ cleanupStage_inv
  refine StageInv_andThen _ _ _ _ _ _ ?_ applyStage_inv
  refine StageInv_andThen _ _ _ _ _ _ ?_ (transferStage_inv fuel c env)
  refine StageInv_andThen _ _ _ _ _ _ ?_ (createStage_inv env)
  refine StageInv_andThen _ _ _ _ _ _ ?_ (materializeStage_inv c env)
  refine StageInv_andThen _ _ _ _ _ _ ?_ (copyDecisionStage_inv c)
  refine StageInv_andThen _ _ _ _ _ _ ?_ (diffStage_inv env)
  refine StageInv_andThen _ _ _ _ _ _ ?_ (typeStage_inv env)
  refine StageInv_andThen _ _ _ _ _ _ ?_ (verifyStage_inv fuel c env)
  refine StageInv_andThen _ _ _ _ _ _ ?_ (registerStage_inv c)
  exact StageInv_andThen _ _ _ _ _ _ hstat (aclStage_inv c)

theorem mem_removals (ev : List Event) (p : String) :
    p ∈ removals ev ↔ Event.Remove p ∈ ev ∨ Event.RemoveAll p ∈ ev := by
  unfold removals
  rw [List.mem_filterMap]
  constructor
  · rintro ⟨e, he, h⟩
    split at h
    · cases h; exact Or.inl he
    · cases h; exact Or.inr he
    · cases h
  · rintro (h | h)
    · exact ⟨_, h, rfl⟩
    · exact ⟨_, h, rfl⟩

theorem removals_append (a b : List Event) : removals (a ++ b) = removals a ++ removals b := by
  simp [removals, List.filterMap_append]

theorem removals_PostProcessDir (c : Client) (env : Env) (item : dirinfo)
    (hdel : c.Delete = false) : removals (PostProcessDir c env item) = [] := by
  unfold PostProcessDir
  simp only [hdel, Bool.false_eq_true, if_false, List.nil_append]
  split <;> simp [removals]

theorem removals_cons_report (path : String) (ev : List Event) :
    removals (Event.ProcessedItemInDir path :: ev) = removals ev := rfl

theorem removals_cons_postProcess (name : String) (ev : List Event) :
    removals (Event.PostProcessDir name :: ev) = removals ev := rfl

/-- With `Delete` off the cascade hands no path to `os.RemoveAll`. -/
theorem removals_ProcessedItemInDirAux (c : Client) (env : Env) (hdel : c.Delete = false) :
    ∀ (fuel : Nat) (path : String) (d d1 : List dirinfo) (ev : List Event),
      ProcessedItemInDirAux c env fuel path d = some (d1, ev) → removals ev = [] := by
  intro fuel
  induction fuel with
  | zero => intro path d d1 ev h; simp [ProcessedItemInDirAux] at h
  | succ fuel ih =>
    intro path d d1 ev h
    cases hL : Gonk.Load dirinfo.Compare d { name := path } with
    | none =>
      rw [ProcessedItemInDirAux_missing c env fuel path d hL] at h
      cases h
      simp [removals]
    | some e =>
      obtain ⟨pre, post, hd, hpre, he0⟩ := Gonk.Load_some_split _ _ _ _ hL
      have he : e.name = path := (dirinfo_Compare_eq_zero _ _).mp he0
      subst hd
      rw [ProcessedItemInDirAux_found c env fuel path pre post e hpre he] at h
      have hpp := removals_PostProcessDir c env { e with remaining := int32 (e.remaining - 1) }
        hdel
      split at h
      · split at h
        · cases hrec : ProcessedItemInDirAux c env fuel (filepathDir path)
            (pre ++ Gonk.Delete dirinfo.Compare post { name := path }) with
          | none => rw [hrec] at h; cases h
          | some r =>
            rw [hrec] at h
            cases h
            have hr := ih _ _ r.1 r.2 hrec
            rw [removals_append, hr, List.append_nil, removals_cons_report,
              removals_cons_postProcess, hpp]
        · cases h
          rw [removals_cons_report, removals_cons_postProcess, hpp]
      · cases h
        simp [removals]

theorem removals_ProcessedItemInDir (c : Client) (env : Env) (hdel : c.Delete = false)
    (path : String) (s s1 : State) (h : ProcessedItemInDir c env path s = some s1) :
    ∃ ev, s1.trace = s.trace ++ ev ∧ removals ev = [] := by
  unfold ProcessedItemInDir at h
  split at h
  · rename_i d ev hrun
    cases h
    exact ⟨ev, rfl, removals_ProcessedItemInDirAux c env hdel _ _ _ _ _ hrun⟩
  · cases h

theorem removals_queueDirectory (c : Client) (env : Env) (s : State) (remotefi : FileInfo) :
    ∃ ev, (queueDirectory c env s remotefi).trace = s.trace ++ ev ∧
      ∀ p ∈ removals ev, p = filepathJoin [c.BasePath, remotefi.Name] ∧
        ∃ localstat, env.lstat p = StatResult.ok localstat ∧ localstat.IsDir = false := by
  unfold queueDirectory
  simp only []
  split
  · refine ⟨[Event.MkdirAll (filepathJoin [c.BasePath, remotefi.Name])], ?_, ?_⟩
    · split <;> rfl
    · intro p hp
      simp [removals] at hp
  · rename_i localstat hstat
    split
    · rename_i hdir
      refine ⟨[Event.RemoveAll (filepathJoin [c.BasePath, remotefi.Name]),
        Event.MkdirAll (filepathJoin [c.BasePath, remotefi.Name])], ?_, ?_⟩
      · split <;> rfl
      · intro p hp
        simp [removals] at hp
        subst hp
        exact ⟨rfl, localstat, hstat, by simpa using hdir⟩
    · exact ⟨[], by simp, by simp [removals]⟩
  · exact ⟨[], by simp, by simp [removals]⟩

theorem removals_queueDirectories (c : Client) (env : Env) :
    ∀ (files : List FileInfo) (s : State),
      ∃ ev, (files.foldl (queueDirectory c env) s).trace = s.trace ++ ev ∧
        ∀ p ∈ removals ev, ∃ remotefi ∈ files, p = filepathJoin [c.BasePath, remotefi.Name] ∧
          ∃ localstat, env.lstat p = StatResult.ok localstat ∧ localstat.IsDir = false := by
  intro files
  induction files with
  | nil => intro s; exact ⟨[], by simp, by simp [removals]⟩
  | cons f files ih =>
    intro s
    obtain ⟨ev1, h1, g1⟩ := removals_queueDirectory c env s f
    obtain ⟨ev2, h2, g2⟩ := ih (queueDirectory c env s f)
    refine ⟨ev1 ++ ev2, ?_, ?_⟩
    · rw [List.foldl_cons, h2, h1, List.append_assoc]
    · intro p hp
      rw [removals_append] at hp
      rcases List.mem_append.mp hp with hp | hp
      · exact ⟨f, List.mem_cons_self _ _, g1 p hp⟩
      · obtain ⟨r, hr, hrest⟩ := g2 p hp
        exact ⟨r, List.mem_cons_of_mem _ hr, hrest⟩

/-- With `Delete` off the directory worker hands to `os.RemoveAll` only the
local path of a listed remote directory where the local entry is not a
directory. -/
theorem removals_dirWorkerBody (c : Client) (env : Env) (item : FileInfo) (s : State)
    (hdel : c.Delete = false) :
    ∃ ev, (dirWorkerBody c env item s).2.trace = s.trace ++ ev ∧
      ∀ p ∈ removals ev, ∃ resp remotefi localstat,
        env.serverList item.Name = some resp ∧ remotefi ∈ resp.Files ∧ remotefi.IsDir = true ∧
        p = filepathJoin [c.BasePath, remotefi.Name] ∧
        env.lstat p = StatResult.ok localstat ∧ localstat.IsDir = false := by
  unfold dirWorkerBody
  cases hlist : env.serverList item.Name with
  | none => exact ⟨[], by simp, by simp [removals]⟩
  | some resp =>
    simp only []
    split
    · split
      · rename_i s2 hrep
        obtain ⟨ev, h1, h2⟩ := removals_ProcessedItemInDir c env hdel _ _ _ hrep
        refine ⟨ev, h1, ?_⟩
        intro p hp
        rw [h2] at hp
        cases hp
      · exact ⟨[], by simp, by simp [removals]⟩
    · obtain ⟨ev, h1, h2⟩ := removals_queueDirectories c env
        (resp.Files.filter (fun remotefi => remotefi.IsDir))
        { s with
          dircache := (setRemaining s.dircache item.Name (resp.Files.length : Int)
            (extraEntries c env item resp.Files)).1
          filequeue := s.filequeue ++ resp.Files.filter (fun remotefi => !remotefi.IsDir) }
      refine ⟨ev, h1, ?_⟩
      intro p hp
      obtain ⟨r, hr, hpath, localstat, hstat, hdir⟩ := h2 p hp
      obtain ⟨hmem, hisdir⟩ := List.mem_filter.mp hr
      exact ⟨resp, r, localstat, rfl, hmem, hisdir, hpath, hstat, hdir⟩

/-! ## Lemmas on type changes and remote symlinks -/

theorem Step.andThen_next (l : Locals) (s : State) (f : Locals → State → Step) :
    Step.andThen (Flow.next, l, s) f = f l s := rfl

theorem int32_first_registration (n : Nat) (h1 : 1 < n) (h2 : n < 18446744073709551616) :
    int32 (int32 (n : Int) - 1) = int32 ((uint64 ((n : Int) - 1) : Nat) : Int) := by
  unfold int32 uint64
  omega

/-- The stages after registration for an existing entry of another type that
is not a later path of a hardlink group. -/
theorem type_change_rest (fuel : Nat) (c : Client) (env : Env) (l : Locals) (s : State)
    (hcf : l.create_file = false)
    (hlead : c.PreserveHardlinks = false ∨ ¬ (l.remotefi.Nlink > 1)
      ∨ l.justaddedtoinodecache = true)
    (htype : l.localfi.Mode &&& ModeType ≠ l.remotefi.Mode &&& ModeType)
    (hremove : env.remove l.localpath = true) :
    ∃ l2 s2,
      Step.andThen (Step.andThen (Step.andThen (Step.andThen (Step.andThen (Step.andThen
        (Flow.next, l, s) (verifyStage fuel c env)) (typeStage env)) (diffStage env))
        (copyDecisionStage c)) (materializeStage c env)) (createStage env)
        = (if env.create = CreateResult.ok then Flow.next else Flow.continue_, l2, s2) ∧
      l2.create_file = true ∧ l2.apply_attributes = true ∧ l2.remotefi = l.remotefi ∧
      l2.localfi = l.localfi ∧
      s2.trace = s.trace ++ [Event.Remove l.localpath, Event.Create l.localfi l.remotefi] := by
  have hverify : verifyStage fuel c env l s = (Flow.next, l, s) := by
    unfold verifyStage
    rcases hlead with h | h | h
    · simp [h]
    · simp [h]
    · simp [h]
  have htypeS : typeStage env l s
      = (Flow.next, { l with create_file := true }, s.emit [Event.Remove l.localpath]) := by
    simp [typeStage, hcf, htype, hremove]
  have hmat : ∀ (l3 : Locals) (s3 : State), l3.remotefi = l.remotefi →
      l3.justaddedtoinodecache = l.justaddedtoinodecache →
      materializeStage c env l3 s3 = (Flow.next, l3, s3) := by
    intro l3 s3 h1 h2
    unfold materializeStage
    rcases hlead with h | h | h
    · simp [h]
    · simp [h1, h]
    · simp [h2, h]
  have hdiff : diffStage env { l with create_file := true } (s.emit [Event.Remove l.localpath])
      = (Flow.next, { l with create_file := true }, s.emit [Event.Remove l.localpath]) := by
    simp [diffStage]
  have hcreate : ∀ (l3 : Locals), l3.create_file = true → l3.apply_attributes = true →
      l3.remotefi = l.remotefi → l3.localfi = l.localfi →
      ∃ l2 s2, createStage env l3 (s.emit [Event.Remove l.localpath])
          = (if env.create = CreateResult.ok then Flow.next else Flow.continue_, l2, s2) ∧
        l2.create_file = true ∧ l2.apply_attributes = true ∧ l2.remotefi = l.remotefi ∧
        l2.localfi = l.localfi ∧
        s2.trace = s.trace ++ [Event.Remove l.localpath, Event.Create l.localfi l.remotefi] := by
    intro l3 h1 h2 h3 h4
    refine ⟨l3, (s.emit [Event.Remove l.localpath]).emit [Event.Create l3.localfi l3.remotefi],
      ?_, h1, h2, h3, h4, ?_⟩
    · unfold createStage
      cases hc : env.create <;> simp [h1]
    · simp [State.emit, h3, h4]
  rw [Step.andThen_next, hverify, Step.andThen_next, htypeS, Step.andThen_next, hdiff,
    Step.andThen_next]
  by_cases hcond : l.remotefi.Size > 0 ∧ l.remotefi.Mode &&& ModeSymlink = 0
  · have hcopy : copyDecisionStage c { l with create_file := true }
        (s.emit [Event.Remove l.localpath])
        = (Flow.next, { l with create_file := true, apply_attributes := true,
                               copy_verify_file := true },
            s.emit [Event.Remove l.localpath]) := by
      simp [copyDecisionStage, hcond.1, hcond.2]
    rw [hcopy, Step.andThen_next,
      hmat { l with create_file := true, apply_attributes := true, copy_verify_file := true }
        _ rfl rfl, Step.andThen_next]
    exact hcreate _ rfl rfl rfl rfl
  · have hcopy : copyDecisionStage c { l with create_file := true }
        (s.emit [Event.Remove l.localpath])
        = (Flow.next, { l with create_file := true, apply_attributes := true },
            s.emit [Event.Remove l.localpath]) := by
      unfold copyDecisionStage
      simp only [if_true]
      rw [if_neg]
      intro h
      exact hcond ⟨h.1, h.2.1⟩
    rw [hcopy, Step.andThen_next,
      hmat { l with create_file := true, apply_attributes := true } _ rfl rfl,
      Step.andThen_next]
    exact hcreate _ rfl rfl rfl rfl

theorem registerStage_trace (c : Client) (l : Locals) (s : State) :
    (registerStage c l s).2.2.trace = s.trace := by
  unfold registerStage
  split
  · simp only []
    split <;> rfl
  · rfl

/-- Registration and the stages after it, up to the creation, for an existing
entry of another type that is not a later path of a hardlink group. -/
theorem type_change_from_registration (fuel : Nat) (c : Client) (env : Env) (l : Locals)
    (s : State) (hcf : l.create_file = false)
    (hlead : c.PreserveHardlinks = false ∨ l.remotefi.Nlink ≤ 1 ∨
      (Gonk.Load inodeinfo.Compare s.inodes (inodeKey l.remotefi) = none ∧
        l.remotefi.Nlink < 18446744073709551616))
    (htype : l.localfi.Mode &&& ModeType ≠ l.remotefi.Mode &&& ModeType)
    (hremove : env.remove l.localpath = true) :
    ∃ l2 s2,
      Step.andThen (Step.andThen (Step.andThen (Step.andThen (Step.andThen (Step.andThen
        (Step.andThen (Flow.next, l, s) (registerStage c)) (verifyStage fuel c env))
        (typeStage env)) (diffStage env)) (copyDecisionStage c)) (materializeStage c env))
        (createStage env)
        = (if env.create = CreateResult.ok then Flow.next else Flow.continue_, l2, s2) ∧
      l2.create_file = true ∧ l2.apply_attributes = true ∧ l2.remotefi = l.remotefi ∧
      l2.localfi = l.localfi ∧
      s2.trace = s.trace ++ [Event.Remove l.localpath, Event.Create l.localfi l.remotefi] := by
  rw [Step.andThen_next]
  by_cases hgroup : c.PreserveHardlinks = true ∧ l.remotefi.Nlink > 1
  · have habsent : Gonk.Load inodeinfo.Compare s.inodes (inodeKey l.remotefi) = none ∧
        l.remotefi.Nlink < 18446744073709551616 := by
      rcases hlead with h | h | h
      · rw [hgroup.1] at h; cases h
      · omega
      · exact h
    obtain ⟨l1, s1, e1, hreg, hl1, _, _, _⟩ :=
      registerStage_absent c l s hgroup.1 hgroup.2 habsent.1
    have htr : s1.trace = s.trace := by
      have := registerStage_trace c l s
      rw [hreg] at this
      exact this
    have hfirst := int32_first_registration l.remotefi.Nlink hgroup.2 habsent.2
    have hjust : decide (int32 (int32 l.remotefi.Nlink - 1)
        = int32 (uint64 ((l.remotefi.Nlink : Int) - 1))) = true := by
      rw [decide_eq_true_eq]
      exact hfirst
    generalize decide (int32 (int32 l.remotefi.Nlink - 1)
        = int32 (uint64 ((l.remotefi.Nlink : Int) - 1))) = b at hl1 hjust
    subst hjust
    generalize int32 (int32 l.remotefi.Nlink - 1) = rem at hl1
    subst hl1
    obtain ⟨l2, s2, hrun, h1, h2, h3, h4, h5⟩ := type_change_rest fuel c env
      { l with remaininghardlinks := rem, justaddedtoinodecache := true } s1
      hcf (Or.inr (Or.inr rfl)) htype hremove
    refine ⟨l2, s2, by rw [hreg]; exact hrun, h1, h2, h3, h4, ?_⟩
    rw [h5, htr]
  · have hreg : registerStage c l s = (Flow.next, l, s) := by
      unfold registerStage
      rw [if_neg]
      simpa using hgroup
    have hlead2 : c.PreserveHardlinks = false ∨ ¬ (l.remotefi.Nlink > 1)
        ∨ l.justaddedtoinodecache = true := by
      by_cases hp : c.PreserveHardlinks = true
      · exact Or.inr (Or.inl (fun h => hgroup ⟨hp, h⟩))
      · exact Or.inl (by simpa using hp)
    rw [hreg]
    exact type_change_rest fuel c env l s hcf hlead2 htype hremove

theorem isTransfer_of_isFileCall (lp : String) (e : Event) (h : e.isFileCall lp = true) :
    e.isTransfer = false := by
  cases e <;> first | rfl | cases h

theorem isTransfer_PostProcessDir (c : Client) (env : Env) (item : dirinfo) :
    ∀ e ∈ PostProcessDir c env item, e.isTransfer = false := by
  intro e he
  unfold PostProcessDir at he
  rcases List.mem_append.mp he with h | h
  · split at h
    · obtain ⟨x, _, hx⟩ := List.mem_map.mp h
      subst hx
      rfl
    · cases h
  · split at h
    · simp at h
      subst h
      rfl
    · cases h

/-- The cascade issues no call of the block transfer. -/
theorem isTransfer_ProcessedItemInDirAux (c : Client) (env : Env) :
    ∀ (fuel : Nat) (path : String) (d d1 : List dirinfo) (ev : List Event),
      ProcessedItemInDirAux c env fuel path d = some (d1, ev) →
      ∀ e ∈ ev, e.isTransfer = false := by
  intro fuel
  induction fuel with
  | zero => intro path d d1 ev h; simp [ProcessedItemInDirAux] at h
  | succ fuel ih =>
    intro path d d1 ev h
    cases hL : Gonk.Load dirinfo.Compare d { name := path } with
    | none =>
      rw [ProcessedItemInDirAux_missing c env fuel path d hL] at h
      cases h
      intro e he
      simp at he
      subst he
      rfl
    | some x =>
      obtain ⟨pre, post, hd, hpre, he0⟩ := Gonk.Load_some_split _ _ _ _ hL
      have hx : x.name = path := (dirinfo_Compare_eq_zero _ _).mp he0
      subst hd
      rw [ProcessedItemInDirAux_found c env fuel path pre post x hpre hx] at h
      have hpp := isTransfer_PostProcessDir c env { x with remaining := int32 (x.remaining - 1) }
      split at h
      · split at h
        · cases hrec : ProcessedItemInDirAux c env fuel (filepathDir path)
            (pre ++ Gonk.Delete dirinfo.Compare post { name := path }) with
          | none => rw [hrec] at h; cases h
          | some r =>
            rw [hrec] at h
            cases h
            have hr := ih _ _ r.1 r.2 hrec
            intro e he
            rcases List.mem_cons.mp he with rfl | he
            · rfl
            · rcases List.mem_cons.mp he with rfl | he
              · rfl
              · rcases List.mem_append.mp he with he | he
                · exact hpp e he
                · exact hr e he
        · cases h
          intro e he
          rcases List.mem_cons.mp he with rfl | he
          · rfl
          · rcases List.mem_cons.mp he with rfl | he
            · rfl
            · exact hpp e he
      · cases h
        intro e he
        simp at he
        subst he
        rfl

/-- For a remote symlink `copy_verify_file` stays false and the loop body
issues no call of the block transfer. -/
theorem symlink_no_transfer (fuel : Nat) (c : Client) (env : Env) (remotefi : FileInfo)
    (s : State) (hlink : remotefi.Mode &&& ModeSymlink ≠ 0) :
    (fileWorkerSteps fuel c env remotefi s).2.1.copy_verify_file = false ∧
    ∃ ev, (fileWorkerBody fuel c env remotefi s).2.2.trace = s.trace ++ ev ∧
      ∀ e ∈ ev, e.isTransfer = false := by
  obtain ⟨_, _, hcv, ev, htrace, hev⟩ := fileWorkerSteps_inv fuel c env remotefi s
  have hown : ∀ e ∈ ev, e.isTransfer = false := by
    intro e he
    rcases hev e he with h | ⟨_, h | h⟩
    · exact isTransfer_of_isFileCall _ e h
    · exact absurd h hlink
    · cases h
  refine ⟨hcv hlink rfl, ?_⟩
  unfold fileWorkerBody
  rcases hsteps : fileWorkerSteps fuel c env remotefi s with ⟨flow, l, s1⟩
  rw [hsteps] at htrace
  simp only at htrace
  cases flow
  case next =>
    simp only [Step.andThen, reportStage]
    cases hrep : ProcessedItemInDir c env (filepathDir l.remotefi.Name) s1 with
    | none => exact ⟨ev, htrace, hown⟩
    | some s2 =>
      unfold ProcessedItemInDir at hrep
      split at hrep
      · rename_i d ev2 hrun
        cases hrep
        refine ⟨ev ++ ev2, by simp only [htrace, List.append_assoc], ?_⟩
        intro e he
        rcases List.mem_append.mp he with he | he
        · exact hown e he
        · exact isTransfer_ProcessedItemInDirAux c env _ _ _ _ _ hrun e he
      · cases hrep
  all_goals exact ⟨ev, htrace, hown⟩

/-! ## Lemmas on the counter of a listed directory -/

/-- Storing an entry of another name leaves the entry of `name` as it is. -/
theorem Load_Store_other (g : List dirinfo) (x : dirinfo) (name : String)
    (h : x.name ≠ name) :
    Gonk.Load dirinfo.Compare (Gonk.Store dirinfo.Compare g x) { name := name }
      = Gonk.Load dirinfo.Compare g { name := name } := by
  have hx : ¬ dirinfo.Compare x { name := name } = 0 := by
    rw [dirinfo_Compare_eq_zero]
    exact h
  induction g with
  | nil => simp [Gonk.Store, Gonk.Load, hx]
  | cons y ys ih =>
    by_cases hy : dirinfo.Compare y x = 0
    · have hyx : y.name = x.name := (dirinfo_Compare_eq_zero _ _).mp hy
      have hyk : ¬ dirinfo.Compare y { name := name } = 0 := by
        rw [dirinfo_Compare_eq_zero, hyx]
        exact h
      simp [Gonk.Store, Gonk.Load, hy, hx, hyk]
    · by_cases hyk : dirinfo.Compare y { name := name } = 0
      · simp [Gonk.Store, Gonk.Load, hy, hyk]
      · have := ih
        simp only [Gonk.Load] at this
        simp [Gonk.Store, Gonk.Load, hy, hyk, this]

/-- Queueing a sub-directory of another name keeps the cache entry of `name`
and issues no call of the finalization cascade. -/
theorem queueDirectory_keeps (c : Client) (env : Env) (s : State) (remotefi : FileInfo)
    (name : String) (h : remotefi.Name ≠ name) :
    Gonk.Load dirinfo.Compare (queueDirectory c env s remotefi).dircache { name := name }
      = Gonk.Load dirinfo.Compare s.dircache { name := name } ∧
    finalizations name (queueDirectory c env s remotefi) = finalizations name s := by
  have hst : ∀ d : List dirinfo,
      Gonk.Load dirinfo.Compare (Gonk.Store dirinfo.Compare d
        { name := remotefi.Name, info := remotefi, remaining := -1 }) { name := name }
        = Gonk.Load dirinfo.Compare d { name := name } :=
    fun d => Load_Store_other d _ name h
  unfold queueDirectory
  simp only []
  split
  · split
    · exact ⟨hst _, by simp [finalizations, List.count_append, List.count_cons]⟩
    · exact ⟨rfl, by simp [finalizations, List.count_append, List.count_cons]⟩
  · split
    · split
      · exact ⟨hst _, by simp [finalizations, List.count_append, List.count_cons]⟩
      · exact ⟨rfl, by simp [finalizations, List.count_append, List.count_cons]⟩
    · exact ⟨hst _, rfl⟩
  · exact ⟨hst _, rfl⟩

theorem queueDirectories_keep (c : Client) (env : Env) (name : String) :
    ∀ (files : List FileInfo) (s : State), (∀ f ∈ files, f.Name ≠ name) →
      Gonk.Load dirinfo.Compare (files.foldl (queueDirectory c env) s).dircache { name := name }
        = Gonk.Load dirinfo.Compare s.dircache { name := name } ∧
      finalizations name (files.foldl (queueDirectory c env) s) = finalizations name s := by
  intro files
  induction files with
  | nil => intro s _; exact ⟨rfl, rfl⟩
  | cons f files ih =>
    intro s h
    obtain ⟨h1, h2⟩ := queueDirectory_keeps c env s f name (h f (List.mem_cons_self _ _))
    obtain ⟨h3, h4⟩ := ih (queueDirectory c env s f)
      (fun x hx => h x (List.mem_cons_of_mem _ hx))
    rw [List.foldl_cons]
    exact ⟨h3.trans h1, h4.trans h2⟩

/-- Successive reports for a directory whose counter reads `n`: the first
`max n 1 - 1` reports only decrement, the next one finalizes, later ones find
no entry. -/
theorem processedTimes_counts (c : Client) (env : Env) (name : String) (n f0 : Nat)
    (s1 : State) (e1 : dirinfo) (hn : (n : Int) < 2147483648)
    (hload : Gonk.Load dirinfo.Compare s1.dircache { name := name } = some e1)
    (hrem : e1.remaining = n) (hfin : finalizations name s1 = f0) :
    ∀ j, ∃ sj, processedTimes c env name j s1 = some sj ∧
      (j < max n 1 →
        (Gonk.Load dirinfo.Compare sj.dircache { name := name }).map (fun x => x.remaining)
          = some ((n : Int) - j) ∧
        finalizations name sj = f0) ∧
      (max n 1 ≤ j →
        Gonk.Load dirinfo.Compare sj.dircache { name := name } = none ∧
        finalizations name sj = f0 + 1) := by
  intro j
  induction j with
  | zero =>
    refine ⟨_, rfl, ?_, ?_⟩
    · intro _
      simp [hload, hrem, hfin]
    · intro h
      omega
  | succ j ih =>
    obtain ⟨sj, hsj, hlow, hhigh⟩ := ih
    simp only [processedTimes, hsj, Option.some_bind]
    by_cases hj : j < max n 1
    · obtain ⟨hl, hf⟩ := hlow hj
      obtain ⟨ej, hej, hr⟩ := Option.map_eq_some'.mp hl
      have hleft : int32 (ej.remaining - 1) = (n : Int) - j - 1 := by
        rw [hr]
        exact int32_of_range _ (by omega) (by omega)
      by_cases hj1 : j + 1 < max n 1
      · obtain ⟨s2, hs2, hl2, hf2⟩ := ProcessedItemInDir_pending c env name sj ej hej
          (by rw [hleft]; omega)
        refine ⟨s2, hs2, ?_, ?_⟩
        · intro _
          refine ⟨?_, hf2.trans hf⟩
          rw [hl2, hleft]
          simp
          omega
        · intro h
          omega
      · obtain ⟨s2, hs2, hl2, hf2⟩ := ProcessedItemInDir_final c env name sj ej hej
          (by rw [hleft]; omega)
        refine ⟨s2, hs2, ?_, ?_⟩
        · intro h
          omega
        · intro _
          exact ⟨hl2, by rw [hf2, hf]⟩
    · obtain ⟨hl, hf⟩ := hhigh (by omega)
      obtain ⟨s2, hs2, hd2, hf2⟩ := ProcessedItemInDir_missing c env name sj hl
      refine ⟨s2, hs2, ?_, ?_⟩
      · intro h
        omega
      · intro _
        exact ⟨by rw [hd2]; exact hl, hf2.trans hf⟩

/-! ## Lemmas on the requests of the block loop -/

/-- When neither `i + B` nor the sizes leave the range of `int64`, the chunk
at offset `i` has length `min B (S - i)`. -/
theorem chunkArgs_of_fit (c : Client) (remotefi : FileInfo) (S B i : Nat)
    (hB : c.BlockSize = B) (hS : remotefi.Size = S) (hS63 : S < 9223372036854775808)
    (hfit : i + B < 9223372036854775808) (hi : i < S) :
    chunkArgs c remotefi i
      = (((min B (S - i) : Nat) : Int),
         { Path := remotefi.Name, Offset := i, Size := min B (S - i) }) := by
  have h1 : int64 (B : Int) = B := int64_of_range _ (by omega) (by omega)
  have h2 : int64 ((i : Int) + B) = (i : Int) + B := int64_of_range _ (by omega) (by omega)
  have h3 : int64 ((S : Int) - i) = (S : Int) - i := int64_of_range _ (by omega) (by omega)
  have h4 : uint64 (i : Int) = i := by unfold uint64; omega
  simp only [chunkArgs, hB, hS, h1, h2, h3, h4]
  by_cases hlast : (i : Int) + B > S
  · have hmin : min B (S - i) = S - i := by omega
    have h5 : uint64 ((S : Int) - i) = S - i := by unfold uint64; omega
    have h6 : ((S - i : Nat) : Int) = (S : Int) - i := by omega
    rw [if_pos hlast, hmin, h5, h6]
  · have hmin : min B (S - i) = B := by omega
    have h5 : uint64 (B : Int) = B := by unfold uint64; omega
    rw [if_neg hlast, hmin, h5]

/-- When `i + B` leaves the range of `int64`, the chunk at offset `i` is
built with the whole block size as its length. -/
theorem chunkArgs_of_wrap (c : Client) (remotefi : FileInfo) (S B i : Nat)
    (hB : c.BlockSize = B) (hS : remotefi.Size = S) (hB63 : B < 9223372036854775808)
    (hi : i < 9223372036854775808) (hwrap : 9223372036854775808 ≤ i + B) :
    (chunkArgs c remotefi i).1 = B := by
  have h1 : int64 (B : Int) = B := int64_of_range _ (by omega) (by omega)
  have h2 : int64 ((i : Int) + B) = (i : Int) + B - 18446744073709551616 := by
    unfold int64
    omega
  simp only [chunkArgs, hB, hS, h1, h2]
  rw [if_neg (by omega)]
theorem issuedSucceed_at (c : Client) (env : Env) (remotefi : FileInfo) (existingsize : Int)
    (S B k i : Nat) (hB : c.BlockSize = B) (hS : remotefi.Size = S)
    (hB63 : B < 9223372036854775808) (hik : i = k * B) (hi : i < S)
    (hok : issuedSucceed c env remotefi existingsize) :
    (int64 ((i : Int) + (chunkArgs c remotefi i).1) ≤ existingsize →
      env.checksumChunk i = true ∧ env.readAt i = some (chunkArgs c remotefi i).1) ∧
    (¬ (int64 ((i : Int) + (chunkArgs c remotefi i).1) ≤ existingsize ∧
        env.hashEqual i = true) →
      env.getChunk i = true ∧ env.writeAt i = some (chunkArgs c remotefi i).1) := by
  have hoff : (k : Int) * int64 c.BlockSize = (i : Int) := by
    rw [hB, int64_of_range (B : Int) (by omega) (by omega), hik]
    push_cast
    rfl
  have h := hok k (by rw [hoff, hS]; omega)
  rw [hoff] at h
  exact h

theorem checksumRequests_append (a b : List Event) :
    checksumRequests (a ++ b) = checksumRequests a ++ checksumRequests b := by
  simp [checksumRequests, List.filterMap_append]

theorem getRequests_append (a b : List Event) :
    getRequests (a ++ b) = getRequests a ++ getRequests b := by
  simp [getRequests, List.filterMap_append]

/-- One iteration of the block loop at the offset `i = k * B` when the
operations it issues succeed and `i + B` stays in the range of `int64`: it
builds the chunk at `i`, requests its checksum when the chunk lies within the
existing file, requests and writes the chunk unless the hashes are equal, and
goes on at `i + B`. -/
theorem blockLoop_iteration (c : Client) (env : Env) (localpath : String) (remotefi : FileInfo)
    (existingsize : Int) (S B k i : Nat) (hB : c.BlockSize = B) (hS : remotefi.Size = S)
    (hS63 : S < 9223372036854775808) (hik : i = k * B) (hfit : i + B < 9223372036854775808)
    (hok : issuedSucceed c env remotefi existingsize) (hi : i < S) (apply_attributes : Bool) :
    ∃ pre apply1, blockVisits pre = [(i, min B (S - i))] ∧
      checksumRequests pre
        = (if ((i + min B (S - i) : Nat) : Int) ≤ existingsize
            then [chunkAt remotefi.Name S B i] else []) ∧
      getRequests pre
        = (if ((i + min B (S - i) : Nat) : Int) ≤ existingsize ∧ env.hashEqual (i : Int) = true
            then [] else [chunkAt remotefi.Name S B i]) ∧
      ∀ fuel, blockLoop c env localpath remotefi existingsize (fuel + 1) (i : Int) true
          apply_attributes
        = (blockLoop c env localpath remotefi existingsize fuel ((i + B : Nat) : Int) true
            apply1).map (fun r => (pre ++ r.1, r.2)) := by
  obtain ⟨hread, hwrite⟩ := issuedSucceed_at c env remotefi existingsize S B k i hB hS
    (by omega) hik hi hok
  have hargs := chunkArgs_of_fit c remotefi S B i hB hS hS63 hfit hi
  have hnext : int64 ((i : Int) + int64 c.BlockSize) = ((i + B : Nat) : Int) := by
    rw [hB, int64_of_range (B : Int) (by omega) (by omega),
      int64_of_range _ (by omega) (by omega)]
    omega
  have hlt : (i : Int) < remotefi.Size := by rw [hS]; omega
  have hend : int64 ((i : Int) + ((min B (S - i) : Nat) : Int))
      = ((i + min B (S - i) : Nat) : Int) := by
    rw [int64_of_range _ (by omega) (by omega)]
    omega
  rw [hargs] at hread hwrite
  simp only [hend] at hread hwrite
  by_cases hexist : ((i + min B (S - i) : Nat) : Int) ≤ existingsize
  · obtain ⟨hcs, hn⟩ := hread hexist
    by_cases hmatch : env.hashEqual (i : Int) = true
    · refine ⟨[Event.Block { Path := remotefi.Name, Offset := i, Size := min B (S - i) },
        Event.ChecksumChunk { Path := remotefi.Name, Offset := i, Size := min B (S - i) }],
        apply_attributes, by simp [blockVisits], ?_, ?_, ?_⟩
      · rw [if_pos hexist]
        rfl
      · rw [if_pos ⟨hexist, hmatch⟩]
        rfl
      · intro fuel
        rw [blockLoop]
        simp only [hlt, if_true, hargs, hnext, hend, hexist, hcs, hn, hmatch]
        cases blockLoop c env localpath remotefi existingsize fuel ((i + B : Nat) : Int) true
          apply_attributes <;> simp
    · obtain ⟨hget, hw⟩ := hwrite (fun h => hmatch h.2)
      have htransfer : transferChunk env localpath
          { Path := remotefi.Name, Offset := i, Size := min B (S - i) } (i : Int)
          ((min B (S - i) : Nat) : Int)
          = ([Event.GetChunk { Path := remotefi.Name, Offset := i, Size := min B (S - i) },
              Event.WriteAt localpath (i : Int)], true) := by
        simp [transferChunk, hget, hw]
      refine ⟨[Event.Block { Path := remotefi.Name, Offset := i, Size := min B (S - i) },
        Event.ChecksumChunk { Path := remotefi.Name, Offset := i, Size := min B (S - i) },
        Event.GetChunk { Path := remotefi.Name, Offset := i, Size := min B (S - i) },
        Event.WriteAt localpath (i : Int)], true, by simp [blockVisits], ?_, ?_, ?_⟩
      · rw [if_pos hexist]
        rfl
      · rw [if_neg (fun h => hmatch h.2)]
        rfl
      · intro fuel
        rw [blockLoop]
        simp only [hlt, if_true, hargs, hnext, hend, hexist, hcs, hn, hmatch, htransfer]
        cases blockLoop c env localpath remotefi existingsize fuel ((i + B : Nat) : Int) true
          true <;> simp
  · obtain ⟨hget, hw⟩ := hwrite (fun h => hexist h.1)
    have htransfer : transferChunk env localpath
        { Path := remotefi.Name, Offset := i, Size := min B (S - i) } (i : Int)
        ((min B (S - i) : Nat) : Int)
        = ([Event.GetChunk { Path := remotefi.Name, Offset := i, Size := min B (S - i) },
            Event.WriteAt localpath (i : Int)], true) := by
      simp [transferChunk, hget, hw]
    refine ⟨[Event.Block { Path := remotefi.Name, Offset := i, Size := min B (S - i) },
      Event.GetChunk { Path := remotefi.Name, Offset := i, Size := min B (S - i) },
      Event.WriteAt localpath (i : Int)], true, by simp [blockVisits], ?_, ?_, ?_⟩
    · rw [if_neg hexist]
      rfl
    · rw [if_neg (fun h => hexist h.1)]
      rfl
    · intro fuel
      rw [blockLoop]
      simp only [hlt, if_true, hargs, hnext, hend, hexist, htransfer]
      cases blockLoop c env localpath remotefi existingsize fuel ((i + B : Nat) : Int) true
        true <;> simp
theorem filter_step_pos {α : Type} (p : α → Bool) (a : α) (l : List α) (P : Prop)
    [Decidable P] (h : p a = decide P) :
    (if P then [a] else []) ++ l.filter p = (a :: l).filter p := by
  by_cases hP : P <;> simp [List.filter_cons, h, hP]

theorem filter_step_neg {α : Type} (p : α → Bool) (a : α) (l : List α) (Q : Prop)
    [Decidable Q] (h : p a = !decide Q) :
    (if Q then [] else [a]) ++ l.filter p = (a :: l).filter p := by
  by_cases hQ : Q <;> simp [List.filter_cons, h, hQ]

/-- The iterations of the block loop when the operations it issues succeed
and nothing overflows, started at offset `k * B` with `m` blocks to go. -/
theorem blockLoop_requests (c : Client) (env : Env) (localpath : String) (remotefi : FileInfo)
    (existingsize : Int) (S B : Nat) (hB : c.BlockSize = B) (hS : remotefi.Size = S)
    (hS63 : S < 9223372036854775808) (hok : issuedSucceed c env remotefi existingsize) :
    ∀ (m k fuel : Nat) (apply_attributes : Bool), m < fuel → S ≤ (k + m) * B →
      (m ≠ 0 → (k + m) * B < S + B ∧ (k + m) * B < 9223372036854775808) →
      ∃ ev apply1, blockLoop c env localpath remotefi existingsize fuel ((k * B : Nat) : Int)
          true apply_attributes = some (ev, true, apply1) ∧
        blockVisits ev = (List.range' (k * B) m B).map (fun o => (o, min B (S - o))) ∧
        checksumRequests ev
          = ((List.range' (k * B) m B).map (chunkAt remotefi.Name S B)).filter
              (fun a => decide (((a.Offset + a.Size : Nat) : Int) ≤ existingsize)) ∧
        getRequests ev
          = ((List.range' (k * B) m B).map (chunkAt remotefi.Name S B)).filter
              (fun a => !(decide (((a.Offset + a.Size : Nat) : Int) ≤ existingsize)
                && env.hashEqual (a.Offset : Int))) := by
  intro m
  induction m with
  | zero =>
    intro k fuel apply_attributes hf h1 _
    obtain ⟨f, rfl⟩ : ∃ f, fuel = f + 1 := ⟨fuel - 1, by omega⟩
    have hge : ¬ (((k * B : Nat) : Int) < remotefi.Size) := by
      rw [hS]
      simp only [Nat.add_zero] at h1
      omega
    refine ⟨[], apply_attributes, ?_, by simp [blockVisits], by simp [checksumRequests],
      by simp [getRequests]⟩
    rw [blockLoop]
    simp only [hge, if_false]
  | succ m ih =>
    intro k fuel apply_attributes hf h1 h2
    obtain ⟨f, rfl⟩ : ∃ f, fuel = f + 1 := ⟨fuel - 1, by omega⟩
    obtain ⟨h3, h4⟩ := h2 (by omega)
    have e1 : (k + (m + 1)) * B = (k + 1 + m) * B := by
      congr 1
      omega
    have e2 : (k + 1) * B = k * B + B := Nat.succ_mul k B
    have e3 : (k + 1) * B ≤ (k + 1 + m) * B := Nat.mul_le_mul_right B (by omega)
    rw [e1] at h1 h3 h4
    have hi : k * B < S := by omega
    obtain ⟨pre, apply1, hpre, hcs, hget, hstep⟩ := blockLoop_iteration c env localpath remotefi
      existingsize S B k (k * B) hB hS hS63 rfl (by omega) hok hi apply_attributes
    obtain ⟨ev, apply2, hev, hvis, hcs2, hget2⟩ := ih (k + 1) f apply1 (by omega) h1
      (fun _ => ⟨h3, h4⟩)
    rw [e2] at hev hvis hcs2 hget2
    refine ⟨pre ++ ev, apply2, ?_, ?_, ?_, ?_⟩
    · rw [hstep f, hev]
      rfl
    · rw [blockVisits_append, hpre, hvis, List.range'_succ]
      rfl
    · rw [checksumRequests_append, hcs, hcs2, List.range'_succ, List.map_cons]
      exact filter_step_pos
        (fun a : GetChunkArgs => decide (((a.Offset + a.Size : Nat) : Int) ≤ existingsize))
        (chunkAt remotefi.Name S B (k * B)) _ _ rfl
    · rw [getRequests_append, hget, hget2, List.range'_succ, List.map_cons]
      refine filter_step_neg
        (fun a : GetChunkArgs => !(decide (((a.Offset + a.Size : Nat) : Int) ≤ existingsize)
          && env.hashEqual (a.Offset : Int)))
        (chunkAt remotefi.Name S B (k * B)) _ _ ?_
      show (!(decide (((k * B + min B (S - k * B) : Nat) : Int) ≤ existingsize)
          && env.hashEqual ((k * B : Nat) : Int)))
        = !decide (((k * B + min B (S - k * B) : Nat) : Int) ≤ existingsize ∧
            env.hashEqual ((k * B : Nat) : Int) = true)
      rw [Bool.decide_and, Bool.decide_eq_true]

/-- When the operations issued by the block loop succeed on a local file
whose offsets are `int64`, no offset of the loop leaves the range of `int64`:
the end of the last block stays below 2^63. -/
theorem no_wrap_of_issuedSucceed (c : Client) (env : Env) (remotefi : FileInfo)
    (existingsize : Int) (S B : Nat) (hB : c.BlockSize = B) (hS : remotefi.Size = S)
    (hB63 : B < 9223372036854775808) (hS63 : S < 9223372036854775808)
    (hok : issuedSucceed c env remotefi existingsize) (hfile : withinOffsets env)
    (m : Nat) (hm : m ≠ 0) (h2 : m * B < S + B) : m * B < 9223372036854775808 := by
  obtain ⟨k, rfl⟩ : ∃ k, m = k + 1 := ⟨m - 1, by omega⟩
  have e2 : (k + 1) * B = k * B + B := Nat.succ_mul k B
  rw [e2] at h2 ⊢
  have hi : k * B < S := by omega
  by_contra hwrap
  have hlen := chunkArgs_of_wrap c remotefi S B (k * B) hB hS hB63 (by omega) (by omega)
  obtain ⟨hread, hwrite⟩ := issuedSucceed_at c env remotefi existingsize S B k (k * B) hB hS
    hB63 rfl hi hok
  rw [hlen] at hread hwrite
  by_cases hexist : int64 (((k * B : Nat) : Int) + (B : Int)) ≤ existingsize
  · have := hfile _ _ (Or.inl (hread hexist).2)
    omega
  · have := hfile _ _ (Or.inr (hwrite (fun h => hexist h.1)).2)
    omega

/-! ## Lemmas on the cache entry of a hardlink group -/

theorem EntryInv_same (l : Locals) (s : State) (flow : Flow)
    (h : (Gonk.Load inodeinfo.Compare s.inodes (inodeKey l.remotefi)).isSome = true) :
    EntryInv (inodeKey l.remotefi) l.remaininghardlinks (flow, l, s) :=
  ⟨rfl, rfl, h⟩

theorem EntryInv_andThen (key : inodeinfo) (rem : Int) (r : Step)
    (f : Locals → State → Step) (hr : EntryInv key rem r)
    (hf : ∀ l s, (Gonk.Load inodeinfo.Compare s.inodes (inodeKey l.remotefi)).isSome = true →
      EntryInv (inodeKey l.remotefi) l.remaininghardlinks (f l s)) :
    EntryInv key rem (r.andThen f) := by
  obtain ⟨flow, l1, s1⟩ := r
  obtain ⟨h1, h2, h3⟩ := hr
  cases flow
  case next =>
    simp only at h1 h2 h3
    simp only [Step.andThen]
    have := hf l1 s1 (by rw [h2]; exact h3)
    rw [h1, h2] at this
    exact this
  all_goals exact ⟨h1, h2, h3⟩

/-- A mutation that keeps device and inode of the entry keeps the entry of
any key present. -/
theorem Load_AtomicMutate_isSome {σ : Type} (mf : inodeinfo → inodeinfo × σ) (b : Bool)
    (hmf : ∀ i, (mf i).1.dev = i.dev ∧ (mf i).1.inode = i.inode) (key : inodeinfo) :
    ∀ (g : List inodeinfo) (mkey : inodeinfo),
      (Gonk.Load inodeinfo.Compare g key).isSome = true →
      (Gonk.Load inodeinfo.Compare (Gonk.AtomicMutate inodeinfo.Compare mf b g mkey).1
        key).isSome = true := by
  have hcmp : ∀ i, inodeinfo.Compare (mf i).1 key = inodeinfo.Compare i key := by
    intro i
    simp [inodeinfo.Compare, (hmf i).1, (hmf i).2]
  intro g
  induction g with
  | nil => intro mkey h; simp [Gonk.Load] at h
  | cons y ys ih =>
    intro mkey h
    by_cases hm : inodeinfo.Compare y mkey = 0
    · simp only [Gonk.AtomicMutate, hm, if_true]
      by_cases hy : inodeinfo.Compare y key = 0
      · simp [Gonk.Load, hcmp, hy]
      · have h1 : (Gonk.Load inodeinfo.Compare ys key).isSome = true := by
          simpa [Gonk.Load, hy] using h
        simpa [Gonk.Load, hcmp, hy] using h1
    · simp only [Gonk.AtomicMutate, hm, if_false]
      by_cases hy : inodeinfo.Compare y key = 0
      · simp [Gonk.Load, hy]
      · have h1 : (Gonk.Load inodeinfo.Compare ys key).isSome = true := by
          simpa [Gonk.Load, hy] using h
        have := ih mkey h1
        simpa [Gonk.Load, hy] using this

theorem verificationMutator_key (otherlocalfi : FileInfo) (i : inodeinfo) :
    (verificationMutator otherlocalfi i).1.dev = i.dev ∧
    (verificationMutator otherlocalfi i).1.inode = i.inode := by
  unfold verificationMutator
  simp only []
  split <;> exact ⟨rfl, rfl⟩

theorem findLocalInode_isSome (env : Env) (remotefi : FileInfo) (key : inodeinfo) :
    ∀ (fuel k : Nat) (ini : inodeinfo) (inodes : List inodeinfo)
      (r : inodeinfo × List inodeinfo),
      findLocalInode env remotefi fuel k ini inodes = some r →
      (Gonk.Load inodeinfo.Compare inodes key).isSome = true →
      (Gonk.Load inodeinfo.Compare r.2 key).isSome = true := by
  intro fuel
  induction fuel with
  | zero => intro k ini inodes r h; simp [findLocalInode] at h
  | succ fuel ih =>
    intro k ini inodes r h hsome
    unfold findLocalInode at h
    split at h
    · exact ih _ _ _ _ h hsome
    · exact ih _ _ _ _ h hsome
    · rename_i otherlocalfi _
      have hm := Load_AtomicMutate_isSome (verificationMutator otherlocalfi) false
        (verificationMutator_key otherlocalfi) key inodes (inodeKey remotefi) hsome
      simp only [] at h
      split at h <;> (cases h; exact hm)

theorem verifyCompare_entry (env : Env) (l : Locals) (s : State) (ini : inodeinfo)
    (h : (Gonk.Load inodeinfo.Compare s.inodes (inodeKey l.remotefi)).isSome = true) :
    EntryInv (inodeKey l.remotefi) l.remaininghardlinks (verifyCompare env l s ini) := by
  unfold verifyCompare
  split
  · simp only []
    split <;> exact ⟨rfl, rfl, h⟩
  · exact ⟨rfl, rfl, h⟩

theorem verifyStage_entry (fuel : Nat) (c : Client) (env : Env) (l : Locals) (s : State)
    (h : (Gonk.Load inodeinfo.Compare s.inodes (inodeKey l.remotefi)).isSome = true) :
    EntryInv (inodeKey l.remotefi) l.remaininghardlinks (verifyStage fuel c env l s) := by
  unfold verifyStage
  split
  · split
    · split
      · split
        · rename_i ini1 inodes1 hfind
          exact verifyCompare_entry env l { s with inodes := inodes1 } ini1
            (findLocalInode_isSome env l.remotefi _ _ _ _ _ _ hfind h)
        · exact ⟨rfl, rfl, h⟩
      · exact verifyCompare_entry env l s _ h
    · exact ⟨rfl, rfl, h⟩
  · exact ⟨rfl, rfl, h⟩

theorem typeStage_entry (env : Env) (l : Locals) (s : State)
    (h : (Gonk.Load inodeinfo.Compare s.inodes (inodeKey l.remotefi)).isSome = true) :
    EntryInv (inodeKey l.remotefi) l.remaininghardlinks (typeStage env l s) := by
  unfold typeStage
  split
  · simp only []
    split <;> exact ⟨rfl, rfl, h⟩
  · exact ⟨rfl, rfl, h⟩

theorem diffStage_entry (env : Env) (l : Locals) (s : State)
    (h : (Gonk.Load inodeinfo.Compare s.inodes (inodeKey l.remotefi)).isSome = true) :
    EntryInv (inodeKey l.remotefi) l.remaininghardlinks (diffStage env l s) := by
  unfold diffStage
  split
  · simp only []
    split
    · split
      · refine ⟨?_, ?_, h⟩
        · split <;> split <;> rfl
        · split <;> split <;> rfl
      · exact ⟨rfl, rfl, h⟩
    · refine ⟨?_, ?_, h⟩
      · split <;> split <;> rfl
      · split <;> split <;> rfl
  · exact ⟨rfl, rfl, h⟩

theorem copyDecisionStage_entry (c : Client) (l : Locals) (s : State)
    (h : (Gonk.Load inodeinfo.Compare s.inodes (inodeKey l.remotefi)).isSome = true) :
    EntryInv (inodeKey l.remotefi) l.remaininghardlinks (copyDecisionStage c l s) := by
  unfold copyDecisionStage
  cases hc : l.create_file
  · simp only [Bool.false_eq_true, if_false]
    split <;> exact ⟨rfl, rfl, h⟩
  · simp only [if_true]
    split <;> exact ⟨rfl, rfl, h⟩

theorem materializeStage_entry (c : Client) (env : Env) (l : Locals) (s : State)
    (h : (Gonk.Load inodeinfo.Compare s.inodes (inodeKey l.remotefi)).isSome = true) :
    EntryInv (inodeKey l.remotefi) l.remaininghardlinks (materializeStage c env l s) := by
  unfold materializeStage
  split
  · split
    · split
      · simp only []
        split <;> exact ⟨rfl, rfl, h⟩
      · exact ⟨rfl, rfl, h⟩
    · exact ⟨rfl, rfl, h⟩
  · exact ⟨rfl, rfl, h⟩

theorem createStage_entry (env : Env) (l : Locals) (s : State)
    (h : (Gonk.Load inodeinfo.Compare s.inodes (inodeKey l.remotefi)).isSome = true) :
    EntryInv (inodeKey l.remotefi) l.remaininghardlinks (createStage env l s) := by
  unfold createStage
  split
  · simp only []
    split <;> exact ⟨rfl, rfl, h⟩
  · exact ⟨rfl, rfl, h⟩

theorem transferStage_entry (fuel : Nat) (c : Client) (env : Env) (l : Locals) (s : State)
    (h : (Gonk.Load inodeinfo.Compare s.inodes (inodeKey l.remotefi)).isSome = true) :
    EntryInv (inodeKey l.remotefi) l.remaininghardlinks (transferStage fuel c env l s) := by
  unfold transferStage
  split
  · simp only []
    split
    · split
      · split <;> exact ⟨rfl, rfl, h⟩
      · exact ⟨rfl, rfl, h⟩
    · exact ⟨rfl, rfl, h⟩
  · exact ⟨rfl, rfl, h⟩

theorem applyStage_entry (l : Locals) (s : State)
    (h : (Gonk.Load inodeinfo.Compare s.inodes (inodeKey l.remotefi)).isSome = true) :
    EntryInv (inodeKey l.remotefi) l.remaininghardlinks (applyStage l s) := by
  unfold applyStage
  split <;> exact ⟨rfl, rfl, h⟩

/-- Registration for a preserved group leaves an entry of the key in the
cache and the remote record as it is. -/
theorem registerStage_entry (c : Client) (l : Locals) (s : State)
    (hpres : c.PreserveHardlinks = true) (hnlink : l.remotefi.Nlink > 1) :
    ∃ l1 s1, registerStage c l s = (Flow.next, l1, s1) ∧ l1.remotefi = l.remotefi ∧
      (Gonk.Load inodeinfo.Compare s1.inodes (inodeKey l.remotefi)).isSome = true := by
  cases hload : Gonk.Load inodeinfo.Compare s.inodes (inodeKey l.remotefi) with
  | none =>
    obtain ⟨l1, s1, e1, hreg, hl1, h1, _, _⟩ := registerStage_absent c l s hpres hnlink hload
    generalize decide (int32 (int32 l.remotefi.Nlink - 1)
        = int32 (uint64 ((l.remotefi.Nlink : Int) - 1))) = b at hl1
    generalize int32 (int32 l.remotefi.Nlink - 1) = a at hl1
    subst hl1
    exact ⟨_, s1, hreg, rfl, by rw [h1]; rfl⟩
  | some e =>
    obtain ⟨l1, s1, e1, hreg, hl1, h1, _, _⟩ := registerStage_existing c l s e hpres hnlink hload
    generalize decide (int32 (e.remaining - 1)
        = int32 (uint64 ((l.remotefi.Nlink : Int) - 1))) = b at hl1
    generalize int32 (e.remaining - 1) = a at hl1
    subst hl1
    exact ⟨_, s1, hreg, rfl, by rw [h1]; rfl⟩

/-- The iteration of the file worker for a path of a preserved hardlink group
whose local stat does not fail: `remaininghardlinks` keeps the value observed
at registration, and the cache entry of the group is gone at the end exactly
when the iteration reached the inode cleanup with the value 0. -/
theorem fileWorkerSteps_cleanup (fuel : Nat) (c : Client) (env : Env) (remotefi : FileInfo)
    (s : State) (hpres : c.PreserveHardlinks = true) (hnlink : remotefi.Nlink > 1)
    (hstat : env.lstat (filepathJoin [c.BasePath, remotefi.Name]) ≠ StatResult.otherErr) :
    (fileWorkerSteps fuel c env remotefi s).2.1.remaininghardlinks
      = (registerStage c (Step.andThen (statStage c env remotefi s) (aclStage c)).2.1
          s).2.1.remaininghardlinks ∧
    (Gonk.Load inodeinfo.Compare (fileWorkerSteps fuel c env remotefi s).2.2.inodes
        (inodeKey remotefi) = none ↔
      (fileWorkerSteps fuel c env remotefi s).1 = Flow.next ∧
      (fileWorkerSteps fuel c env remotefi s).2.1.remaininghardlinks = 0) := by
  have hs : ∃ l0, statStage c env remotefi s = (Flow.next, l0, s) ∧ l0.remotefi = remotefi := by
    unfold statStage
    simp only []
    split
    · exact ⟨_, rfl, rfl⟩
    · exact ⟨_, rfl, rfl⟩
    · rename_i h
      exact absurd h hstat
  obtain ⟨l0, hs0, hrf0⟩ := hs
  have ha : ∃ l1, aclStage c l0 s = (Flow.next, l1, s) ∧
      inodeKey l1.remotefi = inodeKey remotefi ∧ l1.remotefi.Nlink = remotefi.Nlink := by
    unfold aclStage
    split
    · exact ⟨_, rfl, by rw [← hrf0]; rfl, by rw [← hrf0]⟩
    · exact ⟨_, rfl, by rw [hrf0], by rw [hrf0]⟩
  obtain ⟨l1, ha1, hkey1, hn1⟩ := ha
  obtain ⟨l2, s2, hreg, hrf2, hsome⟩ := registerStage_entry c l1 s hpres (by rw [hn1]; exact hnlink)
  have hkey2 : inodeKey l2.remotefi = inodeKey remotefi := by rw [hrf2, hkey1]
  have hX : EntryInv (inodeKey remotefi) l2.remaininghardlinks
      (Step.andThen (Step.andThen (Step.andThen (Step.andThen (Step.andThen (Step.andThen
        (Step.andThen (Step.andThen (Flow.next, l2, s2) (verifyStage fuel c env))
        (typeStage env)) (diffStage env)) (copyDecisionStage c)) (materializeStage c env))
        (createStage env)) (transferStage fuel c env)) applyStage) := by
    refine EntryInv_andThen _ _ _ _ ?_ applyStage_entry
    refine EntryInv_andThen _ _ _ _ ?_ (transferStage_entry fuel c env)
    refine EntryInv_andThen _ _ _ _ ?_ (createStage_entry env)
    refine EntryInv_andThen _ _ _ _ ?_ (materializeStage_entry c env)
    refine EntryInv_andThen _ _ _ _ ?_ (copyDecisionStage_entry c)
    refine EntryInv_andThen _ _ _ _ ?_ (diffStage_entry env)
    refine EntryInv_andThen _ _ _ _ ?_ (typeStage_entry env)
    refine EntryInv_andThen _ _ _ _ ?_ (verifyStage_entry fuel c env)
    exact ⟨rfl, hkey2, by rw [← hkey1, ← hrf2] at *; exact hsome⟩
  have hsteps : fileWorkerSteps fuel c env remotefi s
      = Step.andThen (Step.andThen (Step.andThen (Step.andThen (Step.andThen (Step.andThen
        (Step.andThen (Step.andThen (Step.andThen (Flow.next, l2, s2) (verifyStage fuel c env))
        (typeStage env)) (diffStage env)) (copyDecisionStage c)) (materializeStage c env))
        (createStage env)) (transferStage fuel c env)) applyStage) cleanupStage := by
    unfold fileWorkerSteps fileDecisions
    rw [hs0, Step.andThen_next, ha1, Step.andThen_next, hreg]
  have hobs : (registerStage c (Step.andThen (statStage c env remotefi s) (aclStage c)).2.1
      s).2.1.remaininghardlinks = l2.remaininghardlinks := by
    rw [hs0, Step.andThen_next, ha1, hreg]
  rw [hsteps, hobs]
  generalize Step.andThen (Step.andThen (Step.andThen (Step.andThen (Step.andThen (Step.andThen
        (Step.andThen (Step.andThen (Flow.next, l2, s2) (verifyStage fuel c env))
        (typeStage env)) (diffStage env)) (copyDecisionStage c)) (materializeStage c env))
        (createStage env)) (transferStage fuel c env)) applyStage = X at hX
  obtain ⟨flow, l, t⟩ := X
  obtain ⟨h1, h2, h3⟩ := hX
  simp only at h1 h2 h3
  have hne : Gonk.Load inodeinfo.Compare t.inodes (inodeKey remotefi) ≠ none := by
    intro h
    rw [h] at h3
    cases h3
  cases flow
  case next =>
    rw [Step.andThen_next]
    unfold cleanupStage
    by_cases hz : l.remaininghardlinks = 0
    · rw [if_pos hz]
      refine ⟨h1, ?_⟩
      simp only [hz, and_self, iff_true]
      rw [h2]
      exact Gonk.Load_Delete _ _ _
    · rw [if_neg hz]
      exact ⟨h1, ⟨fun h => absurd h hne, fun h => absurd h.2 hz⟩⟩
  all_goals
    exact ⟨h1, ⟨fun h => absurd h hne, fun h => by simp [Step.andThen] at h⟩⟩

/-! ## Lemmas on the removals of the file worker -/

theorem fileWorkerSteps_split (fuel : Nat) (c : Client) (env : Env) (remotefi : FileInfo)
    (s : State) :
    fileWorkerSteps fuel c env remotefi s
      = (fileWorkerHead fuel c env remotefi s).andThen (fileWorkerTail fuel c env) := by
  unfold fileWorkerSteps fileDecisions fileWorkerHead
  generalize Step.andThen (Step.andThen (Step.andThen (Step.andThen (statStage c env remotefi s)
    (aclStage c)) (registerStage c)) (verifyStage fuel c env)) (typeStage env) = h
  obtain ⟨flow, l, s1⟩ := h
  cases flow <;> rfl

theorem int32_registration (n : Nat) :
    int32 (int32 (n : Int) - 1) = int32 ((uint64 ((n : Int) - 1) : Nat) : Int) := by
  unfold int32 uint64
  omega

theorem removals_eq_nil (ev : List Event)
    (h : ∀ e ∈ ev, ∀ p, e ≠ Event.Remove p ∧ e ≠ Event.RemoveAll p) : removals ev = [] := by
  rw [List.eq_nil_iff_forall_not_mem]
  intro p hp
  rcases (mem_removals ev p).mp hp with hm | hm
  · exact (h _ hm p).1 rfl
  · exact (h _ hm p).2 rfl

theorem removals_of_isTransfer (ev : List Event) (h : ∀ e ∈ ev, e.isTransfer = true) :
    removals ev = [] := by
  apply removals_eq_nil
  intro e he p
  have := h e he
  constructor <;> (intro hp; subst hp; cases this)

theorem NoRemoval_same (l : Locals) (s : State) (flow : Flow) : NoRemoval s (flow, l, s) :=
  ⟨[], by simp, rfl⟩

theorem NoRemoval_emit (l : Locals) (s : State) (flow : Flow) (ev : List Event)
    (h : removals ev = []) : NoRemoval s (flow, l, s.emit ev) :=
  ⟨ev, rfl, h⟩

theorem NoRemoval_andThen (s : State) (r : Step) (f : Locals → State → Step)
    (hr : NoRemoval s r) (hf : ∀ l1 s1, NoRemoval s1 (f l1 s1)) :
    NoRemoval s (r.andThen f) := by
  obtain ⟨flow, l1, s1⟩ := r
  obtain ⟨ev, h1, h2⟩ := hr
  cases flow
  case next =>
    obtain ⟨ev2, g1, g2⟩ := hf l1 s1
    simp only at h1
    simp only [Step.andThen]
    exact ⟨ev ++ ev2, by rw [g1, h1, List.append_assoc], by rw [removals_append, h2, g2]; rfl⟩
  all_goals exact ⟨ev, h1, h2⟩

theorem diffStage_noRemoval (env : Env) (l : Locals) (s : State) :
    NoRemoval s (diffStage env l s) := by
  unfold diffStage
  split
  · simp only []
    split
    · split
      · exact ⟨[Event.Truncate l.localpath (int64 l.remotefi.Size)], rfl, rfl⟩
      · exact ⟨[Event.Truncate l.localpath (int64 l.remotefi.Size)], rfl, rfl⟩
    · exact ⟨[], by simp, rfl⟩
  · exact NoRemoval_same l s _

theorem copyDecisionStage_noRemoval (c : Client) (l : Locals) (s : State) :
    NoRemoval s (copyDecisionStage c l s) := by
  unfold copyDecisionStage
  cases hc : l.create_file
  · simp only [Bool.false_eq_true, if_false]
    split <;> exact ⟨[], by simp, rfl⟩
  · simp only [if_true]
    split <;> exact ⟨[], by simp, rfl⟩

theorem materializeStage_noRemoval (c : Client) (env : Env) (l : Locals) (s : State) :
    NoRemoval s (materializeStage c env l s) := by
  unfold materializeStage
  split
  · split
    · split
      · rename_i ini _ _
        have hev : removals (linkLoop env ini.localhardlinkpath l.localpath 25 0).1 = [] := by
          apply removals_eq_nil
          intro e he p
          rw [linkLoop_events env _ _ 25 0 e he]
          constructor <;> (intro h; cases h)
        simp only []
        split
        · exact ⟨_, rfl, hev⟩
        · exact ⟨_, rfl, hev⟩
      · exact NoRemoval_same l s _
    · exact NoRemoval_same l s _
  · exact NoRemoval_same l s _

theorem createStage_noRemoval (env : Env) (l : Locals) (s : State) :
    NoRemoval s (createStage env l s) := by
  unfold createStage
  split
  · simp only []
    split <;> exact ⟨[Event.Create l.localfi l.remotefi], rfl, rfl⟩
  · exact NoRemoval_same l s _

theorem transferStage_noRemoval (fuel : Nat) (c : Client) (env : Env) (l : Locals) (s : State) :
    NoRemoval s (transferStage fuel c env l s) := by
  unfold transferStage
  split
  · simp only []
    split
    · split
      · split
        · rename_i r hrun
          have hev := removals_of_isTransfer r.1 (blockLoop_events c env _ _ _ _ _ _ _ r hrun)
          refine ⟨[Event.OpenFile l.localpath, Event.ServerOpen l.remotefi.Name] ++ r.1
            ++ [Event.ServerClose l.remotefi.Name], by simp [State.emit], ?_⟩
          rw [removals_append, removals_append, hev]
          rfl
        · exact ⟨[Event.OpenFile l.localpath, Event.ServerOpen l.remotefi.Name],
            by simp [State.emit], rfl⟩
      · exact ⟨[Event.OpenFile l.localpath, Event.ServerOpen l.remotefi.Name],
          by simp [State.emit], rfl⟩
    · exact ⟨[Event.OpenFile l.localpath], by simp [State.emit], rfl⟩
  · exact NoRemoval_same l s _

theorem applyStage_noRemoval (l : Locals) (s : State) : NoRemoval s (applyStage l s) := by
  unfold applyStage
  split
  · exact ⟨[Event.ApplyChanges l.localfi l.remotefi], rfl, rfl⟩
  · exact NoRemoval_same l s _

theorem cleanupStage_noRemoval (l : Locals) (s : State) : NoRemoval s (cleanupStage l s) := by
  unfold cleanupStage
  split
  · exact ⟨[], by simp, rfl⟩
  · exact NoRemoval_same l s _

/-- The stages after the type check hand nothing to `os.Remove`. -/
theorem fileWorkerTail_noRemoval (fuel : Nat) (c : Client) (env : Env) (l : Locals)
    (s : State) : NoRemoval s (fileWorkerTail fuel c env l s) := by
  unfold fileWorkerTail
  refine NoRemoval_andThen _ _ _ ?_ cleanupStage_noRemoval
  refine NoRemoval_andThen _ _ _ ?_ applyStage_noRemoval
  refine NoRemoval_andThen _ _ _ ?_ (transferStage_noRemoval fuel c env)
  refine NoRemoval_andThen _ _ _ ?_ (createStage_noRemoval env)
  refine NoRemoval_andThen _ _ _ ?_ (materializeStage_noRemoval c env)
  refine NoRemoval_andThen _ _ _ ?_ (copyDecisionStage_noRemoval c)
  exact diffStage_noRemoval env l s

/-- Registration leaves the trace and the other locals as they are, and when
it does not report a first insertion for a preserved group, the cache entry
was there before. -/
theorem registerStage_shape (c : Client) (l : Locals) (s : State) :
    ∃ a b s1, registerStage c l s
        = (Flow.next, { l with remaininghardlinks := a, justaddedtoinodecache := b }, s1) ∧
      s1.trace = s.trace ∧
      (b = false → c.PreserveHardlinks = true → l.remotefi.Nlink > 1 →
        ∃ e, Gonk.Load inodeinfo.Compare s.inodes (inodeKey l.remotefi) = some e) := by
  by_cases hgroup : c.PreserveHardlinks = true ∧ l.remotefi.Nlink > 1
  · cases hload : Gonk.Load inodeinfo.Compare s.inodes (inodeKey l.remotefi) with
    | none =>
      obtain ⟨l1, s1, e1, hreg, hl1, _, _, _⟩ := registerStage_absent c l s hgroup.1 hgroup.2 hload
      have htr : s1.trace = s.trace := by
        have := registerStage_trace c l s
        rw [hreg] at this
        exact this
      have hfirst := int32_registration l.remotefi.Nlink
      have hjust : decide (int32 (int32 l.remotefi.Nlink - 1)
          = int32 (uint64 ((l.remotefi.Nlink : Int) - 1))) = true := by
        rw [decide_eq_true_eq]
        exact hfirst
      generalize decide (int32 (int32 l.remotefi.Nlink - 1)
          = int32 (uint64 ((l.remotefi.Nlink : Int) - 1))) = b at hl1 hjust
      subst hjust
      generalize int32 (int32 l.remotefi.Nlink - 1) = a at hl1
      subst hl1
      exact ⟨a, true, s1, hreg, htr, fun h => by cases h⟩
    | some e =>
      obtain ⟨l1, s1, e1, hreg, hl1, _, _, _⟩ :=
        registerStage_existing c l s e hgroup.1 hgroup.2 hload
      have htr : s1.trace = s.trace := by
        have := registerStage_trace c l s
        rw [hreg] at this
        exact this
      generalize decide (int32 (e.remaining - 1)
          = int32 (uint64 ((l.remotefi.Nlink : Int) - 1))) = b at hl1
      generalize int32 (e.remaining - 1) = a at hl1
      subst hl1
      exact ⟨a, b, s1, hreg, htr, fun _ _ _ => ⟨e, rfl⟩⟩
  · have hreg : registerStage c l s = (Flow.next, l, s) := by
      unfold registerStage
      rw [if_neg]
      simpa using hgroup
    exact ⟨l.remaininghardlinks, l.justaddedtoinodecache, s, hreg, rfl,
      fun _ hp hn => absurd ⟨hp, hn⟩ hgroup⟩

theorem verifyCompare_removal (env : Env) (l : Locals) (s s0 : State) (ini : inodeinfo)
    (hs : s.trace = s0.trace) :
    verifyCompare env l s ini = (Flow.next, l, s) ∨
    ∃ s1, s1.trace = s0.trace ++ [Event.Remove l.localpath] ∧
      (verifyCompare env l s ini = (Flow.next, { l with create_file := true }, s1) ∨
       verifyCompare env l s ini = (Flow.continue_, l, s1)) := by
  unfold verifyCompare
  split
  · right
    refine ⟨s.emit [Event.Remove l.localpath], by simp [State.emit, hs], ?_⟩
    split
    · exact Or.inl rfl
    · exact Or.inr rfl
  · exact Or.inl rfl

/-- Hardlink verification either adds nothing to the trace and leaves the
locals as they are, or it is run for a later path of a preserved group that
exists locally and issues one `os.Remove` on the local path. -/
theorem verifyStage_removal (fuel : Nat) (c : Client) (env : Env) (l : Locals) (s : State) :
    (∃ flow s1, verifyStage fuel c env l s = (flow, l, s1) ∧ s1.trace = s.trace) ∨
    ((l.create_file = false ∧ l.remotefi.Nlink > 1 ∧ c.PreserveHardlinks = true ∧
        l.justaddedtoinodecache = false) ∧
      ∃ s1, s1.trace = s.trace ++ [Event.Remove l.localpath] ∧
        (verifyStage fuel c env l s = (Flow.next, { l with create_file := true }, s1) ∨
         verifyStage fuel c env l s = (Flow.continue_, l, s1))) := by
  unfold verifyStage
  split
  · rename_i hcond
    have hc : l.create_file = false ∧ l.remotefi.Nlink > 1 ∧ c.PreserveHardlinks = true ∧
        l.justaddedtoinodecache = false := by
      simpa [and_assoc] using hcond
    split
    · rename_i ini _
      split
      · split
        · rename_i ini1 inodes1 _
          rcases verifyCompare_removal env l { s with inodes := inodes1 } s ini1 rfl with h | h
          · exact Or.inl ⟨_, _, h, rfl⟩
          · exact Or.inr ⟨hc, h⟩
        · exact Or.inl ⟨_, _, rfl, rfl⟩
      · rcases verifyCompare_removal env l s s ini rfl with h | h
        · exact Or.inl ⟨_, _, h, rfl⟩
        · exact Or.inr ⟨hc, h⟩
    · exact Or.inl ⟨_, _, rfl, rfl⟩
  · exact Or.inl ⟨_, _, rfl, rfl⟩

/-- The type check either does nothing, or it is run for an existing entry of
another type and issues one `os.Remove` on the local path. -/
theorem typeStage_removal (env : Env) (l : Locals) (s : State) :
    typeStage env l s = (Flow.next, l, s) ∨
    ((l.create_file = false ∧ l.localfi.Mode &&& ModeType ≠ l.remotefi.Mode &&& ModeType) ∧
      ∃ s1, s1.trace = s.trace ++ [Event.Remove l.localpath] ∧
        (typeStage env l s = (Flow.next, { l with create_file := true }, s1) ∨
         typeStage env l s = (Flow.continue_, l, s1))) := by
  unfold typeStage
  split
  · rename_i hcond
    right
    refine ⟨by simpa using hcond, s.emit [Event.Remove l.localpath], rfl, ?_⟩
    split
    · exact Or.inl rfl
    · exact Or.inr rfl
  · exact Or.inl rfl
theorem aclStage_shape (c : Client) (l : Locals) (s : State) :
    ∃ l1, aclStage c l s = (Flow.next, l1, s) ∧ l1.create_file = l.create_file ∧
      l1.localpath = l.localpath ∧ l1.localfi.Mode = l.localfi.Mode ∧
      l1.remotefi.Mode = l.remotefi.Mode ∧ inodeKey l1.remotefi = inodeKey l.remotefi ∧
      l1.remotefi.Nlink = l.remotefi.Nlink ∧
      l1.justaddedtoinodecache = l.justaddedtoinodecache := by
  unfold aclStage
  split
  · exact ⟨_, rfl, rfl, rfl, rfl, rfl, rfl, rfl, rfl⟩
  · exact ⟨_, rfl, rfl, rfl, rfl, rfl, rfl, rfl, rfl⟩

/-- Verification and type check, run after registration: at most one
`os.Remove`, on the local path, and only for an entry that exists and either
is a later path of a preserved hardlink group or has another type. -/
theorem verifyType_removal (fuel : Nat) (c : Client) (env : Env) (l : Locals) (s : State) :
    ∃ ev, (Step.andThen (verifyStage fuel c env l s) (typeStage env)).2.2.trace = s.trace ++ ev ∧
      (ev = [] ∨ (ev = [Event.Remove l.localpath] ∧ l.create_file = false ∧
        (l.localfi.Mode &&& ModeType ≠ l.remotefi.Mode &&& ModeType ∨
          (c.PreserveHardlinks = true ∧ l.remotefi.Nlink > 1 ∧
            l.justaddedtoinodecache = false)))) := by
  rcases verifyStage_removal fuel c env l s with ⟨flow, s1, hv, htr⟩ | ⟨hc, s1, htr, hv | hv⟩
  · rw [hv]
    cases flow
    case next =>
      rw [Step.andThen_next]
      rcases typeStage_removal env l s1 with ht | ⟨hc, s2, htr2, ht | ht⟩
      · rw [ht]
        exact ⟨[], by simp [htr], Or.inl rfl⟩
      · rw [ht]
        exact ⟨[Event.Remove l.localpath], by simp [htr2, htr], Or.inr ⟨rfl, hc.1, Or.inl hc.2⟩⟩
      · rw [ht]
        exact ⟨[Event.Remove l.localpath], by simp [htr2, htr], Or.inr ⟨rfl, hc.1, Or.inl hc.2⟩⟩
    all_goals exact ⟨[], by simp [Step.andThen, htr], Or.inl rfl⟩
  · rw [hv, Step.andThen_next]
    rcases typeStage_removal env { l with create_file := true } s1 with ht | ⟨hc2, _⟩
    · rw [ht]
      exact ⟨[Event.Remove l.localpath], htr,
        Or.inr ⟨rfl, hc.1, Or.inr ⟨hc.2.2.1, hc.2.1, hc.2.2.2⟩⟩⟩
    · exact absurd hc2.1 (by simp)
  · rw [hv]
    exact ⟨[Event.Remove l.localpath], htr,
      Or.inr ⟨rfl, hc.1, Or.inr ⟨hc.2.2.1, hc.2.1, hc.2.2.2⟩⟩⟩

/-- The file worker up to the type check hands at most its own local path to
`os.Remove`, once, and only when the path exists locally and either the type
bits differ from those of the remote record or the record is a later path of
a preserved hardlink group. -/
theorem fileWorkerHead_removal (fuel : Nat) (c : Client) (env : Env) (remotefi : FileInfo)
    (s : State) :
    ∃ ev, (fileWorkerHead fuel c env remotefi s).2.2.trace = s.trace ++ ev ∧
      (ev = [] ∨ (ev = [Event.Remove (filepathJoin [c.BasePath, remotefi.Name])] ∧
        ∃ localfi, env.lstat (filepathJoin [c.BasePath, remotefi.Name]) = StatResult.ok localfi ∧
          (localfi.Mode &&& ModeType ≠ remotefi.Mode &&& ModeType ∨
            (c.PreserveHardlinks = true ∧ remotefi.Nlink > 1 ∧
              ∃ e, Gonk.Load inodeinfo.Compare s.inodes (inodeKey remotefi) = some e)))) := by
  have hrun : ∀ l0 : Locals, l0.localpath = filepathJoin [c.BasePath, remotefi.Name] →
      l0.remotefi = remotefi →
      ∃ ev, (Step.andThen (Step.andThen (Step.andThen (Step.andThen (Flow.next, l0, s)
          (aclStage c)) (registerStage c)) (verifyStage fuel c env)) (typeStage env)).2.2.trace
          = s.trace ++ ev ∧
        (ev = [] ∨ (ev = [Event.Remove (filepathJoin [c.BasePath, remotefi.Name])] ∧
          l0.create_file = false ∧
          (l0.localfi.Mode &&& ModeType ≠ remotefi.Mode &&& ModeType ∨
            (c.PreserveHardlinks = true ∧ remotefi.Nlink > 1 ∧
              ∃ e, Gonk.Load inodeinfo.Compare s.inodes (inodeKey remotefi) = some e)))) := by
    intro l0 hlp hrf
    obtain ⟨l1, hacl, a1, a2, a3, a4, a5, a6, a7⟩ := aclStage_shape c l0 s
    obtain ⟨a, b, s1, hreg, htr, hpre⟩ := registerStage_shape c l1 s
    rw [Step.andThen_next, hacl, Step.andThen_next, hreg, Step.andThen_next]
    obtain ⟨ev, hev, hcases⟩ := verifyType_removal fuel c env
      { l1 with remaininghardlinks := a, justaddedtoinodecache := b } s1
    refine ⟨ev, by rw [hev, htr], ?_⟩
    rcases hcases with h | ⟨h1, h2, h3⟩
    · exact Or.inl h
    · right
      refine ⟨by rw [h1]; exact congrArg (fun p => [Event.Remove p]) (a2.trans hlp),
        h2.symm ▸ a1.symm ▸ rfl, ?_⟩
      rcases h3 with h3 | ⟨h4, h5, h6⟩
      · left
        have h3b : l1.localfi.Mode &&& ModeType ≠ l1.remotefi.Mode &&& ModeType := h3
        rw [a3, a4, hrf] at h3b
        exact h3b
      · right
        have h5b : l1.remotefi.Nlink > 1 := h5
        have h6b : b = false := h6
        obtain ⟨e, he⟩ := hpre h6b h4 h5b
        rw [a5, hrf] at he
        rw [a6, hrf] at h5b
        exact ⟨h4, h5b, e, he⟩
  unfold fileWorkerHead
  cases hstat : env.lstat (filepathJoin [c.BasePath, remotefi.Name]) with
  | ok localfi =>
    have hs : statStage c env remotefi s
        = (Flow.next, { localpath := filepathJoin [c.BasePath, remotefi.Name],
                        remotefi := remotefi, localfi := localfi }, s) := by
      simp only [statStage, hstat]
    rw [hs]
    obtain ⟨ev, hev, hcases⟩ := hrun
      { localpath := filepathJoin [c.BasePath, remotefi.Name],
        remotefi := remotefi, localfi := localfi } rfl rfl
    refine ⟨ev, hev, ?_⟩
    rcases hcases with h | ⟨h1, _, h3⟩
    · exact Or.inl h
    · exact Or.inr ⟨h1, localfi, rfl, h3⟩
  | notExist =>
    have hs : statStage c env remotefi s
        = (Flow.next, { localpath := filepathJoin [c.BasePath, remotefi.Name],
                        remotefi := remotefi,
                        localfi := { Name := filepathJoin [c.BasePath, remotefi.Name] },
                        create_file := true }, s) := by
      simp only [statStage, hstat]
    rw [hs]
    obtain ⟨ev, hev, hcases⟩ := hrun
      { localpath := filepathJoin [c.BasePath, remotefi.Name],
        remotefi := remotefi, localfi := { Name := filepathJoin [c.BasePath, remotefi.Name] },
        create_file := true } rfl rfl
    refine ⟨ev, hev, ?_⟩
    rcases hcases with h | ⟨_, h2, _⟩
    · exact Or.inl h
    · cases h2
  | otherErr =>
    have hs : statStage c env remotefi s
        = (Flow.continue_, { localpath := filepathJoin [c.BasePath, remotefi.Name],
                             remotefi := remotefi, localfi := {} }, s) := by
      simp only [statStage, hstat]
    rw [hs]
    exact ⟨[], by simp [Step.andThen], Or.inl rfl⟩

theorem removals_singleton_Remove (p : String) : removals [Event.Remove p] = [p] := rfl

/-- With `Delete` off the body of the file worker loop hands at most its own
local path to `os.Remove`, once, and only when the path exists locally and
either the type bits differ from those of the remote record or the record is
a later path of a preserved hardlink group; `os.RemoveAll` is not called. -/
theorem fileWorkerBody_removal (fuel : Nat) (c : Client) (env : Env) (remotefi : FileInfo)
    (s : State) (hdel : c.Delete = false) :
    ∃ ev, (fileWorkerBody fuel c env remotefi s).2.2.trace = s.trace ++ ev ∧
      (∀ p, Event.RemoveAll p ∉ ev) ∧
      (removals ev = [] ∨
        (removals ev = [filepathJoin [c.BasePath, remotefi.Name]] ∧
          ∃ localfi,
            env.lstat (filepathJoin [c.BasePath, remotefi.Name]) = StatResult.ok localfi ∧
            (localfi.Mode &&& ModeType ≠ remotefi.Mode &&& ModeType ∨
              (c.PreserveHardlinks = true ∧ remotefi.Nlink > 1 ∧
                ∃ e, Gonk.Load inodeinfo.Compare s.inodes (inodeKey remotefi) = some e)))) := by
  obtain ⟨ev1, h1, hc1⟩ := fileWorkerHead_removal fuel c env remotefi s
  have hsteps : ∃ ev, (fileWorkerSteps fuel c env remotefi s).2.2.trace = s.trace ++ ev ∧
      removals ev = removals ev1 ∧ (∀ p, Event.RemoveAll p ∈ ev → Event.RemoveAll p ∈ ev1) := by
    rw [fileWorkerSteps_split]
    rcases hh : fileWorkerHead fuel c env remotefi s with ⟨flow, l, s1⟩
    rw [hh] at h1
    simp only at h1
    cases flow
    case next =>
      rw [Step.andThen_next]
      obtain ⟨ev2, h2, hn2⟩ := fileWorkerTail_noRemoval fuel c env l s1
      refine ⟨ev1 ++ ev2, by rw [h2, h1, List.append_assoc],
        by rw [removals_append, hn2, List.append_nil], ?_⟩
      intro p hp
      rcases List.mem_append.mp hp with hp | hp
      · exact hp
      · have : p ∈ removals ev2 := (mem_removals ev2 p).mpr (Or.inr hp)
        rw [hn2] at this
        cases this
    all_goals exact ⟨ev1, h1, rfl, fun _ hp => hp⟩
  obtain ⟨ev2, h2, hr2, ha2⟩ := hsteps
  have hbody : ∃ ev, (fileWorkerBody fuel c env remotefi s).2.2.trace = s.trace ++ ev ∧
      removals ev = removals ev1 ∧ (∀ p, Event.RemoveAll p ∈ ev → Event.RemoveAll p ∈ ev1) := by
    unfold fileWorkerBody
    rcases hsteps : fileWorkerSteps fuel c env remotefi s with ⟨flow, l, s1⟩
    rw [hsteps] at h2
    simp only at h2
    cases flow
    case next =>
      simp only [Step.andThen, reportStage]
      cases hrep : ProcessedItemInDir c env (filepathDir l.remotefi.Name) s1 with
      | none => exact ⟨ev2, h2, hr2, ha2⟩
      | some s2 =>
        obtain ⟨ev3, h3, hn3⟩ := removals_ProcessedItemInDir c env hdel _ _ _ hrep
        refine ⟨ev2 ++ ev3, by simp only [h3, h2, List.append_assoc],
          by rw [removals_append, hn3, List.append_nil, hr2], ?_⟩
        intro p hp
        rcases List.mem_append.mp hp with hp | hp
        · exact ha2 p hp
        · have : p ∈ removals ev3 := (mem_removals ev3 p).mpr (Or.inr hp)
          rw [hn3] at this
          cases this
    all_goals exact ⟨ev2, h2, hr2, ha2⟩
  obtain ⟨ev, h3, hr3, ha3⟩ := hbody
  refine ⟨ev, h3, ?_, ?_⟩
  · intro p hp
    have := ha3 p hp
    rcases hc1 with h | ⟨h, _⟩
    · rw [h] at this
      cases this
    · rw [h] at this
      simp at this
  · rcases hc1 with h | ⟨h, hcond⟩
    · left
      rw [hr3, h]
      rfl
    · right
      exact ⟨by rw [hr3, h]; rfl, hcond⟩

/-! ## The claims -/

/-- C1 (the code departs from it): when the local stat of a queued file fails
with an error other than not-exist, the loop body is left by `continue` with
the state untouched, so `ProcessedItemInDir` is not invoked for the parent and
the parent's counter keeps its value. -/
theorem C1_stat_error_skips_parent_report (fuel : Nat) (c : Client) (env : Env)
    (remotefi : FileInfo) (s : State)
    (herr : env.lstat (filepathJoin [c.BasePath, remotefi.Name]) = StatResult.otherErr) :
    (fileWorkerBody fuel c env remotefi s).1 = Flow.continue_ ∧
    (fileWorkerBody fuel c env remotefi s).2.2 = s := by
  simp [fileWorkerBody, fileWorkerSteps, fileDecisions, statStage, herr, Step.andThen]

/-- Witness of C1: `/a` below a root that waits for one entry, with a local
stat that fails; the root keeps waiting and no call is traced. -/
theorem C1_stat_error_skips_parent_report_witness :
    statErrorEnv.lstat (filepathJoin [baseClient.BasePath, fileA.Name]) = StatResult.otherErr ∧
    (fileWorkerBody 4 baseClient statErrorEnv fileA rootPending).1 = Flow.continue_ ∧
    (fileWorkerBody 4 baseClient statErrorEnv fileA rootPending).2.2 = rootPending :=
  ⟨rfl, C1_stat_error_skips_parent_report 4 baseClient statErrorEnv fileA rootPending rfl⟩

/-- C3 (the code departs from it): when `Server.List` fails for a dequeued
directory the worker continues with the state untouched: the directory-cache
entry is neither finalized nor removed, the parent is not reported to, and the
listing-active counter is not released. -/
theorem C3_list_error_leaves_directory_pending (c : Client) (env : Env) (item : FileInfo)
    (s : State) (herr : env.serverList item.Name = none) :
    dirWorkerBody c env item s = (Flow.continue_, s) := by
  simp [dirWorkerBody, herr]

/-- Witness of C3: the root, queued by `runRoot`, whose listing fails. -/
theorem C3_list_error_leaves_directory_pending_witness :
    quietEnv.serverList remoteRoot.Name = none ∧
    dirWorkerBody baseClient quietEnv remoteRoot
        { dircache := [{ name := "/", remaining := -1 }], listfilesActive := 1 }
      = (Flow.continue_, { dircache := [{ name := "/", remaining := -1 }], listfilesActive := 1 }) :=
  ⟨rfl, C3_list_error_leaves_directory_pending baseClient quietEnv remoteRoot _ rfl⟩

/-- C7 (the code departs from it): the compare-and-swap of both mutators is
called with the local inode as the expected value and zero as the new one.
For a local file with a non-zero inode and an entry whose `localinode` is
zero, both mutators leave `localinode` at zero and `localdev` as it was; and
for an entry whose `localinode` is non-zero and equal to the inode of the
local file, both mutators reset `localinode` to zero and overwrite
`localdev`. -/
theorem C7_mutators_never_publish_local_inode (l : Locals) (i i2 : inodeinfo)
    (hexists : l.create_file = false) (hino : l.localfi.Inode ≠ 0)
    (hzero : i.localinode = 0) (hset : i2.localinode = l.localfi.Inode) :
    ((registrationMutator l i).1.localinode = 0 ∧
      (registrationMutator l i).1.localdev = i.localdev) ∧
    ((verificationMutator l.localfi i).1.localinode = 0 ∧
      (verificationMutator l.localfi i).1.localdev = i.localdev) ∧
    ((registrationMutator l i2).1.localinode = 0 ∧
      (registrationMutator l i2).1.localdev = l.localfi.Dev) ∧
    ((verificationMutator l.localfi i2).1.localinode = 0 ∧
      (verificationMutator l.localfi i2).1.localdev = l.localfi.Dev) := by
  have h0 : ¬ (0 = l.localfi.Inode) := fun h => hino h.symm
  simp [registrationMutator, verificationMutator, CompareAndSwapUint64, hexists, hzero, hset, h0]

/-- Witness of C7: local inode 100 on device 8, a fresh entry, and an entry
that holds the pair (8, 100). -/
theorem C7_mutators_never_publish_local_inode_witness :
    (registrationMutator existingLocals
        { dev := 1, inode := 42, localhardlinkpath := "/base/x", remaining := 2 }).1
      = { dev := 1, inode := 42, localhardlinkpath := "/base/x", remaining := 1 } ∧
    (registrationMutator existingLocals
        { dev := 1, inode := 42, localhardlinkpath := "/base/x", localdev := 8,
          localinode := 100, remaining := 2 }).1.localinode = 0 :=
  ⟨by decide,
   (C7_mutators_never_publish_local_inode existingLocals
      { dev := 1, inode := 42, localhardlinkpath := "/base/x", remaining := 2 }
      { dev := 1, inode := 42, localhardlinkpath := "/base/x", localdev := 8,
        localinode := 100, remaining := 2 }
      rfl (by decide) rfl rfl).2.2.1.1⟩

/-- C9 (the code departs from it): the directory-cache entry stored for the
root carries the name returned by `Stat("/")` and the counter -1, and its
`info` field is the zero record, whatever the remote record was. -/
theorem C9_root_entry_holds_zero_record (env : Env) (s : State) (rootdirinfo : FileInfo)
    (hstat : env.serverStat "/" = some rootdirinfo) :
    ∃ s1, runRoot env s = some s1 ∧
      Gonk.Load dirinfo.Compare s1.dircache { name := rootdirinfo.Name }
        = some { name := rootdirinfo.Name, info := {}, extraentries := [], remaining := -1 } := by
  refine ⟨_, by simp [runRoot, hstat]; rfl, ?_⟩
  exact Gonk.Load_Store dirinfo.Compare s.dircache _ _ ((dirinfo_Compare_eq_zero _ _).mpr rfl)
    (fun _ => rfl)

/-- Witness of C9: an empty remote root owned by user 1000.  The stored record
is not the remote one, and finalization calls `ApplyChanges` with the zero
record. -/
theorem C9_root_entry_holds_zero_record_witness :
    (∃ s1, runRoot emptyRootEnv {} = some s1 ∧
      Gonk.Load dirinfo.Compare s1.dircache { name := remoteRoot.Name }
        = some { name := "/", info := {}, extraentries := [], remaining := -1 }) ∧
    ((runRoot emptyRootEnv {}).map (fun s1 =>
        (dirWorkerBody baseClient emptyRootEnv remoteRoot s1).2.trace))
      = some [Event.ProcessedItemInDir "/", Event.PostProcessDir "/",
              Event.ApplyChanges localBase {}] :=
  ⟨C9_root_entry_holds_zero_record emptyRootEnv {} remoteRoot rfl, by decide⟩

/-- C2 as stated fails for a directory without entries: the worker stores
`remaining = 0`, after the zero decrements the claim counts the entry is still
in the cache and not finalized, and it is the worker's own report (one
decrement, to -1) that finalizes it. -/
theorem C2_empty_directory_takes_one_decrement :
    (processedTimes baseClient emptyRootEnv "/" 0 emptyRootListed).map
        (fun s => (finalizations "/" s, (Gonk.Load dirinfo.Compare s.dircache { name := "/" }).map
          (fun e => e.remaining)))
      = some (0, some 0) ∧
    (processedTimes baseClient emptyRootEnv "/" 1 emptyRootListed).map
        (fun s => (finalizations "/" s, Gonk.Load dirinfo.Compare s.dircache { name := "/" }))
      = some (1, none) ∧
    (dirWorkerBody baseClient emptyRootEnv remoteRoot
        { dircache := [{ name := "/", remaining := -1 }], listfilesActive := 1 }).2.trace.count
      (Event.ProcessedItemInDir "/") = 1 := by
  decide

/-- C2 (amended): when the directory has a cache entry and `List` returned
`n < 2^31` entries, none of them a sub-directory carrying the name of the
directory itself, the directory worker sets `remaining` to `n`, the number of
all listed entries, files and sub-directories together.  For `n ≥ 1` the body
of the worker leaves the entry in the cache with that counter, and the entry
is finalized by the `n`-th report for it and by no earlier one (after `j < n`
reports the counter reads `n - j`).  For `n = 0` the body of the worker issues
the one report itself and the entry is finalized when the body ends.  From
its finalization on the entry is gone and no later report finalizes it
again. -/
theorem C2_counter_conservation (c : Client) (env : Env) (item : FileInfo) (s : State)
    (resp : FileListResponse) (e : dirinfo)
    (hlist : env.serverList item.Name = some resp)
    (hfound : Gonk.Load dirinfo.Compare s.dircache { name := item.Name } = some e)
    (hn : resp.Files.length < 2147483648)
    (hself : ∀ f ∈ resp.Files, f.IsDir = true → f.Name ≠ item.Name) :
    Gonk.Load dirinfo.Compare
        (setRemaining s.dircache item.Name (resp.Files.length : Int)
          (extraEntries c env item resp.Files)).1 { name := item.Name }
      = some { e with remaining := (resp.Files.length : Int),
                      extraentries := extraEntries c env item resp.Files } ∧
    ∃ s1, dirWorkerBody c env item s = (Flow.next, s1) ∧
      (resp.Files.length ≠ 0 →
        Gonk.Load dirinfo.Compare s1.dircache { name := item.Name }
          = some { e with remaining := (resp.Files.length : Int),
                          extraentries := extraEntries c env item resp.Files }) ∧
      ∀ j, ∃ sj, processedTimes c env item.Name j s1 = some sj ∧
        (j < resp.Files.length →
          (Gonk.Load dirinfo.Compare sj.dircache { name := item.Name }).map
              (fun x => x.remaining) = some ((resp.Files.length : Int) - j) ∧
          finalizations item.Name sj = finalizations item.Name s) ∧
        (resp.Files.length ≤ j →
          Gonk.Load dirinfo.Compare sj.dircache { name := item.Name } = none ∧
          finalizations item.Name sj = finalizations item.Name s + 1) := by
  obtain ⟨pre, post, hd, hpre, he0⟩ := Gonk.Load_some_split _ _ _ _ hfound
  have hset : Gonk.Load dirinfo.Compare
      (setRemaining s.dircache item.Name (resp.Files.length : Int)
        (extraEntries c env item resp.Files)).1 { name := item.Name }
      = some { e with remaining := (resp.Files.length : Int),
                      extraentries := extraEntries c env item resp.Files } := by
    have hm := Gonk.AtomicMutate_append_cons dirinfo.Compare
      (fun f : dirinfo =>
        ({ f with remaining := int32 (resp.Files.length : Int),
                  extraentries := extraEntries c env item resp.Files }, ()))
      false pre post e { name := item.Name } hpre he0
    rw [setRemaining, hd, hm, int32_of_range _ (by omega) (by omega)]
    exact Gonk.Load_append_cons _ _ _ _ _ hpre he0
  refine ⟨hset, ?_⟩
  by_cases hzero : resp.Files.length = 0
  · have hz : ((resp.Files.length : Nat) : Int) = 0 := by omega
    obtain ⟨s2, hs2, hl2, hf2⟩ := ProcessedItemInDir_final c env item.Name
      { s with dircache := (setRemaining s.dircache item.Name (resp.Files.length : Int)
          (extraEntries c env item resp.Files)).1 }
      { e with remaining := (resp.Files.length : Int),
               extraentries := extraEntries c env item resp.Files } hset
      (by show int32 ((resp.Files.length : Int) - 1) ≤ 0
          rw [hz]
          decide)
    refine ⟨{ s2 with listfilesActive := s2.listfilesActive - 1 }, ?_, fun h => absurd hzero h, ?_⟩
    · simp only [dirWorkerBody, hlist, hz, if_true]
      rw [hz] at hs2
      rw [hs2]
    · intro j
      have hgone : ∀ j, ∃ sj, processedTimes c env item.Name j
          { s2 with listfilesActive := s2.listfilesActive - 1 } = some sj ∧
          Gonk.Load dirinfo.Compare sj.dircache { name := item.Name } = none ∧
          finalizations item.Name sj = finalizations item.Name s + 1 := by
        intro j
        induction j with
        | zero => exact ⟨_, rfl, hl2, hf2⟩
        | succ j ih =>
          obtain ⟨sj, hsj, hl, hf⟩ := ih
          obtain ⟨s3, hs3, hd3, hf3⟩ := ProcessedItemInDir_missing c env item.Name sj hl
          refine ⟨s3, ?_, by rw [hd3]; exact hl, hf3.trans hf⟩
          simp only [processedTimes, hsj, Option.some_bind]
          exact hs3
      obtain ⟨sj, hsj, hl, hf⟩ := hgone j
      exact ⟨sj, hsj, fun h => by omega, fun _ => ⟨hl, hf⟩⟩
  · have hnz : ¬ ((resp.Files.length : Nat) : Int) = 0 := by omega
    have hdirs : ∀ f ∈ resp.Files.filter (fun remotefi => remotefi.IsDir), f.Name ≠ item.Name := by
      intro f hf
      obtain ⟨hmem, hdir⟩ := List.mem_filter.mp hf
      exact hself f hmem hdir
    obtain ⟨hk1, hk2⟩ := queueDirectories_keep c env item.Name
      (resp.Files.filter (fun remotefi => remotefi.IsDir))
      { s with
        dircache := (setRemaining s.dircache item.Name (resp.Files.length : Int)
          (extraEntries c env item resp.Files)).1
        filequeue := s.filequeue ++ resp.Files.filter (fun remotefi => !remotefi.IsDir) } hdirs
    generalize hq : (resp.Files.filter (fun remotefi => remotefi.IsDir)).foldl
      (queueDirectory c env)
      { s with
        dircache := (setRemaining s.dircache item.Name (resp.Files.length : Int)
          (extraEntries c env item resp.Files)).1
        filequeue := s.filequeue ++ resp.Files.filter (fun remotefi => !remotefi.IsDir) }
      = q at hk1 hk2
    have hbody : dirWorkerBody c env item s
        = (Flow.next, { q with listfilesActive := q.listfilesActive - 1 }) := by
      simp only [dirWorkerBody, hlist, hnz, if_false, hq]
    refine ⟨_, hbody, fun _ => hk1.trans hset, ?_⟩
    intro j
    obtain ⟨sj, hsj, hlow, hhigh⟩ := processedTimes_counts c env item.Name resp.Files.length
      (finalizations item.Name s) { q with listfilesActive := q.listfilesActive - 1 } _
      (by omega) (hk1.trans hset) rfl hk2 j
    have hmax : max resp.Files.length 1 = resp.Files.length := by omega
    rw [hmax] at hlow hhigh
    exact ⟨sj, hsj, hlow, hhigh⟩

/-- Witness of C2: the root listed with one file and one sub-directory gets
the counter 2 and is finalized by the second report. -/
theorem C2_counter_conservation_witness :
    typeChangeEnv.serverList remoteRoot.Name = some rootListing ∧
    Gonk.Load dirinfo.Compare rootQueued.dircache { name := remoteRoot.Name }
      = some { name := "/", remaining := -1 } ∧
    ∃ s1, dirWorkerBody baseClient typeChangeEnv remoteRoot rootQueued = (Flow.next, s1) ∧
      Gonk.Load dirinfo.Compare s1.dircache { name := "/" }
        = some { name := "/", remaining := 2 } ∧
      ∃ s2, processedTimes baseClient typeChangeEnv "/" 2 s1 = some s2 ∧
        Gonk.Load dirinfo.Compare s2.dircache { name := "/" } = none ∧
        finalizations "/" s2 = 1 := by
  obtain ⟨_, s1, hbody, hload, hj⟩ := C2_counter_conservation baseClient typeChangeEnv
    remoteRoot rootQueued rootListing { name := "/", remaining := -1 } (by decide) (by decide)
    (by decide) (by decide)
  obtain ⟨s2, hs2, _, hhigh⟩ := hj 2
  obtain ⟨hgone, hfin⟩ := hhigh (by decide)
  exact ⟨by decide, by decide, s1, hbody, hload (by decide), s2, hs2, hgone, hfin⟩

/-- C4: for every remote size `S ≥ 0` and block size `B > 0` (both `int64`),
when no operation issued by the block loop fails, on a local file whose
offsets are `int64`, the loop returns with `transfersuccess` still true, and
its iterations build exactly the chunks at the offsets 0, B, 2B, ... below
`S`, in increasing order, the chunk at offset `o` having length
`min B (S - o)`.  The `Server.ChecksumChunk` requests are, in that order and
with the path of the remote file, the chunks that end within the existing
local file, the `Server.GetChunk` requests are the chunks that do not or whose
hash differs, and every chunk is requested by one of the two.  Every length
lies in `1..B`, each chunk starts where the one before it ends, and the
lengths sum to `S`. -/
theorem C4_block_loop_chunks (c : Client) (env : Env) (localpath : String)
    (remotefi : FileInfo) (existingsize : Int) (S B fuel : Nat) (apply_attributes : Bool)
    (hB : c.BlockSize = B) (hS : remotefi.Size = S) (hpos : 0 < B)
    (hB63 : B < 9223372036854775808) (hS63 : S < 9223372036854775808)
    (hok : issuedSucceed c env remotefi existingsize) (hfile : withinOffsets env)
    (hfuel : (S + B - 1) / B < fuel) :
    ∃ ev apply1,
      blockLoop c env localpath remotefi existingsize fuel 0 true apply_attributes
        = some (ev, true, apply1) ∧
      blockVisits ev
        = (List.range' 0 ((S + B - 1) / B) B).map (fun o => (o, min B (S - o))) ∧
      checksumRequests ev
        = ((List.range' 0 ((S + B - 1) / B) B).map (chunkAt remotefi.Name S B)).filter
            (fun a => decide (((a.Offset + a.Size : Nat) : Int) ≤ existingsize)) ∧
      getRequests ev
        = ((List.range' 0 ((S + B - 1) / B) B).map (chunkAt remotefi.Name S B)).filter
            (fun a => !(decide (((a.Offset + a.Size : Nat) : Int) ≤ existingsize)
              && env.hashEqual (a.Offset : Int))) ∧
      (∀ o ∈ List.range' 0 ((S + B - 1) / B) B,
        chunkAt remotefi.Name S B o ∈ checksumRequests ev ∨
        chunkAt remotefi.Name S B o ∈ getRequests ev) ∧
      (∀ p ∈ blockVisits ev, p.1 < S ∧ 1 ≤ p.2 ∧ p.2 ≤ B) ∧
      List.Chain' (fun p q : Nat × Nat => p.1 + p.2 = q.1) (blockVisits ev) ∧
      ((blockVisits ev).map Prod.snd).sum = S := by
  have hdm := Nat.div_add_mod (S + B - 1) B
  have hmod := Nat.mod_lt (S + B - 1) hpos
  have hcomm : (S + B - 1) / B * B = B * ((S + B - 1) / B) := Nat.mul_comm _ _
  have h1 : S ≤ 0 + (S + B - 1) / B * B := by omega
  have h2 : (S + B - 1) / B ≠ 0 → 0 + (S + B - 1) / B * B < S + B := by intro _; omega
  have h3 : (S + B - 1) / B ≠ 0 → (S + B - 1) / B * B < 9223372036854775808 := by
    intro hm
    exact no_wrap_of_issuedSucceed c env remotefi existingsize S B hB hS hB63 hS63 hok hfile
      _ hm (by have := h2 hm; omega)
  obtain ⟨ev, apply1, hrun, hvis, hcs, hget⟩ := blockLoop_requests c env localpath remotefi
    existingsize S B hB hS hS63 hok ((S + B - 1) / B) 0 fuel apply_attributes hfuel
    (by rw [Nat.zero_add]; omega)
    (by intro hm; rw [Nat.zero_add]; exact ⟨by have := h2 hm; omega, h3 hm⟩)
  rw [Nat.zero_mul] at hrun hvis hcs hget
  obtain ⟨hall, hchain, hsum⟩ := chunks_shape S B hpos ((S + B - 1) / B) 0 h1 h2
  refine ⟨ev, apply1, by simpa using hrun, hvis, hcs, hget, ?_, ?_, ?_, ?_⟩
  · intro o ho
    have hmem : chunkAt remotefi.Name S B o
        ∈ (List.range' 0 ((S + B - 1) / B) B).map (chunkAt remotefi.Name S B) :=
      List.mem_map_of_mem _ ho
    by_cases hexist : (((chunkAt remotefi.Name S B o).Offset
        + (chunkAt remotefi.Name S B o).Size : Nat) : Int) ≤ existingsize
    · left
      rw [hcs]
      exact List.mem_filter.mpr ⟨hmem, decide_eq_true hexist⟩
    · right
      rw [hget]
      refine List.mem_filter.mpr ⟨hmem, ?_⟩
      show (!(decide ((((chunkAt remotefi.Name S B o).Offset
        + (chunkAt remotefi.Name S B o).Size : Nat) : Int) ≤ existingsize)
        && env.hashEqual ((chunkAt remotefi.Name S B o).Offset : Int))) = true
      rw [decide_eq_false hexist]
      rfl
  · rw [hvis]; exact hall
  · rw [hvis]; exact hchain
  · rw [hvis, hsum]; rfl

/-- Witness of C4: 204800 bytes in blocks of 131072, the first block already
present locally with the right hash: its checksum is requested, the second
chunk of 73728 bytes is fetched. -/
theorem C4_block_loop_chunks_witness :
    issuedSucceed baseClient firstBlockFile fileA 131072 ∧
    withinOffsets firstBlockFile ∧
    ∃ ev apply1,
      blockLoop baseClient firstBlockFile "/base/a" fileA 131072 3 0 true false
        = some (ev, true, apply1) ∧
      blockVisits ev = [(0, 131072), (131072, 73728)] ∧
      checksumRequests ev = [{ Path := "/a", Offset := 0, Size := 131072 }] ∧
      getRequests ev = [{ Path := "/a", Offset := 131072, Size := 73728 }] := by
  have hb : int64 baseClient.BlockSize = 131072 := by decide
  have hs : fileA.Size = 204800 := rfl
  have hok : issuedSucceed baseClient firstBlockFile fileA 131072 := by
    intro k hk
    rw [hb, hs] at hk
    have hk01 : k = 0 ∨ k = 1 := by omega
    rcases hk01 with rfl | rfl
    · decide
    · decide
  have hfile : withinOffsets firstBlockFile := by
    intro i n h
    simp only [firstBlockFile] at h
    rcases h with h | h
    · split at h
      · cases h
        omega
      · cases h
    · split at h
      · cases h
        omega
      · cases h
  obtain ⟨ev, apply1, hrun, hvis, hcs, hget, _⟩ := C4_block_loop_chunks baseClient
    firstBlockFile "/base/a" fileA 131072 204800 131072 3 false (by decide) (by decide)
    (by decide) (by decide) (by decide) hok hfile (by decide)
  refine ⟨hok, hfile, ev, apply1, hrun, ?_, ?_, ?_⟩
  · rw [hvis]
    decide
  · rw [hcs]
    decide
  · rw [hget]
    decide

/-- C5 as stated fails on the length of the second chunk: for `/a` of 204800
bytes with no local copy and blocks of 131072 bytes the worker requests the
chunks (0, 131072) and (131072, 73728), and 73728 bytes are 72 KiB, not the
76 KiB of the claim. -/
theorem C5_second_chunk_is_not_76KiB :
    getChunks (fileWorkerBody 3 baseClient quietEnv fileA rootPending).2.2.trace
      = [(0, 131072), (131072, 72 * 1024)] ∧
    getChunks (fileWorkerBody 3 baseClient quietEnv fileA rootPending).2.2.trace
      ≠ [(0, 128 * 1024), (131072, 76 * 1024)] := by
  decide

/-- C5 (amended): for a remote regular file of 204800 bytes that is not part
of a hardlink group and has no local copy, with `BlockSize = 131072`, a newly
created local file of size 0 and no failing operation, the file worker takes
the `create_file` path and issues `GetChunk` for exactly two chunks, offset 0
with length 131072 (128 KiB) and offset 131072 with length 73728 (72 KiB), and
issues no `ChecksumChunk`. -/
theorem C5_new_file_two_chunks (fuel : Nat) (c : Client) (env : Env) (remotefi : FileInfo)
    (s : State) (hfuel : 3 ≤ fuel) (hblock : c.BlockSize = 131072)
    (hsize : remotefi.Size = 204800) (hreg : remotefi.Mode &&& ModeSymlink = 0)
    (hnlink : remotefi.Nlink ≤ 1)
    (hmissing : env.lstat (filepathJoin [c.BasePath, remotefi.Name]) = StatResult.notExist)
    (hcreate : env.create = CreateResult.ok) (hopen : env.openFile = true)
    (hempty : env.existingsize = 0) (hsopen : env.serverOpen = true)
    (hok : noFailure c env remotefi) :
    ∃ l s1 ev, fileWorkerSteps fuel c env remotefi s = (Flow.next, l, s1) ∧
      l.create_file = true ∧ s1.trace = s.trace ++ ev ∧
      Event.Create l.localfi l.remotefi ∈ ev ∧
      getChunks ev = [(0, 131072), (131072, 73728)] ∧ checksumChunks ev = [] := by
  obtain ⟨f, rfl⟩ : ∃ f, fuel = f + 3 := ⟨fuel - 3, by omega⟩
  have hn : ¬ (remotefi.Nlink > 1) := by omega
  have hrest : ∀ r : FileInfo, r.Size = 204800 → r.Mode &&& ModeSymlink = 0 →
      ¬ (r.Nlink > 1) → noFailure c env r →
      ∃ l s1 ev,
        (Step.andThen (Step.andThen (Step.andThen (Step.andThen (Step.andThen (Step.andThen (Step.andThen (Step.andThen (Step.andThen (Step.andThen ((Flow.next,
          ({ localpath := filepathJoin [c.BasePath, remotefi.Name], remotefi := r,
             localfi := { Name := filepathJoin [c.BasePath, remotefi.Name] },
             create_file := true } : Locals), s))
          (registerStage c))
          (verifyStage (f + 3) c env))
          (typeStage env))
          (diffStage env))
          (copyDecisionStage c))
          (materializeStage c env))
          (createStage env))
          (transferStage (f + 3) c env))
          applyStage)
          cleanupStage
          = (Flow.next, l, s1)) ∧
        l.create_file = true ∧ s1.trace = s.trace ++ ev ∧
        Event.Create l.localfi l.remotefi ∈ ev ∧
        getChunks ev = [(0, 131072), (131072, 73728)] ∧ checksumChunks ev = [] := by
    intro r hrs hrm hrn hrok
    have hb := blockLoop_two_chunks c env (filepathJoin [c.BasePath, remotefi.Name]) r f
      true hblock hrs hrok
    refine ⟨{ localpath := filepathJoin [c.BasePath, remotefi.Name], remotefi := r,
              localfi := { Name := filepathJoin [c.BasePath, remotefi.Name] },
              create_file := true, copy_verify_file := true, apply_attributes := true },
      { s with trace := s.trace ++
          [Event.Create { Name := filepathJoin [c.BasePath, remotefi.Name] } r,
           Event.OpenFile (filepathJoin [c.BasePath, remotefi.Name]),
           Event.ServerOpen r.Name,
           Event.Block { Path := r.Name, Offset := 0, Size := 131072 },
           Event.GetChunk { Path := r.Name, Offset := 0, Size := 131072 },
           Event.WriteAt (filepathJoin [c.BasePath, remotefi.Name]) 0,
           Event.Block { Path := r.Name, Offset := 131072, Size := 73728 },
           Event.GetChunk { Path := r.Name, Offset := 131072, Size := 73728 },
           Event.WriteAt (filepathJoin [c.BasePath, remotefi.Name]) 131072,
           Event.ServerClose r.Name,
           Event.ApplyChanges { Name := filepathJoin [c.BasePath, remotefi.Name] } r] },
      _, ?_, rfl, rfl, ?_, ?_, ?_⟩
    · simp [Step.andThen, registerStage, hrn, verifyStage, typeStage, diffStage,
        copyDecisionStage, hrs, hrm, materializeStage, createStage, hcreate, transferStage,
        hopen, hsopen, hempty, State.emit, hb, applyStage, cleanupStage]
    · simp
    · simp [getChunks]
    · simp [checksumChunks]
  by_cases hacl : c.SendACL = true
  · obtain ⟨l, s1, ev, h1, h2⟩ := hrest remotefi hsize hreg hn hok
    have hstart : Step.andThen (statStage c env remotefi s) (aclStage c)
        = (Flow.next,
          ({ localpath := filepathJoin [c.BasePath, remotefi.Name], remotefi := remotefi,
             localfi := { Name := filepathJoin [c.BasePath, remotefi.Name] },
             create_file := true } : Locals), s) := by
      simp [statStage, hmissing, Step.andThen, aclStage, hacl]
    refine ⟨l, s1, ev, ?_, h2⟩
    rw [← h1, fileWorkerSteps, fileDecisions, hstart]
  · obtain ⟨l, s1, ev, h1, h2⟩ := hrest { remotefi with ACL := [] } hsize hreg hn hok
    have hstart : Step.andThen (statStage c env remotefi s) (aclStage c)
        = (Flow.next,
          ({ localpath := filepathJoin [c.BasePath, remotefi.Name],
             remotefi := { remotefi with ACL := [] },
             localfi := { Name := filepathJoin [c.BasePath, remotefi.Name] },
             create_file := true } : Locals), s) := by
      simp [statStage, hmissing, Step.andThen, aclStage, hacl]
    refine ⟨l, s1, ev, ?_, h2⟩
    rw [← h1, fileWorkerSteps, fileDecisions, hstart]

/-- Witness of C5: `/a` of 204800 bytes below `/base`, nothing local. -/
theorem C5_new_file_two_chunks_witness :
    ∃ l s1 ev, fileWorkerSteps 3 baseClient freshEnv fileA rootPending = (Flow.next, l, s1) ∧
      l.create_file = true ∧ s1.trace = rootPending.trace ++ ev ∧
      Event.Create l.localfi l.remotefi ∈ ev ∧
      getChunks ev = [(0, 131072), (131072, 73728)] ∧ checksumChunks ev = [] :=
  C5_new_file_two_chunks 3 baseClient freshEnv fileA rootPending (by decide) (by decide) rfl
    (by decide) (by decide) rfl rfl rfl rfl rfl (fun _ => ⟨rfl, rfl, rfl, rfl⟩)

/-- C10: for a file that exists locally, is not part of a hardlink group, and
agrees with the remote record in type bits, size, mtime, permission bits,
owner and group, with `AlwaysChecksum = false`, the file worker leaves
`create_file`, `copy_verify_file` and `apply_attributes` false and reaches the
report to the cascade with the state unchanged: no call at all is issued
before it, in particular no `Open`, `GetChunk`, `ChecksumChunk`, truncate or
`ApplyChanges`. -/
theorem C10_identical_file_untouched (fuel : Nat) (c : Client) (env : Env)
    (remotefi localfi : FileInfo) (s : State)
    (hstat : env.lstat (filepathJoin [c.BasePath, remotefi.Name]) = StatResult.ok localfi)
    (hnlink : remotefi.Nlink ≤ 1)
    (htype : localfi.Mode &&& ModeType = remotefi.Mode &&& ModeType)
    (hsize : localfi.Size = remotefi.Size) (hmtim : localfi.Mtim = remotefi.Mtim)
    (hperm : Perm localfi.Mode = Perm remotefi.Mode)
    (howner : localfi.Owner = remotefi.Owner) (hgroup : localfi.Group = remotefi.Group)
    (hcs : c.AlwaysChecksum = false) :
    ∃ l, fileDecisions fuel c env remotefi s = (Flow.next, l, s) ∧
      l.create_file = false ∧ l.copy_verify_file = false ∧ l.apply_attributes = false ∧
      fileWorkerSteps fuel c env remotefi s = (Flow.next, l, s) ∧
      fileWorkerBody fuel c env remotefi s = reportStage c env l s := by
  have hn : ¬ (remotefi.Nlink > 1) := by omega
  by_cases hacl : c.SendACL = true
  · have hdec : fileDecisions fuel c env remotefi s
        = (Flow.next, { localpath := filepathJoin [c.BasePath, remotefi.Name],
                        remotefi := remotefi, localfi := localfi }, s) := by
      simp [fileDecisions, statStage, hstat, Step.andThen, aclStage, hacl, registerStage, hn,
        verifyStage, typeStage, htype, diffStage, hsize, hmtim, hperm, howner, hgroup,
        copyDecisionStage, hcs]
    have hsteps : fileWorkerSteps fuel c env remotefi s
        = (Flow.next, { localpath := filepathJoin [c.BasePath, remotefi.Name],
                        remotefi := remotefi, localfi := localfi }, s) := by
      rw [fileWorkerSteps, hdec]
      simp [Step.andThen, materializeStage, createStage, transferStage, applyStage,
        cleanupStage]
    refine ⟨_, hdec, rfl, rfl, rfl, hsteps, ?_⟩
    rw [fileWorkerBody, hsteps]
    rfl
  · have hdec : fileDecisions fuel c env remotefi s
        = (Flow.next, { localpath := filepathJoin [c.BasePath, remotefi.Name],
                        remotefi := { remotefi with ACL := [] },
                        localfi := { localfi with ACL := [] } }, s) := by
      simp [fileDecisions, statStage, hstat, Step.andThen, aclStage, hacl, registerStage, hn,
        verifyStage, typeStage, htype, diffStage, hsize, hmtim, hperm, howner, hgroup,
        copyDecisionStage, hcs]
    have hsteps : fileWorkerSteps fuel c env remotefi s
        = (Flow.next, { localpath := filepathJoin [c.BasePath, remotefi.Name],
                        remotefi := { remotefi with ACL := [] },
                        localfi := { localfi with ACL := [] } }, s) := by
      rw [fileWorkerSteps, hdec]
      simp [Step.andThen, materializeStage, createStage, transferStage, applyStage,
        cleanupStage]
    refine ⟨_, hdec, rfl, rfl, rfl, hsteps, ?_⟩
    rw [fileWorkerBody, hsteps]
    rfl

/-- Witness of C10: `/base/a` equal to the remote `/a`; the only call traced
is the report to the root. -/
theorem C10_identical_file_untouched_witness :
    (∃ l, fileDecisions 3 baseClient syncedEnv fileA rootPending = (Flow.next, l, rootPending) ∧
      l.create_file = false ∧ l.copy_verify_file = false ∧ l.apply_attributes = false ∧
      fileWorkerSteps 3 baseClient syncedEnv fileA rootPending = (Flow.next, l, rootPending) ∧
      fileWorkerBody 3 baseClient syncedEnv fileA rootPending
        = reportStage baseClient syncedEnv l rootPending) ∧
    (fileWorkerBody 3 baseClient syncedEnv fileA rootPending).2.2.trace
      = [Event.ProcessedItemInDir "/", Event.PostProcessDir "/"] :=
  ⟨C10_identical_file_untouched 3 baseClient syncedEnv fileA localA rootPending (by decide)
    (by decide) (by decide) (by decide) (by decide) (by decide) (by decide) (by decide)
    (by decide), by decide⟩

/-- C8 (counterexample): a remote record reporting 2^32 + 1 links observes 0
at its first registration, so the file worker deletes the cache entry after
the first path of the group; one reporting 2^31 + 1 links observes -2^31.
And for a group of two paths, when `os.Link` fails for the second path the
worker has observed 0 but leaves the iteration before the inode cleanup, and
the entry stays in the cache. -/
theorem C8_wide_link_count_and_early_exit :
    ((fileWorkerSteps 3 baseClient quietEnv wideX {}).2.1.remaininghardlinks = 0 ∧
      (wideX.Nlink : Int) - 1 = 4294967296 ∧
      Gonk.Load inodeinfo.Compare (fileWorkerSteps 3 baseClient quietEnv wideX {}).2.2.inodes
        (inodeKey wideX) = none) ∧
    ((fileWorkerSteps 3 baseClient quietEnv halfWideX {}).2.1.remaininghardlinks
        = -2147483648 ∧
      (halfWideX.Nlink : Int) - 1 = 2147483648) ∧
    ((fileWorkerSteps 3 baseClient linkFailsEnv remoteY afterX).1 = Flow.continue_ ∧
      (fileWorkerSteps 3 baseClient linkFailsEnv remoteY afterX).2.1.remaininghardlinks = 0 ∧
      Gonk.Load inodeinfo.Compare
          (fileWorkerSteps 3 baseClient linkFailsEnv remoteY afterX).2.2.inodes (inodeKey remoteY)
        = some { dev := 1, inode := 42, localhardlinkpath := "/base/x", remaining := 0 }) := by
  decide

/-- C8 (amended): for a hardlink group with remote `nlink = k`, `2 ≤ k < 2^31`,
whose `k` paths are registered one after another starting without a cache
entry: after the first `m` registrations (`1 ≤ m ≤ k`) the values observed
were `k - 1, k - 2, ..., k - m` (the `j`-th registration observes `k - j`, so
only the `k`-th observes 0), only the first registration set
`justaddedtoinodecache`, and the entry holds the local path of the first file
as `localhardlinkpath` and `remaining = k - m`.  And for every iteration of
the file worker on a path with more than one link whose local stat does not
fail, `remaininghardlinks` keeps the value observed at registration up to the
end of the iteration, and the entry of the group is gone from the cache at
the end exactly when the iteration reached the inode cleanup (it was not left
by `continue` or `break` before) having observed 0. -/
theorem C8_hardlink_group_registration (c : Client) (k dev inode : Nat) (l0 : Locals)
    (rest : List Locals) (s : State) (hpres : c.PreserveHardlinks = true) (hk : 2 ≤ k)
    (hk2 : k < 2147483648) (hlen : (l0 :: rest).length = k)
    (hgroup : ∀ l ∈ l0 :: rest,
      l.remotefi.Nlink = k ∧ l.remotefi.Dev = dev ∧ l.remotefi.Inode = inode)
    (habsent : Gonk.Load inodeinfo.Compare s.inodes { dev := dev, inode := inode } = none) :
    (∀ m : Nat, 1 ≤ m → m ≤ k →
      (registerAll c ((l0 :: rest).take m) s).1.map
          (fun l => (l.remaininghardlinks, l.justaddedtoinodecache))
        = (List.range m).map (fun (i : Nat) => ((k : Int) - 1 - (i : Int), decide (i = 0))) ∧
      (∃ e, Gonk.Load inodeinfo.Compare (registerAll c ((l0 :: rest).take m) s).2.inodes
          { dev := dev, inode := inode } = some e ∧
        e.localhardlinkpath = l0.localpath ∧ e.remaining = (k : Int) - (m : Int))) ∧
    (∀ (fuel : Nat) (env : Env) (remotefi : FileInfo) (t : State), remotefi.Nlink > 1 →
      env.lstat (filepathJoin [c.BasePath, remotefi.Name]) ≠ StatResult.otherErr →
      (fileWorkerSteps fuel c env remotefi t).2.1.remaininghardlinks
        = (registerStage c (Step.andThen (statStage c env remotefi t) (aclStage c)).2.1
            t).2.1.remaininghardlinks ∧
      (Gonk.Load inodeinfo.Compare (fileWorkerSteps fuel c env remotefi t).2.2.inodes
          (inodeKey remotefi) = none ↔
        (fileWorkerSteps fuel c env remotefi t).1 = Flow.next ∧
        (fileWorkerSteps fuel c env remotefi t).2.1.remaininghardlinks = 0)) := by
  refine ⟨?_, fun fuel env remotefi t hn hstat =>
    fileWorkerSteps_cleanup fuel c env remotefi t hpres hn hstat⟩
  intro m hm1 hmk
  obtain ⟨m1, rfl⟩ : ∃ m1, m = m1 + 1 := ⟨m - 1, by omega⟩
  obtain ⟨hn, hdev, hinode⟩ := hgroup l0 (List.mem_cons_self _ _)
  have hkey : inodeKey l0.remotefi = { dev := dev, inode := inode } := by
    simp [inodeKey, hdev, hinode]
  obtain ⟨l1, s1, e1, hreg, hl1, hload1, hpath1, hrem1⟩ :=
    registerStage_absent c l0 s hpres (by omega) (by rw [hkey]; exact habsent)
  rw [hkey] at hload1
  have hdec : int32 (int32 (l0.remotefi.Nlink : Int) - 1) = (k : Int) - 1 := by
    rw [hn, int32_natCast k hk2, int32_natCast_pred k hk hk2]
  rw [hdec] at hrem1
  have hjust : decide (int32 (int32 (l0.remotefi.Nlink : Int) - 1)
      = int32 (uint64 ((l0.remotefi.Nlink : Int) - 1))) = true := by
    rw [hdec, hn, int32_uint64_pred k hk hk2]
    exact decide_eq_true rfl
  have hrestlen : rest.length = k - 1 := by
    simp only [List.length_cons] at hlen
    omega
  have htl : ((rest.take m1).length : Int) ≤ e1.remaining := by
    rw [hrem1, List.length_take]
    omega
  have hlt1 : e1.remaining < k := by omega
  obtain ⟨hobs, hkeys, e2, hload2, hpath2, hrem2⟩ := registerAll_existing c k dev inode hpres
    hk hk2 (rest.take m1) s1 e1
    (fun x hx => hgroup x (List.mem_cons_of_mem _ (List.mem_of_mem_take hx))) hload1 htl hlt1
  have hall : registerAll c ((l0 :: rest).take (m1 + 1)) s
      = (l1 :: (registerAll c (rest.take m1) s1).1, (registerAll c (rest.take m1) s1).2) := by
    simp [registerAll, hreg]
  have hm1len : (rest.take m1).length = m1 := by
    rw [List.length_take]
    omega
  rw [hall]
  refine ⟨?_, ⟨e2, hload2, hpath2.trans hpath1, ?_⟩⟩
  · have hhead : (l1.remaininghardlinks, l1.justaddedtoinodecache)
        = ((k : Int) - 1 - ((0 : Nat) : Int), decide ((0 : Nat) = 0)) := by
      rw [hl1]
      simp only [hjust]
      rw [hdec]
      simp
    have htail : List.map (fun (i : Nat) => (e1.remaining - 1 - (i : Int), false))
          (List.range m1)
        = List.map ((fun (i : Nat) => ((k : Int) - 1 - (i : Int), decide (i = 0))) ∘ Nat.succ)
          (List.range m1) := by
      apply List.map_congr_left
      intro i _
      have hi : e1.remaining - 1 - (i : Int) = (k : Int) - 1 - ((i + 1 : Nat) : Int) := by
        rw [hrem1]
        push_cast
        omega
      simp only [Function.comp, Nat.succ_eq_add_one, hi]
      simp
    rw [List.map_cons, hobs, hm1len, List.range_succ_eq_map, List.map_cons, List.map_map,
      hhead, htail]
  · rw [hrem2, hrem1, hm1len]
    push_cast
    omega

/-- Witness of C8: the group (1, 42) of `/x`, `/y` and `/z`; and the second
path of the group of `/x` and `/y`, which observes 0, is linked and has the
entry deleted. -/
theorem C8_hardlink_group_registration_witness :
    ((registerAll baseClient
        (([groupMember "/x", groupMember "/y", groupMember "/z"] : List Locals).take 3) {}).1.map
        (fun l => (l.remaininghardlinks, l.justaddedtoinodecache))
      = (List.range 3).map (fun (i : Nat) => (((3 : Nat) : Int) - 1 - (i : Int), decide (i = 0))) ∧
    (∃ e, Gonk.Load inodeinfo.Compare (registerAll baseClient
        (([groupMember "/x", groupMember "/y", groupMember "/z"] : List Locals).take 3) {}).2.inodes
          { dev := 1, inode := 42 } = some e ∧
      e.localhardlinkpath = (groupMember "/x").localpath ∧
      e.remaining = ((3 : Nat) : Int) - ((3 : Nat) : Int))) ∧
    (Gonk.Load inodeinfo.Compare (fileWorkerSteps 3 baseClient quietEnv remoteY afterX).2.2.inodes
        (inodeKey remoteY) = none ↔
      (fileWorkerSteps 3 baseClient quietEnv remoteY afterX).1 = Flow.next ∧
      (fileWorkerSteps 3 baseClient quietEnv remoteY afterX).2.1.remaininghardlinks = 0) ∧
    (fileWorkerSteps 3 baseClient quietEnv remoteY afterX).1 = Flow.next ∧
    (fileWorkerSteps 3 baseClient quietEnv remoteY afterX).2.1.remaininghardlinks = 0 :=
  ⟨(C8_hardlink_group_registration baseClient 3 1 42 (groupMember "/x")
      [groupMember "/y", groupMember "/z"] {} rfl (by decide) (by decide) rfl (by decide) rfl).1 3
      (by decide) (by decide),
   ((C8_hardlink_group_registration baseClient 3 1 42 (groupMember "/x")
      [groupMember "/y", groupMember "/z"] {} rfl (by decide) (by decide) rfl (by decide) rfl).2 3
      quietEnv remoteY afterX (by decide) (by decide)).2,
   by decide, by decide⟩

/-- C6 (the code departs from it): for an existing local sibling of a hardlink
group whose cache entry still has `localinode = 0` (no mutator ever publishes a
non-zero inode), hardlink verification stats the cached `localhardlinkpath`,
and although the local file has the very same (device, inode) pair as the file
found there, it unlinks the local file and sets `create_file`. -/
theorem C6_matching_sibling_is_unlinked (fuel : Nat) (c : Client) (env : Env) (l : Locals)
    (s : State) (ini : inodeinfo) (otherlocalfi : FileInfo)
    (hexists : l.create_file = false) (hnlink : l.remotefi.Nlink > 1)
    (hpres : c.PreserveHardlinks = true) (hnot : l.justaddedtoinodecache = false)
    (hload : Gonk.Load inodeinfo.Compare s.inodes (inodeKey l.remotefi) = some ini)
    (hzero : ini.localinode = 0) (hother : env.lstatRetry 0 = StatResult.ok otherlocalfi)
    (hsameino : l.localfi.Inode = otherlocalfi.Inode) (hsamedev : l.localfi.Dev = otherlocalfi.Dev)
    (hino : l.localfi.Inode ≠ 0) (hrm : env.remove l.localpath = true) :
    verifyStage (fuel + 1) c env l s
      = (Flow.next, { l with create_file := true }, s.emit [Event.Remove l.localpath]) := by
  obtain ⟨pre, post, hd, hpre, he⟩ := Gonk.Load_some_split _ _ _ _ hload
  have _ := hsamedev
  have hne : ¬ (0 = otherlocalfi.Inode) := by
    intro h
    exact hino (hsameino.trans h.symm)
  have hmut : verificationMutator otherlocalfi ini = (ini, none) := by
    simp [verificationMutator, CompareAndSwapUint64, hzero, hne]
  have hm := Gonk.AtomicMutate_append_cons inodeinfo.Compare (verificationMutator otherlocalfi)
    false pre post ini (inodeKey l.remotefi) hpre he
  rw [hmut, ← hd] at hm
  have hfind : findLocalInode env l.remotefi (fuel + 1) 0 ini s.inodes = some (ini, s.inodes) := by
    simp [findLocalInode, hother, hm]
  have hcmp : l.localfi.Inode ≠ ini.localinode := by rw [hzero]; exact hino
  simp [verifyStage, hexists, hnlink, hpres, hnot, hload, hzero, hfind, verifyCompare, hcmp, hrm]
  intro h
  exact absurd h hino

/-- Witness of C6: second run over an unchanged tree with the group `/x`, `/y`
(local inode 100 on device 8 for both).  After `/x` was processed, the worker
unlinks `/base/y` and links it again to `/base/x`. -/
theorem C6_matching_sibling_is_unlinked_witness :
    verifyStage 1 baseClient secondRunEnv siblingY siblingState
      = (Flow.next, { siblingY with create_file := true },
          siblingState.emit [Event.Remove "/base/y"]) ∧
    (fileWorkerBody 3 baseClient secondRunEnv remoteX secondRunStart).2.2.trace
      = [Event.ProcessedItemInDir "/"] ∧
    ((fileWorkerBody 3 baseClient secondRunEnv remoteY afterX).2.2.trace.filter
      (fun e => decide (e = Event.Remove "/base/y") || decide (e = Event.Link "/base/x" "/base/y")))
      = [Event.Remove "/base/y", Event.Link "/base/x" "/base/y"] :=
  ⟨C6_matching_sibling_is_unlinked 0 baseClient secondRunEnv siblingY siblingState
      { dev := 1, inode := 42, localhardlinkpath := "/base/x", remaining := 0 } localX
      rfl (by decide) rfl rfl (by decide) rfl rfl rfl rfl (by decide) rfl,
   by decide, by decide⟩

/-- C13 (the code departs from it): `ApplyChanges` compares the bits outside
the permission mask (`&^ os.ModePerm`), so when the permission bits of the
local and the remote record differ and their other bits agree, no `Chmod` is
issued. -/
theorem C13_chmod_skipped_when_only_permissions_differ (xattrSupported : Bool)
    (aclGet : Option (List Nat)) (fi fi2 : FileInfo)
    (hperm : Perm fi.Mode ≠ fi2.Permissions &&& ModePerm)
    (hother : andNot32 (uint32 fi.Mode) ModePerm = andNot32 fi2.Permissions ModePerm) :
    AttrCall.Chmod fi2 ∉ ApplyChanges xattrSupported aclGet fi fi2 := by
  have _ := hperm
  intro h
  simp only [ApplyChanges, hother, ne_eq, not_true_eq_false, if_false, List.nil_append,
    List.mem_append] at h
  rcases h with (h | h) | h
  · split at h <;> simp at h
  · split at h
    · rcases List.mem_append.mp h with h | h
      · split at h
        · split at h
          · simp at h
          · split at h <;> simp at h
        · simp at h
      · split at h
        · exact Chmod_not_mem_applyXattrs _ _ _ _ h
        · simp at h
    · simp at h
  · split at h <;> simp at h

/-- Witness of C13: local mode 0644, remote permissions 0600, both regular
files; owner and mtime differ as well, and only `Chown` and `SetTimestamps`
are issued. -/
theorem C13_chmod_skipped_when_only_permissions_differ_witness :
    Perm 420 ≠ 384 &&& ModePerm ∧
    AttrCall.Chmod { Name := "/a", Permissions := 384, Owner := 1000, Mtim := ⟨1700000000, 0⟩ }
      ∉ ApplyChanges true (some [])
          { Name := "/base/a", Mode := 420, Permissions := 420 }
          { Name := "/a", Permissions := 384, Owner := 1000, Mtim := ⟨1700000000, 0⟩ } ∧
    ApplyChanges true (some [])
        { Name := "/base/a", Mode := 420, Permissions := 420 }
        { Name := "/a", Permissions := 384, Owner := 1000, Mtim := ⟨1700000000, 0⟩ }
      = [AttrCall.Chown { Name := "/a", Permissions := 384, Owner := 1000, Mtim := ⟨1700000000, 0⟩ },
         AttrCall.SetTimestamps
           { Name := "/a", Permissions := 384, Owner := 1000, Mtim := ⟨1700000000, 0⟩ }] :=
  ⟨by decide,
   C13_chmod_skipped_when_only_permissions_differ true (some [])
     { Name := "/base/a", Mode := 420, Permissions := 420 }
     { Name := "/a", Permissions := 384, Owner := 1000, Mtim := ⟨1700000000, 0⟩ }
     (by decide) (by decide),
   by decide⟩

/-- C14 (the code departs from it): `Compare` subtracts as `uint64` and
converts to `int`, so its sign is not an order.  On one device, inode 1 is
below inode 2^63 + 2 but `Compare` is positive; for inodes 0 and 2^63 both
`Compare(a, b)` and `Compare(b, a)` are negative; and for the inodes 0,
6 * 2^60 and 12 * 2^60 `Compare` is negative from the first to the second and
from the second to the third but positive from the first to the third. -/
theorem C14_compare_is_not_an_order :
    (inodeLess { dev := 1, inode := 1 } { dev := 1, inode := 9223372036854775810 } ∧
      inodeinfo.Compare { dev := 1, inode := 1 } { dev := 1, inode := 9223372036854775810 } > 0) ∧
    (inodeinfo.Compare { dev := 1, inode := 0 } { dev := 1, inode := 9223372036854775808 } < 0 ∧
      inodeinfo.Compare { dev := 1, inode := 9223372036854775808 } { dev := 1, inode := 0 } < 0) ∧
    (inodeinfo.Compare { dev := 1, inode := 0 } { dev := 1, inode := 6917529027641081856 } < 0 ∧
      inodeinfo.Compare { dev := 1, inode := 6917529027641081856 }
        { dev := 1, inode := 13835058055282163712 } < 0 ∧
      inodeinfo.Compare { dev := 1, inode := 0 } { dev := 1, inode := 13835058055282163712 } > 0) := by
  decide

/-- C15: for every path and every directory cache, `ProcessedItemInDir(path)`
returns.  With `r` the number of recursive calls it made (`1 + r` invocations
are traced), at least `r` runs of `PostProcessDir` are traced and at least `r`
entries have left the cache, so `r` is at most the number of entries; and
`r = 0` when the path is "/", when the entry is missing and when its counter
remains positive. -/
theorem C15_cascade_terminates (c : Client) (env : Env) (path : String) (s : State) :
    ∃ s1 r, ProcessedItemInDir c env path s = some s1 ∧
      reportCalls s1.trace = reportCalls s.trace + 1 + r ∧
      postProcessCalls s.trace + r ≤ postProcessCalls s1.trace ∧
      s1.dircache.length + r ≤ s.dircache.length ∧
      (path = "/" → r = 0) ∧
      (Gonk.Load dirinfo.Compare s.dircache { name := path } = none → r = 0) ∧
      (∀ e, Gonk.Load dirinfo.Compare s.dircache { name := path } = some e →
        0 < int32 (e.remaining - 1) → r = 0) := by
  obtain ⟨d1, ev, r, hrun, hcalls, hlen, hfin, h1, h2, h3⟩ :=
    ProcessedItemInDirAux_calls c env (s.dircache.length + 1) path s.dircache (by omega)
  refine ⟨{ s with dircache := d1, trace := s.trace ++ ev }, r, ?_, ?_, ?_, hlen, h1, h2, h3⟩
  · simp [ProcessedItemInDir, hrun]
  · unfold reportCalls at hcalls ⊢
    simp only [List.countP_append, hcalls]
    omega
  · unfold postProcessCalls at hfin ⊢
    simp only [List.countP_append]
    omega

/-- C11 (counterexample): two existing local entries whose type bits differ
from the remote record and for which `Create` is not called.  For `/p`
`os.Remove` fails: the worker leaves the iteration with `create_file` and
`apply_attributes` false.  `/y` is a later path of a preserved hardlink group:
the local symlink is removed by the hardlink verification and replaced by
`os.Link`, which clears `create_file`. -/
theorem C11_type_change_without_create :
    (removeFailsEnv.lstat "/base/p" = StatResult.ok localP ∧
      localP.Mode &&& ModeType ≠ remoteP.Mode &&& ModeType ∧
      (fileWorkerSteps 3 baseClient removeFailsEnv remoteP rootPending).1 = Flow.continue_ ∧
      (fileWorkerSteps 3 baseClient removeFailsEnv remoteP rootPending).2.1.create_file = false ∧
      (fileWorkerSteps 3 baseClient removeFailsEnv remoteP rootPending).2.1.apply_attributes
        = false ∧
      (fileWorkerBody 3 baseClient removeFailsEnv remoteP rootPending).2.2.trace
        = [Event.Remove "/base/p"]) ∧
    (groupTypeChangeEnv.lstat "/base/y" = StatResult.ok linkY ∧
      linkY.Mode &&& ModeType ≠ remoteY.Mode &&& ModeType ∧
      (fileWorkerSteps 3 baseClient groupTypeChangeEnv remoteY afterX).2.1.create_file = false ∧
      (fileWorkerBody 3 baseClient groupTypeChangeEnv remoteY afterX).2.2.trace
        = afterX.trace ++ [Event.Remove "/base/y", Event.Link "/base/x" "/base/y",
            Event.ApplyChanges linkY remoteY, Event.ProcessedItemInDir "/",
            Event.PostProcessDir "/"]) := by
  decide

/-- C11 (amended): for an existing local entry whose type bits differ from the
remote record and which is not a later path of a preserved hardlink group
(`PreserveHardlinks` off, at most one link, or no inode-cache entry for its
device and inode yet), when `os.Remove` succeeds the file worker calls
`os.Remove` on the local path, sets `create_file` and `apply_attributes`, and
calls `Create` with the remote record (its ACL cleared when `SendACL` is off,
its `LinkTo` as received), leaving the iteration only when `Create` fails.
And for every remote symlink, whatever its size and the `AlwaysChecksum`
setting, `copy_verify_file` stays false and no call of the block transfer is
issued. -/
theorem C11_type_change_recreates_and_symlink_skips_transfer (fuel : Nat) (c : Client)
    (env : Env) (remotefi localfi : FileInfo) (s : State)
    (hstat : env.lstat (filepathJoin [c.BasePath, remotefi.Name]) = StatResult.ok localfi)
    (htype : localfi.Mode &&& ModeType ≠ remotefi.Mode &&& ModeType)
    (hlead : c.PreserveHardlinks = false ∨ remotefi.Nlink ≤ 1 ∨
      (Gonk.Load inodeinfo.Compare s.inodes (inodeKey remotefi) = none ∧
        remotefi.Nlink < 18446744073709551616))
    (hremove : env.remove (filepathJoin [c.BasePath, remotefi.Name]) = true) :
    (∃ l s1,
      fileWorkerCreate fuel c env remotefi s
        = (if env.create = CreateResult.ok then Flow.next else Flow.continue_, l, s1) ∧
      l.create_file = true ∧ l.apply_attributes = true ∧
      l.remotefi = (if c.SendACL = true then remotefi else { remotefi with ACL := [] }) ∧
      l.remotefi.LinkTo = remotefi.LinkTo ∧
      s1.trace = s.trace ++ [Event.Remove (filepathJoin [c.BasePath, remotefi.Name]),
        Event.Create l.localfi l.remotefi]) ∧
    (∀ (fuel2 : Nat) (c2 : Client) (env2 : Env) (remotefi2 : FileInfo) (s2 : State),
      remotefi2.Mode &&& ModeSymlink ≠ 0 →
      (fileWorkerSteps fuel2 c2 env2 remotefi2 s2).2.1.copy_verify_file = false ∧
      ∃ ev, (fileWorkerBody fuel2 c2 env2 remotefi2 s2).2.2.trace = s2.trace ++ ev ∧
        ∀ e ∈ ev, e.isTransfer = false) := by
  refine ⟨?_, fun fuel2 c2 env2 remotefi2 s2 h => symlink_no_transfer fuel2 c2 env2 remotefi2 s2 h⟩
  unfold fileWorkerCreate fileDecisions
  cases hacl : c.SendACL
  · have hstart : Step.andThen (statStage c env remotefi s) (aclStage c)
        = (Flow.next, { localpath := filepathJoin [c.BasePath, remotefi.Name],
                        remotefi := { remotefi with ACL := [] },
                        localfi := { localfi with ACL := [] } }, s) := by
      simp only [statStage, hstat, Step.andThen, aclStage, hacl, Bool.not_false, if_true]
    rw [hstart]
    obtain ⟨l2, s2, hrun, h1, h2, h3, h4, h5⟩ := type_change_from_registration fuel c env
      { localpath := filepathJoin [c.BasePath, remotefi.Name],
        remotefi := { remotefi with ACL := [] },
        localfi := { localfi with ACL := [] } } s rfl hlead htype hremove
    refine ⟨l2, s2, hrun, h1, h2, ?_, ?_, ?_⟩
    · rw [h3]; simp
    · rw [h3]
    · rw [h5, h4, h3]
  · have hstart : Step.andThen (statStage c env remotefi s) (aclStage c)
        = (Flow.next, { localpath := filepathJoin [c.BasePath, remotefi.Name],
                        remotefi := remotefi, localfi := localfi }, s) := by
      simp only [statStage, hstat, Step.andThen, aclStage, hacl, Bool.not_true,
        Bool.false_eq_true, if_false]
    rw [hstart]
    obtain ⟨l2, s2, hrun, h1, h2, h3, h4, h5⟩ := type_change_from_registration fuel c env
      { localpath := filepathJoin [c.BasePath, remotefi.Name],
        remotefi := remotefi, localfi := localfi } s rfl hlead htype hremove
    refine ⟨l2, s2, hrun, h1, h2, ?_, ?_, ?_⟩
    · rw [h3]; simp
    · rw [h3]
    · rw [h5, h4, h3]

/-- Witness of C11: local `/base/p` is a regular file and remote `/p` a symlink
to `target`; the path is removed and `Create` is called with the remote
record. -/
theorem C11_type_change_recreates_and_symlink_skips_transfer_witness :
    typeChangeEnv.lstat (filepathJoin [baseClient.BasePath, remoteP.Name])
      = StatResult.ok localP ∧
    localP.Mode &&& ModeType ≠ remoteP.Mode &&& ModeType ∧
    (∃ l s1, fileWorkerCreate 3 baseClient typeChangeEnv remoteP rootPending
        = (Flow.next, l, s1) ∧
      l.create_file = true ∧ l.apply_attributes = true ∧ l.remotefi = remoteP ∧
      l.remotefi.LinkTo = "target" ∧
      s1.trace = [Event.Remove "/base/p", Event.Create l.localfi l.remotefi]) ∧
    (fileWorkerSteps 3 baseClient typeChangeEnv remoteP rootPending).2.1.copy_verify_file
      = false ∧
    (fileWorkerBody 3 baseClient typeChangeEnv remoteP rootPending).2.2.trace
      = [Event.Remove "/base/p", Event.Create localP remoteP,
         Event.ApplyChanges localP remoteP, Event.ProcessedItemInDir "/",
         Event.PostProcessDir "/"] := by
  have h := C11_type_change_recreates_and_symlink_skips_transfer 3 baseClient typeChangeEnv
    remoteP localP rootPending (by decide) (by decide) (Or.inr (Or.inl (by decide)))
    (by decide)
  obtain ⟨l, s1, h1, h2, h3, h4, h5, h6⟩ := h.1
  refine ⟨by decide, by decide, ⟨l, s1, h1, h2, h3, ?_, ?_, ?_⟩, (h.2 3 baseClient typeChangeEnv
    remoteP rootPending (by decide)).1, by decide⟩
  · rw [h4]; decide
  · rw [h5]; rfl
  · have hp : filepathJoin [baseClient.BasePath, remoteP.Name] = "/base/p" := by decide
    rw [h6, hp]
    rfl

/-- C12 (counterexample): with `Delete` off the file worker hands `/base/p` to
`os.Remove`, because the local entry is a regular file and the remote one a
symlink; the directory worker hands `/base/d` to `os.RemoveAll`, because the
local entry is a regular file and the remote one a directory; and the file
worker hands `/base/y` to `os.Remove` although it has the type of the remote
record, because `/y` is a later path of a preserved hardlink group. -/
theorem C12_removals_with_delete_off :
    baseClient.Delete = false ∧
    removals (fileWorkerBody 3 baseClient typeChangeEnv remoteP rootPending).2.2.trace
      = ["/base/p"] ∧
    (dirWorkerBody baseClient typeChangeEnv remoteRoot rootListed).2.trace
      = [Event.RemoveAll "/base/d", Event.MkdirAll "/base/d"] ∧
    localY.Mode &&& ModeType = remoteY.Mode &&& ModeType ∧
    removals (fileWorkerBody 3 baseClient secondRunEnv remoteY afterX).2.2.trace
      = ["/base/y"] := by
  decide

/-- C12 (amended): with `Delete` off `PostProcessDir` hands no path to
`os.Remove` or `os.RemoveAll`.  The body of the file worker loop never calls
`os.RemoveAll` and calls `os.Remove` at most once, on the local path of the
remote record it processes, and only when that path exists locally and either
its type bits differ from those of the remote record or the record is a later
path of a preserved hardlink group (`PreserveHardlinks` on, more than one
link, and a cache entry for its device and inode present before the
iteration).  Every path the directory worker hands to them is the local path
of a listed remote directory at which a local entry exists that is not a
directory. -/
theorem C12_removals_only_replace_entries (fuel : Nat) (c : Client) (env : Env)
    (item : dirinfo) (remotefi dir : FileInfo) (s : State) (hdel : c.Delete = false) :
    removals (PostProcessDir c env item) = [] ∧
    (∃ ev, (fileWorkerBody fuel c env remotefi s).2.2.trace = s.trace ++ ev ∧
      (∀ p, Event.RemoveAll p ∉ ev) ∧
      (removals ev = [] ∨
        (removals ev = [filepathJoin [c.BasePath, remotefi.Name]] ∧
          ∃ localfi,
            env.lstat (filepathJoin [c.BasePath, remotefi.Name]) = StatResult.ok localfi ∧
            (localfi.Mode &&& ModeType ≠ remotefi.Mode &&& ModeType ∨
              (c.PreserveHardlinks = true ∧ remotefi.Nlink > 1 ∧
                ∃ e, Gonk.Load inodeinfo.Compare s.inodes (inodeKey remotefi) = some e))))) ∧
    (∃ ev, (dirWorkerBody c env dir s).2.trace = s.trace ++ ev ∧
      ∀ p ∈ removals ev, ∃ resp remotedir localstat,
        env.serverList dir.Name = some resp ∧ remotedir ∈ resp.Files ∧
        remotedir.IsDir = true ∧ p = filepathJoin [c.BasePath, remotedir.Name] ∧
        env.lstat p = StatResult.ok localstat ∧ localstat.IsDir = false) :=
  ⟨removals_PostProcessDir c env item hdel, fileWorkerBody_removal fuel c env remotefi s hdel,
    removals_dirWorkerBody c env dir s hdel⟩

/-- Witness of C12: the default client, which has `Delete` off, on the local
regular files `/base/p` and `/base/d`. -/
theorem C12_removals_only_replace_entries_witness :
    baseClient.Delete = false ∧
    removals (PostProcessDir baseClient typeChangeEnv { name := "/" }) = [] ∧
    (∃ ev, (fileWorkerBody 3 baseClient typeChangeEnv remoteP rootPending).2.2.trace
        = rootPending.trace ++ ev ∧
      (∀ p, Event.RemoveAll p ∉ ev) ∧
      (removals ev = [] ∨
        (removals ev = [filepathJoin [baseClient.BasePath, remoteP.Name]] ∧
          ∃ localfi,
            typeChangeEnv.lstat (filepathJoin [baseClient.BasePath, remoteP.Name])
              = StatResult.ok localfi ∧
            (localfi.Mode &&& ModeType ≠ remoteP.Mode &&& ModeType ∨
              (baseClient.PreserveHardlinks = true ∧ remoteP.Nlink > 1 ∧
                ∃ e, Gonk.Load inodeinfo.Compare rootPending.inodes (inodeKey remoteP)
                  = some e))))) ∧
    (∃ ev, (dirWorkerBody baseClient typeChangeEnv remoteRoot rootPending).2.trace
        = rootPending.trace ++ ev ∧
      ∀ p ∈ removals ev, ∃ resp remotedir localstat,
        typeChangeEnv.serverList remoteRoot.Name = some resp ∧ remotedir ∈ resp.Files ∧
        remotedir.IsDir = true ∧ p = filepathJoin [baseClient.BasePath, remotedir.Name] ∧
        typeChangeEnv.lstat p = StatResult.ok localstat ∧ localstat.IsDir = false) :=
  ⟨rfl, C12_removals_only_replace_entries 3 baseClient typeChangeEnv { name := "/" } remoteP
    remoteRoot rootPending rfl⟩

end Fastsync
